import Mathlib

/-!
flac-mate: the rename engine.

A shallow embedding of the rename command of flac-mate (`cmd/rename.go`, with the
parts of `internal/flac.go` and `pkg/images.go` it calls) and theorems about it.

Conventions of the embedding:

* a Go `string` is the list of its characters (`Str`);
* a Go `map` is an association list; where the program ranges over a map and the
  result depends on the iteration order, that order is an explicit argument;
* the operating system (directory listings, `metaflac`, image decoding, `os.Rename`,
  the confirmation prompt) is a record of functions over an abstract state.
-/

set_option autoImplicit false

namespace FlacMate

/-- A Go string, as the sequence of its characters. -/
abbrev Str := List Char

deriving instance DecidableEq for Except

/-! ## Package `strings` -/

/-- Go `strings.HasPrefix(s, pre)`. -/
def HasPrefix : Str → Str → Bool
  | _, [] => true
  | [], _ :: _ => false
  | c :: cs, p :: ps => c == p && HasPrefix cs ps

/-- Go `strings.HasSuffix(s, suf)`. -/
def HasSuffix (s suf : Str) : Bool :=
  HasPrefix s.reverse suf.reverse

/-- Go `strings.Contains(s, substr)`: `substr` starts at some position of `s`. -/
def Contains : Str → Str → Bool
  | [], substr => HasPrefix [] substr
  | c :: cs, substr => HasPrefix (c :: cs) substr || Contains cs substr

/-- Go `strings.TrimSuffix(s, suf)`. -/
def TrimSuffix (s suf : Str) : Str :=
  if HasSuffix s suf then s.take (s.length - suf.length) else s

/-- The scan of `strings.ReplaceAll`: the first argument counts the characters of the
match just replaced that are still to be passed over. Matches are taken leftmost
first and do not overlap. -/
def replaceAllFrom (old new : Str) : Nat → Str → Str
  | _, [] => if old.isEmpty then new else []
  | skip + 1, _ :: cs => replaceAllFrom old new skip cs
  | 0, c :: cs =>
    if old.isEmpty then new ++ c :: replaceAllFrom old new 0 cs
    else if HasPrefix (c :: cs) old then new ++ replaceAllFrom old new (old.length - 1) cs
    else c :: replaceAllFrom old new 0 cs

/-- Go `strings.ReplaceAll(s, old, new)`. -/
def ReplaceAll (s old new : Str) : Str :=
  replaceAllFrom old new 0 s

/-- The lower case of one rune, as far as it can be told apart by a comparison with
ASCII text: the ASCII capitals and the two runes outside ASCII whose lower case is an
ASCII letter (U+0130 and U+212A). Every other rune outside ASCII has a lower case
outside ASCII and is kept. -/
def toLowerRune (c : Char) : Char :=
  if c = Char.ofNat 0x130 then 'i'
  else if c = Char.ofNat 0x212A then 'k'
  else c.toLower

/-- Go `strings.ToLower(s)`, see `toLowerRune`. -/
def ToLower (s : Str) : Str :=
  s.map toLowerRune

/-! ## The alias table (`internal/flac.go`) -/

def TagAlbumArtist : Str := "ALBUMARTIST".toList
def TagAlbum : Str := "ALBUM".toList
def TagArtist : Str := "ARTIST".toList
def TagBand : Str := "BAND".toList
def TagComment : Str := "COMMENT".toList
def TagComposer : Str := "COMPOSER".toList
def TagDate : Str := "DATE".toList
def TagDiscNumber : Str := "DISCNUMBER".toList
def TagDiscsTotal : Str := "DISCTOTAL".toList
def TagGenre : Str := "GENRE".toList
def TagTitle : Str := "TITLE".toList
def TagTrackNumber : Str := "TRACKNUMBER".toList
def TagTracksTotal : Str := "TRACKTOTAL".toList

/-- The map `MAPPINGS` from short codes to tag names, as written in the source. -/
def MAPPINGS : List (Str × Str) :=
  [ ("a".toList, TagArtist),
    ("aa".toList, TagAlbumArtist),
    ("b".toList, TagAlbum),
    ("ba".toList, TagBand),
    ("c".toList, TagComposer),
    ("cm".toList, TagComment),
    ("d".toList, TagDate),
    ("g".toList, TagGenre),
    ("n".toList, TagTrackNumber),
    ("nt".toList, TagTracksTotal),
    ("t".toList, TagTitle),
    ("di".toList, TagDiscNumber),
    ("dt".toList, TagDiscsTotal) ]

/-! ## The scheme compiler (`unwrapKeys`) -/

/-- The error of `unwrapKeys`. -/
inductive SchemeError where
  /-- The message "error: %t or %n has to be present in scheme". -/
  | titleOrTrackMissing
  deriving DecidableEq, Repr

/-- One step of the loop of `unwrapKeys`: the short code is replaced by the long
placeholder. -/
def unwrapKey (scheme : Str) (entry : Str × Str) : Str :=
  ReplaceAll scheme ('%' :: entry.1) ("%(".toList ++ entry.2 ++ ")s".toList)

/-- The function `unwrapKeys`. The loop ranges over the Go map `MAPPINGS`, whose
iteration order the language leaves open: `order` is the order of the entries in this
call, a permutation of `MAPPINGS`. -/
def unwrapKeys (order : List (Str × Str)) (scheme : Str) (directory : Bool) :
    Except SchemeError Str :=
  if !directory && (!Contains scheme "%t".toList && !Contains scheme "%n".toList) then
    .error SchemeError.titleOrTrackMissing
  else
    .ok (order.foldl unwrapKey scheme)

/-! ## Package `path/filepath` (Unix) -/

/-- The elements of a path: the pieces between its separators. -/
def splitSlash : Str → List Str
  | [] => [[]]
  | c :: cs =>
    if c = '/' then [] :: splitSlash cs
    else
      match splitSlash cs with
      | [] => [[c]]
      | e :: es => (c :: e) :: es

/-- The inner loop of the `..` case of `filepath.Clean`: from the write index `w`, step
back while `w > dotdot` and the buffer holds no separator at `w`. -/
def cleanScanBack (dotdot : Nat) (out : Str) : Nat → Nat
  | 0 => 0
  | w + 1 =>
    if dotdot < w + 1 ∧ out.get? (w + 1) ≠ some '/' then cleanScanBack dotdot out w
    else w + 1

/-- The state of the loop of `filepath.Clean`: the output buffer up to the write index,
and the index `dotdot` below which `..` must not backtrack. -/
structure CleanState where
  out : Str
  dotdot : Nat
  deriving DecidableEq, Repr

/-- One round of the loop of `filepath.Clean`, on the next element of the path: an
empty element and `.` are dropped, `..` removes the last element written (or is
written itself when the path is not rooted and nothing is left to remove), any other
element is copied after a separator. -/
def cleanStep (rooted : Bool) (st : CleanState) (elem : Str) : CleanState :=
  if elem = [] then st
  else if elem = ['.'] then st
  else if elem = ['.', '.'] then
    if st.dotdot < st.out.length then
      { st with out := st.out.take (cleanScanBack st.dotdot st.out (st.out.length - 1)) }
    else if !rooted then
      let out := (if 0 < st.out.length then st.out ++ ['/'] else st.out) ++ ['.', '.']
      { out := out, dotdot := out.length }
    else st
  else
    let out :=
      if (rooted && st.out.length != 1) || (!rooted && st.out.length != 0) then st.out ++ ['/']
      else st.out
    { st with out := out ++ elem }

/-- Go `filepath.Clean(path)`. -/
def Clean (path : Str) : Str :=
  match path with
  | [] => ['.']
  | c :: cs =>
    let rooted : Bool := c = '/'
    let start : CleanState := if rooted then { out := ['/'], dotdot := 1 } else { out := [], dotdot := 0 }
    let rest : Str := if rooted then cs else c :: cs
    let st := (splitSlash rest).foldl (cleanStep rooted) start
    if st.out.length = 0 then ['.'] else st.out

/-- Go `filepath.Join(a, b)`: the non-empty arguments from the first one on, joined by a
separator and cleaned; the empty string when both are empty. -/
def Join (a b : Str) : Str :=
  if a ≠ [] then Clean (a ++ '/' :: b)
  else if b ≠ [] then Clean b
  else []

/-- Go `filepath.Dir(path)`: all but the last element of the path, cleaned. -/
def Dir (path : Str) : Str :=
  Clean (path.reverse.dropWhile (fun c => c != '/')).reverse

/-- The loop of `filepath.Ext`, from the last character backwards: the second argument
holds the characters passed so far. -/
def extScan : Str → Str → Str
  | [], _ => []
  | c :: rest, acc =>
    if c = '/' then []
    else if c = '.' then c :: acc
    else extScan rest (c :: acc)

/-- Go `filepath.Ext(path)`: the suffix of the last element from its last dot on. -/
def Ext (path : Str) : Str :=
  extScan path.reverse []

/-! ## Metadata and schemes (`cmd/rename.go`) -/

/-- The metadata of one file, a Go `map[string]string`. -/
abbrev Metadata := List (Str × Str)

/-- The tag set of a directory, a Go `map[string]map[string]bool`: for every tag the
set of its values (the inner map only ever holds `true`). -/
abbrev AlbumMetadata := List (Str × List Str)

/-- The assignment `m[k] = v` on a Go map. -/
def mapSet {α β : Type} [DecidableEq α] (k : α) (v : β) : List (α × β) → List (α × β)
  | [] => [(k, v)]
  | (k', v') :: rest => if k' = k then (k, v) :: rest else (k', v') :: mapSet k v rest

/-- The class `\w` of Go regular expressions: `[0-9A-Za-z_]`. -/
def isWordChar (c : Char) : Bool :=
  c.isAlphanum || c = '_'

/-- A match of the regular expression `\((\w+)\)` at the start of the text: the word
captured by the group. -/
def matchParenTag : Str → Option Str
  | '(' :: rest =>
    let tag := rest.takeWhile isWordChar
    if tag ≠ [] ∧ (rest.drop tag.length).head? = some ')' then some tag else none
  | _ => none

/-- The scan of `FindAllStringSubmatch` for `\((\w+)\)`: leftmost matches that do not
overlap; the first argument counts the characters of the last match still to be passed
over. The result lists the captured group of every match. -/
def findParenTagsFrom : Nat → Str → List Str
  | _, [] => []
  | skip + 1, _ :: cs => findParenTagsFrom skip cs
  | 0, c :: cs =>
    match matchParenTag (c :: cs) with
    | some tag => tag :: findParenTagsFrom (tag.length + 1) cs
    | none => findParenTagsFrom 0 cs

/-- The tags of a scheme as `hasSufficientMetadata` and `canRenameDirectory` extract
them: `regexp.MustCompile("\((\w+)\)").FindAllStringSubmatch(scheme, -1)`, group 1. -/
def schemeTags (scheme : Str) : List Str :=
  findParenTagsFrom 0 scheme

/-- A match of the regular expression `%\((\w+)\)s` at the start of the text: the tag
captured by the group. The match is `tag.length + 4` characters long. -/
def matchPlaceholder : Str → Option Str
  | '%' :: '(' :: rest =>
    let tag := rest.takeWhile isWordChar
    if tag ≠ [] ∧ HasPrefix (rest.drop tag.length) [')', 's'] then some tag else none
  | _ => none

/-- The text of the placeholder of a tag, `%(tag)s`. -/
def placeholder (tag : Str) : Str :=
  '%' :: '(' :: tag ++ [')', 's']

/-- The scan of `ReplaceAllStringFunc` in `applyMetadataToScheme`: every match of
`%\((\w+)\)s` is replaced by the value of its tag, or kept when the metadata has no
such tag. -/
def applyMetadataFrom (metadata : Metadata) : Nat → Str → Str
  | _, [] => []
  | skip + 1, _ :: cs => applyMetadataFrom metadata skip cs
  | 0, c :: cs =>
    match matchPlaceholder (c :: cs) with
    | some tag =>
      (match metadata.lookup tag with
        | some value => value
        | none => placeholder tag) ++ applyMetadataFrom metadata (tag.length + 3) cs
    | none => c :: applyMetadataFrom metadata 0 cs

/-- The function `applyMetadataToScheme`. -/
def applyMetadataToScheme (scheme : Str) (metadata : Metadata) : Str :=
  applyMetadataFrom metadata 0 scheme

/-- The characters of `unwantedCharsRegex`; 92 is the backslash, 34 the double quote
and 39 the single quote. -/
def unwantedChars : List Char :=
  ['/', Char.ofNat 92, '!', '?', '%', '$', '*', '|', Char.ofNat 34, Char.ofNat 39, '<', '>']

/-- The call `unwantedCharsRegex.ReplaceAllString(s, "")`. -/
def stripUnwanted (s : Str) : Str :=
  s.filter (fun c => !(unwantedChars.contains c))

/-- The function `hasSufficientMetadata`. -/
def hasSufficientMetadata (metadata : Metadata) (scheme : Str) : Bool :=
  if metadata.length = 0 ∨ scheme = [] then false
  else
    (schemeTags scheme).all fun tag =>
      match metadata.lookup tag with
      | none => false
      | some value => value != []

/-- The function `renameFile`: the old and the new path, or `none` where the source
returns `false`. -/
def renameFile (scheme dirname filename : Str) (metadata : Metadata) : Option (Str × Str) :=
  let path := Join dirname filename
  let newFilename := stripUnwanted (applyMetadataToScheme scheme metadata ++ ".flac".toList)
  let newFilepath := Join dirname newFilename
  if path = newFilepath then none else some (path, newFilepath)

/-- The function `renameDir`. -/
def renameDir (dirScheme dirname : Str) (fileMetadata : Metadata) : Option (Str × Str) :=
  let path := Dir dirname
  let newDirname := stripUnwanted (applyMetadataToScheme dirScheme fileMetadata)
  let newFilepath := Join path newDirname
  if dirname = newFilepath then none else some (dirname, newFilepath)

/-- The body of the loop of `appendMetadata` for one entry of the file metadata. -/
def appendEntry (albumMetadata : AlbumMetadata) (entry : Str × Str) : AlbumMetadata :=
  let values := (albumMetadata.lookup entry.1).getD []
  mapSet entry.1 (if entry.2 ∈ values then values else values ++ [entry.2]) albumMetadata

/-- The function `appendMetadata`. -/
def appendMetadata (albumMetadata : AlbumMetadata) (fileMetadata : Metadata) : AlbumMetadata :=
  fileMetadata.foldl appendEntry albumMetadata

/-- The errors a plan records and `canRenameDirectory` returns. -/
inductive PlanError where
  /-- The message "error fetching metadata for (file): (cause)". -/
  | fetchFailed (filename cause : Str)
  /-- The message "no sufficient metadata for (file)". -/
  | insufficientMetadata (filename : Str)
  /-- The message "empty metadata". -/
  | emptyMetadata
  /-- The message "found multi-valued tags (tags)". -/
  | multiValuedTags (tags : List Str)
  /-- The message "missing tag (tag)". -/
  | missingTag (tag : Str)
  /-- The message "tag is empty". -/
  | tagIsEmpty
  /-- The message "cannot rename (directory) due to missing metadata". -/
  | cannotRename (dirname : Str)
  deriving DecidableEq, Repr

/-- The default of the flag behind `flagMetaUniformTags`, `defaultUniformCmdTags`. -/
def defaultUniformCmdTags : List Str :=
  [TagArtist, TagAlbum, TagDate, TagGenre]

/-- The first loop of `canRenameDirectory`: the tags of the check list with more than
one value. -/
def multiValuedTags (flagMetaUniformTags : List Str) (metadata : AlbumMetadata) : List Str :=
  flagMetaUniformTags.filter fun tag => decide (1 < ((metadata.lookup tag).getD []).length)

/-- The second loop of `canRenameDirectory`, over the tags found in the scheme. -/
def checkSchemeTags (metadata : AlbumMetadata) : List Str → Bool × Option PlanError
  | [] => (true, none)
  | tag :: rest =>
    match metadata.lookup tag with
    | none => (false, some (PlanError.missingTag tag))
    | some tagData =>
      if tagData.length = 0 ∨ tagData.length ≠ 1 then (false, some (PlanError.missingTag tag))
      else if tagData.any (fun value => value = []) then (false, some PlanError.tagIsEmpty)
      else checkSchemeTags metadata rest

/-- The function `canRenameDirectory`; the global `flagMetaUniformTags` is an argument. -/
def canRenameDirectory (flagMetaUniformTags : List Str) (metadata : AlbumMetadata)
    (scheme : Str) : Bool × Option PlanError :=
  if metadata.length = 0 then (false, some PlanError.emptyMetadata)
  else if 0 < (multiValuedTags flagMetaUniformTags metadata).length then
    (false, some (PlanError.multiValuedTags (multiValuedTags flagMetaUniformTags metadata)))
  else checkSchemeTags metadata (schemeTags scheme)

/-! ## The operating system, as seen by the planner -/

/-- What the planner asks of the outside world, at one moment of the run. -/
structure World where
  /-- The call `internal.FetchMetadata(path, nil, false)`: the tags of the file, or the
  error of `os.Stat` or of `metaflac`. -/
  FetchMetadata : Str → Except Str Metadata
  /-- The first result of `pkg.IsValidImage(path)`: the file opens and decodes as a
  JPEG or PNG image. -/
  IsValidImage : Str → Bool
  /-- The size `os.Stat(path)` reports, `none` when `os.Stat` fails. -/
  StatSize : Str → Option Nat

/-! ## Cover selection (`pkg/images.go`) -/

/-- The test of the first loop of `GetMainCover`. -/
def isCoverName (image : Str) : Bool :=
  let lower := ToLower image
  Contains lower "front".toList || Contains lower "folder".toList ||
    Contains lower "cover".toList || Contains lower "devant".toList

/-- The body of the second loop of `GetMainCover`, on the pair of `maxSize` and
`maxImage`. -/
def largestStep (w : World) (dirname : Str) (acc : Nat × Str) (image : Str) : Nat × Str :=
  match w.StatSize (Join dirname image) with
  | some size => if acc.1 < size then (size, image) else acc
  | none => acc

/-- The function `pkg.GetMainCover`. -/
def GetMainCover (w : World) (dirname : Str) (images : List Str) : Str :=
  match images with
  | [] => []
  | [image] => image
  | first :: _ =>
    match images.find? isCoverName with
    | some image => image
    | none => (images.foldl (largestStep w dirname) (0, first)).2

/-- The function `renameCover`. -/
def renameCover (w : World) (dirname : Str) (images : List Str) (coverName : Str) :
    Option (Str × Str) :=
  let selectedImage := GetMainCover w dirname images
  if selectedImage = [] then none
  else
    let oldFilepath := Join dirname selectedImage
    let newFilename := coverName ++ Ext selectedImage
    let newFilepath := Join dirname newFilename
    if oldFilepath = newFilepath then none else some (oldFilepath, newFilepath)

/-- The keys of the map `imageExtensions` of `isImage`. -/
def imageExtensions : List Str :=
  [".jpg".toList, ".jpeg".toList, ".png".toList, ".gif".toList, ".bmp".toList,
    ".tiff".toList, ".webp".toList]

/-- The function `isImage`. The validity check is called with the file name as it is
passed in, which is the bare name of the directory entry. -/
def isImage (w : World) (filename : Str) : Bool :=
  let ext := ToLower (Ext filename)
  if ext ∈ imageExtensions then w.IsValidImage filename else false

/-! ## The plan (`renameAction`) -/

/-- The type `renameAction`. `FileActions` is a Go map from old to new paths. -/
structure renameAction where
  Dir : Str
  FileActions : List (Str × Str)
  DirAction : Str × Str
  ImageAction : Str × Str
  Errors : List PlanError
  hasDirAction : Bool
  hasImageAction : Bool
  deriving DecidableEq, Repr

/-- The constructor `NewAction`. -/
def NewAction (directory : Str) : renameAction :=
  { Dir := directory, FileActions := [], DirAction := ([], []), ImageAction := ([], []),
    Errors := [], hasDirAction := false, hasImageAction := false }

namespace renameAction

/-- The method `AddError`. -/
def AddError (a : renameAction) (err : PlanError) : renameAction :=
  { a with Errors := a.Errors ++ [err] }

/-- The method `AddFileAction`. -/
def AddFileAction (a : renameAction) (oldFilepath newFilepath : Str) : renameAction :=
  { a with FileActions := mapSet oldFilepath newFilepath a.FileActions }

/-- The method `SetDirAction`. -/
def SetDirAction (a : renameAction) (oldFilepath newFilepath : Str) : renameAction :=
  { a with DirAction := (oldFilepath, newFilepath), hasDirAction := true }

/-- The method `SetImageAction`. -/
def SetImageAction (a : renameAction) (oldFilepath newFilepath : Str) : renameAction :=
  { a with ImageAction := (oldFilepath, newFilepath), hasImageAction := true }

/-- The method `Actionable`. -/
def Actionable (a : renameAction) : Bool :=
  decide (0 < a.FileActions.length) || a.hasDirAction

/-- The method `EncounteredErrors`. -/
def EncounteredErrors (a : renameAction) : Bool :=
  decide (0 < a.Errors.length)

end renameAction

/-! ## The planner (`workDir`) -/

/-- The local variables of `workDir` that its loop over the file names changes.
`fileMetadata` is `none` for the Go `nil` map: before the first audio file, and after
a fetch that failed. -/
structure WorkState where
  albumMetadata : AlbumMetadata
  collectedImages : List Str
  fileMetadata : Option Metadata
  dirContainsMusic : Bool
  action : renameAction

/-- The test that makes a directory entry an audio file. -/
def isFlac (filename : Str) : Bool :=
  HasSuffix (ToLower filename) ".flac".toList

/-- The body of the loop of `workDir` over the sorted file names. -/
def workFile (w : World) (dirname fileScheme : Str) (st : WorkState) (filename : Str) :
    WorkState :=
  if isFlac filename then
    let st := { st with dirContainsMusic := true }
    match w.FetchMetadata (Join dirname filename) with
    | .error err =>
      { st with
        fileMetadata := none
        action := st.action.AddError (PlanError.fetchFailed filename err) }
    | .ok fileMetadata =>
      let st := { st with fileMetadata := some fileMetadata }
      if !hasSufficientMetadata fileMetadata fileScheme then
        { st with action := st.action.AddError (PlanError.insufficientMetadata filename) }
      else
        { st with
          action :=
            match renameFile fileScheme dirname filename fileMetadata with
            | some (oldPath, newPath) => st.action.AddFileAction oldPath newPath
            | none => st.action
          albumMetadata := appendMetadata st.albumMetadata fileMetadata }
  else if isImage w filename then
    { st with collectedImages := st.collectedImages ++ [filename] }
  else st

/-- The loop of `workDir` that turns the tag set into single values: the tags with
exactly one value, each with that value. -/
def singleMetadata (albumMetadata : AlbumMetadata) : Metadata :=
  albumMetadata.filterMap fun entry =>
    match entry.2 with
    | [value] => some (entry.1, value)
    | _ => none

/-- The part of `workDir` after the loop, for a directory that contains music. -/
def workDirTail (w : World) (flagMetaUniformTags : List Str) (dirname dirScheme coverName : Str)
    (st : WorkState) : renameAction :=
  let action :=
    if 0 < st.collectedImages.length then
      match renameCover w dirname st.collectedImages coverName with
      | some (oldPath, newPath) => st.action.SetImageAction oldPath newPath
      | none => st.action
    else st.action
  match canRenameDirectory flagMetaUniformTags st.albumMetadata dirScheme with
  | (_, some err) => action.AddError err
  | (canRenameDir, none) =>
    if canRenameDir && st.fileMetadata.isSome then
      match renameDir dirScheme dirname (singleMetadata st.albumMetadata) with
      | some (oldPath, newPath) => action.SetDirAction oldPath newPath
      | none => action
    else action.AddError (PlanError.cannotRename dirname)

/-- The function `sort.Strings`: the names in increasing byte order. -/
def sortStrings (names : List Str) : List Str :=
  names.insertionSort (fun a b => a ≤ b)

/-- The function `workDir`; the global `flagMetaUniformTags` is an argument. -/
def workDir (w : World) (flagMetaUniformTags : List Str)
    (dirname : Str) (filenames : List Str) (fileScheme dirScheme coverName : Str) :
    renameAction :=
  let start : WorkState :=
    { albumMetadata := [], collectedImages := [], fileMetadata := none,
      dirContainsMusic := false, action := NewAction dirname }
  let st := (sortStrings filenames).foldl (workFile w dirname fileScheme) start
  if st.dirContainsMusic then workDirTail w flagMetaUniformTags dirname dirScheme coverName st
  else st.action

/-! ## The machine: file system, terminal and their history -/

/-- An entry of a directory listing, as far as `runRenamer` looks at it. -/
structure DirEntry where
  Name : Str
  IsDir : Bool
  deriving DecidableEq, Repr

/-- A directory tree as `filepath.Walk` explores it: the entries of a directory stand in
the order of the walk, which is the lexical order of their names. -/
inductive FsTree where
  | file (name : Str)
  | dir (name : Str) (entries : List FsTree)

/-- The name of the root of a tree. -/
def FsTree.name : FsTree → Str
  | .file name => name
  | .dir name _ => name

/-- What the run does to the outside world, in the order it does it. -/
inductive Event where
  /-- A call `os.ReadDir(dirname)`. -/
  | readDir (dirname : Str)
  /-- The preview table printed by `tui.PrintTable`, with its rows. -/
  | table (rows : List (Str × Str))
  /-- The line "No renaming needed!". -/
  | notice
  /-- The prompt of `tui.Confirm`. -/
  | prompt
  /-- A call `os.Rename(old, new)`, whether it succeeds or fails. -/
  | rename (oldPath newPath : Str)
  deriving DecidableEq, Repr

/-- The state of a run: the file system and the history of the run so far. -/
structure Machine (σ : Type) where
  fs : σ
  trace : List Event

/-- The operating system and the user, over file-system states `σ`. -/
structure System (σ : Type) where
  /-- The oracles of the planner in a state of the file system. -/
  world : σ → World
  /-- The call `os.Stat(path)`: whether the path is a directory, or the error. -/
  Stat : σ → Str → Except Str Bool
  /-- The tree `filepath.Walk` explores from a path, or the error that ends the walk. -/
  Walk : σ → Str → Except Str FsTree
  /-- The call `os.ReadDir(path)`. -/
  ReadDir : σ → Str → Except Str (List DirEntry)
  /-- The call `os.Rename(old, new)`: the new state, or the error (the state stays). -/
  Rename : σ → Str → Str → Except Str σ
  /-- The reply to `tui.Confirm`, given the history of the run: the answer and the error. -/
  Confirm : List Event → Bool × Option Str
  /-- The order in which a `range` over a map of file actions yields its entries, given
  the history of the run. -/
  RangeOrder : List Event → List (Str × Str) → List (Str × Str)
  /-- A `range` over a map yields every entry once. -/
  rangeOrder_perm : ∀ (history : List Event) (actions : List (Str × Str)),
    (RangeOrder history actions).Perm actions

/-- The history extended by one event. -/
def Machine.log {σ : Type} (m : Machine σ) (e : Event) : Machine σ :=
  { m with trace := m.trace ++ [e] }

/-! ## The executor (`renameAction.CarryOut`) -/

/-- The rows of the preview, `data` in `CarryOut`: the file actions in the order the
`range` yields them, then the cover action, then the directory action. -/
def carryOutData (a : renameAction) (rangeOrder : List (Str × Str)) : List (Str × Str) :=
  rangeOrder ++ (if a.hasImageAction then [a.ImageAction] else []) ++
    (if a.hasDirAction then [a.DirAction] else [])

/-- The last loop of `CarryOut`: the renames, up to the first that fails. -/
def renameAll {σ : Type} (sys : System σ) : List (Str × Str) → Machine σ → Option Str × Machine σ
  | [], m => (none, m)
  | tuples :: rest, m =>
    match sys.Rename m.fs tuples.1 tuples.2 with
    | .error err => (some err, m.log (Event.rename tuples.1 tuples.2))
    | .ok fs => renameAll sys rest { fs := fs, trace := m.trace ++ [Event.rename tuples.1 tuples.2] }

/-- The method `CarryOut`. `rangeOrder` is the order in which the `range` over
`FileActions` yields the entries, `answer` is what `tui.Confirm` returns if it is called. -/
def renameAction.CarryOut {σ : Type} (sys : System σ) (a : renameAction)
    (rangeOrder : List (Str × Str)) (answer : Bool × Option Str) (dryrun : Bool)
    (m : Machine σ) : Option Str × Machine σ :=
  let data := carryOutData a rangeOrder
  let m := m.log (Event.table data)
  if dryrun then (none, m)
  else
    let m := m.log Event.prompt
    match answer with
    | (_, some err) => (some err, m)
    | (proceed, none) =>
      if !proceed then (none, m)
      else renameAll sys data m

/-! ## The traversal (`runRenamer`) -/

mutual
/-- The directories the callback of `filepath.Walk` in `runRenamer` collects from a
tree whose root has the given path: a directory, then its entries in turn. -/
def walkDirs (path : Str) : FsTree → List Str
  | .file _ => []
  | .dir _ entries => path :: walkEntries path entries
/-- The walk through the entries of the directory at `path`. -/
def walkEntries (path : Str) : List FsTree → List Str
  | [] => []
  | e :: es => walkDirs (Join path e.name) e ++ walkEntries path es
end

/-- The command-line flags of the rename command, and the flag of the analyze command
that `canRenameDirectory` reads. -/
structure Flags where
  flagRenameScheme : Str
  flagRenameDirScheme : Str
  flagRenameDryrun : Bool
  flagRenameCoverName : Str
  flagMetaUniformTags : List Str

/-- The errors `runRenamer` returns or collects. -/
inductive RunError where
  | scheme (err : SchemeError)
  | os (err : Str)
  deriving DecidableEq, Repr

/-- The function `multierr.Append(left, right)`, on an aggregate that is the list of its
errors (`nil` is the empty list) and an error that may be `nil`. -/
def multierrAppend (left : List RunError) (right : Option RunError) : List RunError :=
  match right with
  | none => left
  | some err => left ++ [err]

/-- The body of the loop of `runRenamer` for one directory, on the machine and the
aggregate `errs`. -/
def processDir {σ : Type} (sys : System σ) (flags : Flags) (fileScheme dirScheme : Str)
    (st : Machine σ × List RunError) (dirname : Str) : Machine σ × List RunError :=
  let m := st.1.log (Event.readDir dirname)
  let errs := st.2
  match sys.ReadDir m.fs dirname with
  | .error e => (m, multierrAppend errs (some (RunError.os e)))
  | .ok entries =>
    -- the variable `err` of the loop body, `nil` once the listing has succeeded
    let err : Option RunError := none
    let filenames := (entries.filter fun entry => !entry.IsDir).map DirEntry.Name
    let action := workDir (sys.world m.fs) flags.flagMetaUniformTags dirname filenames
      fileScheme dirScheme flags.flagRenameCoverName
    let done : Machine σ × List RunError :=
      if action.Actionable then
        match action.CarryOut sys (sys.RangeOrder m.trace action.FileActions)
            (sys.Confirm m.trace) flags.flagRenameDryrun m with
        | (some e, m') => (m', multierrAppend errs (some (RunError.os e)))
        | (none, m') => (m', errs)
      else (m.log Event.notice, errs)
    if action.EncounteredErrors then (done.1, multierrAppend done.2 err) else done

/-- The function `runRenamer`, from the file system `fs` and an empty history: the
error it returns (the empty list for `nil`) and the machine it leaves. `order₁` and
`order₂` are the orders in which the two calls of `unwrapKeys` range over `MAPPINGS`. -/
def runRenamer {σ : Type} (sys : System σ) (flags : Flags) (order₁ order₂ : List (Str × Str))
    (target : Str) (fs : σ) : List RunError × Machine σ :=
  let m : Machine σ := { fs := fs, trace := [] }
  match unwrapKeys order₁ flags.flagRenameScheme false with
  | .error err => ([RunError.scheme err], m)
  | .ok fileScheme =>
    match unwrapKeys order₂ flags.flagRenameDirScheme true with
    | .error err => ([RunError.scheme err], m)
    | .ok dirScheme =>
      match sys.Stat fs target with
      | .error err => ([RunError.os err], m)
      | .ok false => ([], m)
      | .ok true =>
        let target := TrimSuffix target ['/']
        match sys.Walk fs target with
        | .error err => ([RunError.os err], m)
        | .ok tree =>
          let dirs := walkDirs target tree
          let st := dirs.reverse.foldl (processDir sys flags fileScheme dirScheme) (m, [])
          (st.2, st.1)

/-! ## Example inputs and the vocabulary of the theorems -/

/-- A small file system for examples: the state is the list of the paths that exist;
a rename succeeds when its source exists and its target does not. The directory
`/m/A` holds the tracks `1.flac` (artist Foo, titled) and `2.flac` (artist Bar, no
title). -/
def exampleSystem : System (List Str) :=
  { world := fun _ =>
      { FetchMetadata := fun path =>
          if path = "/m/A/1.flac".toList then
            .ok [("ARTIST".toList, "Foo".toList), ("TITLE".toList, "Song".toList),
              ("TRACKNUMBER".toList, "01".toList)]
          else if path = "/m/A/2.flac".toList then
            .ok [("ARTIST".toList, "Bar".toList), ("TRACKNUMBER".toList, "02".toList)]
          else .error "no such file".toList
        IsValidImage := fun _ => false
        StatSize := fun _ => none }
    Stat := fun _ path => .ok (decide (path = "/m".toList ∨ path = "/m/A".toList))
    Walk := fun _ _ => .ok (.dir "m".toList [.dir "A".toList
      [.file "1.flac".toList, .file "2.flac".toList]])
    ReadDir := fun _ path =>
      if path = "/m".toList then .ok [{ Name := "A".toList, IsDir := true }]
      else if path = "/m/A".toList then
        .ok [{ Name := "1.flac".toList, IsDir := false }, { Name := "2.flac".toList, IsDir := false }]
      else .error "no such directory".toList
    Rename := fun paths oldPath newPath =>
      if oldPath ∈ paths ∧ newPath ∉ paths then .ok (newPath :: paths.erase oldPath)
      else .error "rename failed".toList
    Confirm := fun _ => (true, none)
    RangeOrder := fun _ actions => actions
    rangeOrder_perm := fun _ actions => List.Perm.refl actions }

/-- A plan for examples: two file renames and a directory rename. -/
def examplePlan : renameAction :=
  { Dir := "/m/A".toList
    FileActions := [("/m/A/1.flac".toList, "/m/A/01.flac".toList),
      ("/m/A/2.flac".toList, "/m/A/02.flac".toList)]
    DirAction := ("/m/A".toList, "/m/Foo".toList)
    ImageAction := ([], [])
    Errors := []
    hasDirAction := true
    hasImageAction := false }

/-- The values a tag set holds for a tag (none for a tag it does not hold). -/
def tagValues (albumMetadata : AlbumMetadata) (tag : Str) : List Str :=
  (albumMetadata.lookup tag).getD []

/-- What `workDir` knows of a path it makes a key of `FileActions`: its metadata was
fetched and suffices for the file scheme. -/
def Renamable (w : World) (fileScheme : Str) (path : Str) : Prop :=
  ∃ md, w.FetchMetadata path = .ok md ∧ hasSufficientMetadata md fileScheme = true

/-- The event of a rename call. -/
def renameEvent (tuples : Str × Str) : Event :=
  Event.rename tuples.1 tuples.2

/-- The renames of a list applied in turn from a state, when all of them succeed. -/
def applyRenames {σ : Type} (sys : System σ) : List (Str × Str) → σ → Option σ
  | [], fs => some fs
  | tuples :: rest, fs =>
    match sys.Rename fs tuples.1 tuples.2 with
    | .error _ => none
    | .ok fs' => applyRenames sys rest fs'

/-- The scheme holds the placeholder of the tag: it contains the text `%(tag)s`, where
the tag is a non-empty run of word characters. -/
def HasPlaceholder (scheme tag : Str) : Prop :=
  tag ≠ [] ∧ (∀ c ∈ tag, isWordChar c = true) ∧ ∃ pre post, scheme = pre ++ placeholder tag ++ post

/-- Flags for examples: a dry run with the schemes `%n - %t` and `%a`. -/
def exampleFlags : Flags :=
  { flagRenameScheme := "%n - %t".toList
    flagRenameDirScheme := "%a".toList
    flagRenameDryrun := true
    flagRenameCoverName := "cover".toList
    flagMetaUniformTags := defaultUniformCmdTags }

/-- The paths of the example file system at the start. -/
def examplePaths : List Str :=
  ["/m".toList, "/m/A".toList, "/m/A/1.flac".toList, "/m/A/2.flac".toList]

/-- The directories a run has listed, in the order of the calls of `os.ReadDir`: the
listing of a directory opens its round of the loop of `runRenamer`, in which it is
planned and its plan carried out. -/
def listedDirs (trace : List Event) : List Str :=
  trace.filterMap fun e =>
    match e with
    | Event.readDir dirname => some dirname
    | _ => none

/-- The directory `s` with path `p` lies in the tree `t` whose root has path `root`:
it is the root directory itself, or lies in one of its entries. -/
inductive Subdir : Str → FsTree → Str → FsTree → Prop where
  | root (path name : Str) (entries : List FsTree) :
    Subdir path (.dir name entries) path (.dir name entries)
  | step (path name : Str) (entries : List FsTree) (e : FsTree) (p : Str) (s : FsTree) :
    e ∈ entries → Subdir (Join path e.name) e p s → Subdir path (.dir name entries) p s

/-- In the tree `t` with root path `root`, the directory with path `B` lies below the
directory with path `A`: it lies in an entry of `A`. -/
def Below (root : Str) (t : FsTree) (A B : Str) : Prop :=
  ∃ (name : Str) (entries : List FsTree) (e sB : FsTree),
    Subdir root t A (.dir name entries) ∧ e ∈ entries ∧ Subdir (Join A e.name) e B sB

/-- The state of `workDir` when its loop over the sorted file names is done. -/
def workLoop (w : World) (dirname : Str) (filenames : List Str) (fileScheme : Str) : WorkState :=
  (sortStrings filenames).foldl (workFile w dirname fileScheme)
    { albumMetadata := [], collectedImages := [], fileMetadata := none,
      dirContainsMusic := false, action := NewAction dirname }

/-- Go `filepath.Base(path)`: the last element of the path, trailing separators
dropped; `.` for the empty path and `/` for a path of separators only. -/
def Base (path : Str) : Str :=
  if path = [] then ['.']
  else
    let last := ((path.reverse.dropWhile fun c => c = '/').takeWhile fun c => c != '/').reverse
    if last = [] then ['/'] else last

/-- The size on disk of a cover candidate of a directory, as `GetMainCover` reads it;
zero when `os.Stat` fails. -/
def imageSize (w : World) (dirname image : Str) : Nat :=
  (w.StatSize (Join dirname image)).getD 0

/-- A world for examples of cover selection and of the scenario of two tracks: the
directory `/m/X` holds `a.flac` and `b.flac`, tracks 1 and 2 of the album Bar by Foo,
and so does the directory `/m/Foo - Bar`; every file with an image extension is a
valid image; `01.jpg` has 900 bytes, `cover.jpg` 10, `a.jpg` 5, `b.jpg` and `c.jpg` 7. -/
def scenarioWorld : World :=
  { FetchMetadata := fun path =>
      if path = "/m/X/a.flac".toList ∨ path = "/m/Foo - Bar/a.flac".toList then
        .ok [("ARTIST".toList, "Foo".toList), ("TITLE".toList, "Song A".toList),
          ("TRACKNUMBER".toList, "01".toList), ("ALBUM".toList, "Bar".toList)]
      else if path = "/m/X/b.flac".toList ∨ path = "/m/Foo - Bar/b.flac".toList then
        .ok [("ARTIST".toList, "Foo".toList), ("TITLE".toList, "Song B".toList),
          ("TRACKNUMBER".toList, "02".toList), ("ALBUM".toList, "Bar".toList)]
      else .error "no such file".toList
    IsValidImage := fun _ => true
    StatSize := fun path =>
      if path = "/m/X/01.jpg".toList then some 900
      else if path = "/m/X/cover.jpg".toList then some 10
      else if path = "/m/X/a.jpg".toList then some 5
      else if path = "/m/X/b.jpg".toList then some 7
      else if path = "/m/X/c.jpg".toList then some 7
      else none }

/-- The plan `runRenamer` builds in the round of a directory from its listing: the
call of `workDir` on the names of the entries that are no directories. -/
def roundPlan {σ : Type} (sys : System σ) (flags : Flags) (fileScheme dirScheme : Str)
    (fs : σ) (dirname : Str) (entries : List DirEntry) : renameAction :=
  workDir (sys.world fs) flags.flagMetaUniformTags dirname
    ((entries.filter fun entry => !entry.IsDir).map DirEntry.Name)
    fileScheme dirScheme flags.flagRenameCoverName

/-- The listing of the root of the example file system. -/
def exampleRootEntries : List DirEntry :=
  [{ Name := "A".toList, IsDir := true }]

/-- A proper element of a path: a non-empty name without separator other than `.` and
`..`. -/
def IsElement (e : Str) : Prop :=
  e ≠ [] ∧ e ≠ ['.'] ∧ e ≠ ['.', '.'] ∧ '/' ∉ e

/-- A prefix of a path that is empty or ends in a separator: what goes before the
last element. -/
def IsDirPrefix (pre : Str) : Prop :=
  pre = [] ∨ ∃ p, pre = p ++ ['/']

/-- The invariant of the loop of `filepath.Clean` on a rooted path: the buffer starts
with the separator and `dotdot` stays behind it. -/
def RootedState (st : CleanState) : Prop :=
  st.dotdot = 1 ∧ ∃ t, st.out = '/' :: t

/-- The pattern `%n - %a - %t` while `unwrapKeys` works on it: each of the three codes
is either expanded already or not yet. -/
def fileStage (n a t : Bool) : Str :=
  (if n then "%(TRACKNUMBER)s".toList else "%n".toList) ++ " - ".toList ++
    (if a then "%(ARTIST)s".toList else "%a".toList) ++ " - ".toList ++
    (if t then "%(TITLE)s".toList else "%t".toList)

/-- The pattern `%a - %b` while `unwrapKeys` works on it. -/
def dirStage (a b : Bool) : Str :=
  (if a then "%(ARTIST)s".toList else "%a".toList) ++ " - ".toList ++
    (if b then "%(ALBUM)s".toList else "%b".toList)

/-- The ingested metadata of the first track of the scenario. -/
def trackA : Metadata :=
  [("ARTIST".toList, "Foo".toList), ("TITLE".toList, "Song A".toList),
    ("TRACKNUMBER".toList, "01".toList), ("ALBUM".toList, "Bar".toList)]

/-- The ingested metadata of the second track of the scenario. -/
def trackB : Metadata :=
  [("ARTIST".toList, "Foo".toList), ("TITLE".toList, "Song B".toList),
    ("TRACKNUMBER".toList, "02".toList), ("ALBUM".toList, "Bar".toList)]

/-- Two states of the loop of `workDir` that agree on everything but the collected
images. -/
def SameButImages (st₁ st₂ : WorkState) : Prop :=
  st₁.action = st₂.action ∧ st₁.albumMetadata = st₂.albumMetadata ∧
    st₁.fileMetadata = st₂.fileMetadata ∧ st₁.dirContainsMusic = st₂.dirContainsMusic

/-! ## Tag expansion (`internal/flac.go`) -/

/-- The error of `ExpandTag`. -/
inductive TagError where
  /-- The message "short notation (tag) not found". -/
  | notFound (tag : Str)
  deriving DecidableEq, Repr

/-- The function `ExpandTag`: the tag, in lower case, is looked up in `MAPPINGS` as it is
passed in. -/
def ExpandTag (tag : Str) : Except TagError Str :=
  if tag = [] then .ok []
  else
    match List.lookup (ToLower tag) MAPPINGS with
    | some expanded => .ok expanded
    | none => .error (TagError.notFound tag)

/-- The body of the loop of `ExpandTags`, on the pair of `result` and `errs`. -/
def expandTagsStep (acc : List Str × List TagError) (tag : Str) : List Str × List TagError :=
  let expanded : Str × List TagError :=
    if HasPrefix tag ['%'] then
      match ExpandTag tag with
      | .ok long => (long, acc.2)
      | .error err => ([], acc.2 ++ [err])
    else (tag, acc.2)
  if expanded.1 ≠ [] then (acc.1 ++ [expanded.1], expanded.2) else (acc.1, expanded.2)

/-- The function `ExpandTags`: the result and the errors (the empty list for nil). -/
def ExpandTags (tags : List Str) : List Str × List TagError :=
  if tags.length = 0 then ([], [])
  else tags.foldl expandTagsStep ([], [])

/-! ## Post-order traversals, for comparison with the walk of `runRenamer` -/

mutual
/-- The post-order traversal of the directories of a tree: the entries of a directory
in their (lexical) order, each with all that lies below it, then the directory. -/
def postOrder (path : Str) : FsTree → List Str
  | .file _ => []
  | .dir _ entries => postOrderEntries path entries ++ [path]
/-- The post-order traversal through the entries of the directory at `path`. -/
def postOrderEntries (path : Str) : List FsTree → List Str
  | [] => []
  | e :: es => postOrder (Join path e.name) e ++ postOrderEntries path es
end

mutual
/-- The post-order traversal that visits the entries of every directory in reverse
(lexical) order. -/
def postOrderMirrored (path : Str) : FsTree → List Str
  | .file _ => []
  | .dir _ entries => postOrderMirroredEntries path entries ++ [path]
/-- The mirrored post-order traversal through the entries of the directory at `path`. -/
def postOrderMirroredEntries (path : Str) : List FsTree → List Str
  | [] => []
  | e :: es => postOrderMirroredEntries path es ++ postOrderMirrored (Join path e.name) e
end

/-- A world in which the file `/m/X/front.jpg` is a valid image and no other path is;
the tracks are those of `scenarioWorld`. -/
def imageWorld : World :=
  { FetchMetadata := scenarioWorld.FetchMetadata
    IsValidImage := fun path => decide (path = "/m/X/front.jpg".toList)
    StatSize := fun _ => none }

/-- A world in which the directory `/m/X` holds the same track twice, as `a.flac` and
as `copy.flac`. -/
def duplicateWorld : World :=
  { FetchMetadata := fun path =>
      if path = "/m/X/a.flac".toList ∨ path = "/m/X/copy.flac".toList then .ok trackA
      else .error "no such file".toList
    IsValidImage := fun _ => false
    StatSize := fun _ => none }

/-- What `workDir` knows of an entry of `FileActions`: the metadata of the source path
was fetched, and the target is the directory joined with the sanitized rendering of
the file scheme over that metadata, followed by `.flac`. -/
def PlannedTarget (w : World) (dirname fileScheme : Str) (entry : Str × Str) : Prop :=
  ∃ md, w.FetchMetadata entry.1 = .ok md ∧
    entry.2 = Join dirname (stripUnwanted (applyMetadataToScheme fileScheme md) ++ ".flac".toList)

/-! ## The tag listing of `metaflac` (`internal.FetchMetadata`, parsing part) -/

/-- Go `unicode.IsSpace` (tab, line feed, vertical tab, form feed, carriage return and
space are the codes 9 to 13 and 32). -/
def isSpaceRune (c : Char) : Bool :=
  c.toNat ∈ [9, 10, 11, 12, 13, 32, 0x85, 0xA0, 0x1680, 0x2000, 0x2001, 0x2002, 0x2003,
    0x2004, 0x2005, 0x2006, 0x2007, 0x2008, 0x2009, 0x200A, 0x2028, 0x2029, 0x202F, 0x205F,
    0x3000]

/-- Go `strings.TrimSpace(s)`. -/
def TrimSpace (s : Str) : Str :=
  ((s.dropWhile isSpaceRune).reverse.dropWhile isSpaceRune).reverse

/-- Go `strings.Split(s, "\n")`: the pieces between the line feeds (code 10). -/
def splitLines : Str → List Str
  | [] => [[]]
  | c :: cs =>
    if c = Char.ofNat 10 then [] :: splitLines cs
    else
      match splitLines cs with
      | [] => [[c]]
      | line :: lines => (c :: line) :: lines

/-- The value of a run of decimal digits, read from the left onto an accumulator;
`none` when a character is no digit. -/
def digitsValue : Str → Nat → Option Nat
  | [], acc => some acc
  | c :: cs, acc => if c.isDigit then digitsValue cs (acc * 10 + (c.toNat - 48)) else none

/-- Go `strconv.Atoi(s)` for an `int` of `bits` bits: an optional sign and a non-empty
run of decimal digits whose value fits the type; `none` for an error. -/
def Atoi (bits : Nat) (s : Str) : Option Int :=
  let negative : Bool := s.head? = some '-'
  let body : Str := if s.head? = some '-' ∨ s.head? = some '+' then s.drop 1 else s
  if body = [] then none
  else
    match digitsValue body 0 with
    | none => none
    | some n =>
      if negative then (if n ≤ 2 ^ (bits - 1) then some (-(n : Int)) else none)
      else if n < 2 ^ (bits - 1) then some (n : Int) else none

/-- The decimal digit of a number below ten. -/
def digitChar (d : Nat) : Char :=
  Char.ofNat (48 + d)

/-- The decimal digits of `n` put before `acc`; the first argument bounds the number of
digits. -/
def decimalFrom : Nat → Nat → Str → Str
  | 0, _, acc => acc
  | fuel + 1, n, acc =>
    if n < 10 then digitChar n :: acc
    else decimalFrom fuel (n / 10) (digitChar (n % 10) :: acc)

/-- The decimal representation of a natural number. -/
def decimal (n : Nat) : Str :=
  decimalFrom (n + 1) n []

/-- Go `fmt.Sprintf("%02d", num)`: the decimal representation with a zero put before a
single digit; a negative number has its sign and at least one digit. -/
def sprintf02d (num : Int) : Str :=
  if num < 0 then '-' :: decimal num.natAbs
  else if (decimal num.toNat).length < 2 then '0' :: decimal num.toNat
  else decimal num.toNat

/-- The body of the loop of `FetchMetadata` over the lines of the listing. -/
def ingestLine (bits : Nat) (metadata : Metadata) (line : Str) : Metadata :=
  let line := TrimSpace line
  if !Contains line ['='] then metadata
  else
    let tag := line.takeWhile fun c => c != '='
    let value := (line.dropWhile fun c => c != '=').drop 1
    if value = [] then metadata
    else if tag = "TRACKNUMBER".toList then
      match Atoi bits value with
      | some num => mapSet tag (sprintf02d num) metadata
      | none => mapSet tag value metadata
    else mapSet tag value metadata

/-- The parsing part of `FetchMetadata`: the map built from the output of `metaflac`. -/
def parseTags (bits : Nat) (output : Str) : Metadata :=
  (splitLines output).foldl (ingestLine bits) []

/-- The line of a listing that gives the track number. -/
def trackLine (value : Str) : Str :=
  "TRACKNUMBER=".toList ++ value

/-- The state in which the loop of `filepath.Clean` starts: the separator of a rooted
path is written already. -/
def cleanStart (rooted : Bool) : CleanState :=
  if rooted then { out := ['/'], dotdot := 1 } else { out := [], dotdot := 0 }

/-- The part of a path the loop of `filepath.Clean` reads: all of it but the leading
separator of a rooted path. -/
def cleanRest (rooted : Bool) (path : Str) : Str :=
  if rooted then path.drop 1 else path

/-- The state in which the loop of `filepath.Clean` ends on the part `rest` of a path. -/
def cleanLoop (rooted : Bool) (rest : Str) : CleanState :=
  (splitSlash rest).foldl (cleanStep rooted) (cleanStart rooted)

/-- The states of the loop of `filepath.Clean`, built without backtracking: the start
state, a state followed by `..` when nothing is left to remove (paths that are not
rooted only), and a state followed by a proper element. -/
inductive CleanReach (rooted : Bool) : CleanState → Prop
  | start : CleanReach rooted (cleanStart rooted)
  | dots (st : CleanState) : rooted = false → CleanReach rooted st →
      st.dotdot = st.out.length → CleanReach rooted (cleanStep rooted st ['.', '.'])
  | element (st : CleanState) (e : Str) : CleanReach rooted st → IsElement e →
      CleanReach rooted (cleanStep rooted st e)

/-- A line of a tag listing assigns the tag: trimmed, it holds a `=`, the text before
its first `=` is the tag, and the text after it is not empty. -/
def assignsTag (tag line : Str) : Bool :=
  Contains (TrimSpace line) ['='] &&
    ((TrimSpace line).takeWhile (fun c => c != '=') == tag) &&
    (((TrimSpace line).dropWhile fun c => c != '=').drop 1 != [])

/-- One round of the loop of `runRenamer` for a directory, from the machine `m` to the
machine `m'`, told by what it does to the outside world. The directory is listed. When
the listing fails nothing else happens. Otherwise the directory is planned from the
listing in the file system of `m`; a plan that is not actionable gives the notice; an
actionable plan is executed: its preview is printed, outside a dry run the user is
prompted, and after the answer yes the renames of the plan (file actions, cover action,
directory action) are attempted from the first on, all of them when all succeed. -/
def IsRound {σ : Type} (sys : System σ) (flags : Flags) (fileScheme dirScheme : Str)
    (m : Machine σ) (dirname : Str) (m' : Machine σ) : Prop :=
  match sys.ReadDir m.fs dirname with
  | .error _ => m'.fs = m.fs ∧ m'.trace = m.trace ++ [Event.readDir dirname]
  | .ok entries =>
    let plan := workDir (sys.world m.fs) flags.flagMetaUniformTags dirname
      ((entries.filter fun entry => !entry.IsDir).map DirEntry.Name)
      fileScheme dirScheme flags.flagRenameCoverName
    let history := m.trace ++ [Event.readDir dirname]
    let renames := sys.RangeOrder history plan.FileActions ++
      (if plan.hasImageAction then [plan.ImageAction] else []) ++
      (if plan.hasDirAction then [plan.DirAction] else [])
    if plan.FileActions.length = 0 ∧ plan.hasDirAction = false then
      m'.fs = m.fs ∧ m'.trace = history ++ [Event.notice]
    else if flags.flagRenameDryrun then
      m'.fs = m.fs ∧ m'.trace = history ++ [Event.table renames]
    else
      match sys.Confirm history with
      | (true, none) =>
        ∃ attempted : List (Str × Str), attempted <+: renames ∧
          m'.trace = history ++ Event.table renames :: Event.prompt ::
            attempted.map renameEvent ∧
          (∀ fs' : σ, applyRenames sys renames m.fs = some fs' →
            attempted = renames ∧ m'.fs = fs')
      | _ => m'.fs = m.fs ∧ m'.trace = history ++ [Event.table renames, Event.prompt]

/-! ## Theorems -/

theorem lookup_mapSet_self {α β : Type} [DecidableEq α] [BEq α] [LawfulBEq α] (k : α) (v : β) (m : List (α × β)) :
    List.lookup k (mapSet k v m) = some v := by
  induction m with
  | nil => simp [mapSet, List.lookup]
  | cons p rest ih =>
    obtain ⟨k', v'⟩ := p
    by_cases h : k' = k
    · simp [mapSet, h, List.lookup]
    · have h' : (k == k') = false := by simpa using fun e => h e.symm
      simp [mapSet, h, List.lookup, h', ih]

theorem lookup_mapSet_ne {α β : Type} [DecidableEq α] [BEq α] [LawfulBEq α] (k k' : α) (v : β) (m : List (α × β))
    (hne : k' ≠ k) : List.lookup k' (mapSet k v m) = List.lookup k' m := by
  induction m with
  | nil =>
    have h' : (k' == k) = false := by simpa using hne
    simp [mapSet, List.lookup, h']
  | cons p rest ih =>
    obtain ⟨k₀, v₀⟩ := p
    by_cases h : k₀ = k
    · subst h
      have h' : (k' == k₀) = false := by simpa using hne
      simp [mapSet, List.lookup, h']
    · by_cases h2 : k' = k₀
      · subst h2
        simp [mapSet, h, List.lookup]
      · have h' : (k' == k₀) = false := by simpa using h2
        simp [mapSet, h, List.lookup, h', ih]

theorem mapSet_keys {α β : Type} [DecidableEq α] (k : α) (v : β) (m : List (α × β)) (x : α)
    (hx : x ∈ (mapSet k v m).map Prod.fst) : x = k ∨ x ∈ m.map Prod.fst := by
  induction m with
  | nil => simpa [mapSet] using hx
  | cons p rest ih =>
    obtain ⟨k', v'⟩ := p
    by_cases h : k' = k
    · simp only [mapSet, h, if_true, List.map_cons, List.mem_cons] at hx
      rcases hx with hx | hx
      · exact Or.inl hx
      · exact Or.inr (by simp [hx])
    · simp only [mapSet, h, if_false, List.map_cons, List.mem_cons] at hx
      rcases hx with hx | hx
      · exact Or.inr (by simp [hx])
      · rcases ih hx with h1 | h1
        · exact Or.inl h1
        · exact Or.inr (by simp [h1])

theorem mem_of_lookup_eq_some {α β : Type} [BEq α] [LawfulBEq α] (k : α) (v : β) (m : List (α × β))
    (h : List.lookup k m = some v) : (k, v) ∈ m := by
  induction m with
  | nil => simp [List.lookup] at h
  | cons p rest ih =>
    obtain ⟨k', v'⟩ := p
    by_cases hk : k = k'
    · subst hk
      simp [List.lookup] at h
      simp [h]
    · have h' : (k == k') = false := by simpa using hk
      simp only [List.lookup, h'] at h
      exact List.mem_cons_of_mem _ (ih h)

theorem tagValues_appendEntry_self (am : AlbumMetadata) (e : Str × Str) :
    e.2 ∈ tagValues (appendEntry am e) e.1 := by
  unfold tagValues appendEntry
  simp only []
  rw [lookup_mapSet_self]
  by_cases h : e.2 ∈ (List.lookup e.1 am).getD []
  · simp [h]
  · simp [h]

theorem tagValues_appendEntry_mono (am : AlbumMetadata) (e : Str × Str) (tag v : Str)
    (h : v ∈ tagValues am tag) : v ∈ tagValues (appendEntry am e) tag := by
  by_cases ht : tag = e.1
  · subst ht
    unfold tagValues appendEntry
    simp only []
    rw [lookup_mapSet_self]
    unfold tagValues at h
    by_cases h2 : e.2 ∈ (List.lookup e.1 am).getD []
    · simpa [h2] using h
    · simp only [h2, if_false, Option.getD_some, List.mem_append]
      exact Or.inl h
  · unfold tagValues appendEntry
    simp only []
    rw [lookup_mapSet_ne _ _ _ _ ht]
    exact h

theorem tagValues_appendMetadata_mono (md : Metadata) (am : AlbumMetadata) (tag v : Str)
    (h : v ∈ tagValues am tag) : v ∈ tagValues (appendMetadata am md) tag := by
  induction md generalizing am with
  | nil => exact h
  | cons e rest ih =>
    exact ih (appendEntry am e) (tagValues_appendEntry_mono am e tag v h)

theorem tagValues_appendMetadata_mem (md : Metadata) (am : AlbumMetadata) (tag v : Str)
    (h : (tag, v) ∈ md) : v ∈ tagValues (appendMetadata am md) tag := by
  induction md generalizing am with
  | nil => simp at h
  | cons e rest ih =>
    rcases List.mem_cons.mp h with h1 | h1
    · have hs := tagValues_appendEntry_self am e
      rw [← h1] at hs
      rw [← h1]
      exact tagValues_appendMetadata_mono rest _ tag v hs
    · exact ih (appendEntry am e) h1

theorem renameFile_fst (scheme dirname filename : Str) (md : Metadata) (p : Str × Str)
    (h : renameFile scheme dirname filename md = some p) : p.1 = Join dirname filename := by
  unfold renameFile at h
  simp only at h
  split at h
  · simp at h
  · simp only [Option.some.injEq] at h
    rw [← h]

theorem workFile_hasDirAction (w : World) (dirname fileScheme : Str) (st : WorkState)
    (filename : Str) :
    (workFile w dirname fileScheme st filename).action.hasDirAction = st.action.hasDirAction := by
  unfold workFile
  split
  · split
    · rfl
    · split
      · rfl
      · split <;> rfl
  · split <;> rfl

theorem workFile_tagValues_mono (w : World) (dirname fileScheme : Str) (st : WorkState)
    (filename tag v : Str) (h : v ∈ tagValues st.albumMetadata tag) :
    v ∈ tagValues (workFile w dirname fileScheme st filename).albumMetadata tag := by
  unfold workFile
  split
  · split
    · exact h
    · split
      · exact h
      · exact tagValues_appendMetadata_mono _ _ tag v h
  · split <;> exact h

theorem workFile_errors_mono (w : World) (dirname fileScheme : Str) (st : WorkState)
    (filename : Str) (err : PlanError) (h : err ∈ st.action.Errors) :
    err ∈ (workFile w dirname fileScheme st filename).action.Errors := by
  unfold workFile
  split
  · split
    · simp [renameAction.AddError, h]
    · split
      · simp [renameAction.AddError, h]
      · split <;> simpa [renameAction.AddFileAction] using h
  · split <;> exact h

theorem workFile_keys (w : World) (dirname fileScheme : Str) (st : WorkState)
    (filename : Str)
    (h : ∀ k ∈ st.action.FileActions.map Prod.fst, Renamable w fileScheme k) :
    ∀ k ∈ (workFile w dirname fileScheme st filename).action.FileActions.map Prod.fst,
      Renamable w fileScheme k := by
  unfold workFile
  split
  · split
    · exact h
    · rename_i md hfetch
      split
      · exact h
      · rename_i hsuff
        split
        · rename_i oldPath newPath hren
          intro k hk
          rcases mapSet_keys _ _ _ _ hk with h1 | h1
          · have := renameFile_fst _ _ _ _ _ hren
            simp only at this
            rw [h1, this]
            exact ⟨md, hfetch, by simpa using hsuff⟩
          · exact h k h1
        · exact h
  · split <;> exact h

theorem workFile_sufficient (w : World) (dirname fileScheme : Str) (st : WorkState)
    (filename : Str) (md : Metadata) (hflac : isFlac filename = true)
    (hfetch : w.FetchMetadata (Join dirname filename) = .ok md)
    (hsuff : hasSufficientMetadata md fileScheme = true) (tag v : Str) (hv : (tag, v) ∈ md) :
    v ∈ tagValues (workFile w dirname fileScheme st filename).albumMetadata tag := by
  unfold workFile
  simp only [hflac, if_true, hfetch, hsuff, Bool.not_true, Bool.false_eq_true, if_false]
  exact tagValues_appendMetadata_mem md _ tag v hv

theorem workFile_insufficient (w : World) (dirname fileScheme : Str) (st : WorkState)
    (filename : Str) (md : Metadata) (hflac : isFlac filename = true)
    (hfetch : w.FetchMetadata (Join dirname filename) = .ok md)
    (hsuff : hasSufficientMetadata md fileScheme = false) :
    PlanError.insufficientMetadata filename ∈
      (workFile w dirname fileScheme st filename).action.Errors := by
  unfold workFile
  simp [hflac, hfetch, hsuff, renameAction.AddError]

theorem renameAll_trace {σ : Type} (sys : System σ) (data : List (Str × Str)) (m : Machine σ) :
    ∃ attempted : List (Str × Str),
      (renameAll sys data m).2.trace = m.trace ++ attempted.map renameEvent ∧
      attempted <+: data ∧
      ((renameAll sys data m).1 = none → attempted = data) := by
  induction data generalizing m with
  | nil => exact ⟨[], by simp [renameAll], List.prefix_refl _, fun _ => rfl⟩
  | cons t rest ih =>
    cases h : sys.Rename m.fs t.1 t.2 with
    | error e =>
      refine ⟨[t], ?_, ?_, ?_⟩
      · simp [renameAll, h, Machine.log, renameEvent]
      · exact ⟨rest, rfl⟩
      · simp [renameAll, h]
    | ok fs' =>
      obtain ⟨att, h1, h2, h3⟩ := ih { fs := fs', trace := m.trace ++ [Event.rename t.1 t.2] }
      refine ⟨t :: att, ?_, ?_, ?_⟩
      · simp [renameAll, h, h1, renameEvent]
      · obtain ⟨r, hr⟩ := h2
        exact ⟨r, by simp [← hr]⟩
      · intro hn
        simp only [renameAll, h] at hn
        rw [h3 hn]

theorem renameAll_first_failure {σ : Type} (sys : System σ) (pre post : List (Str × Str))
    (t : Str × Str) (m : Machine σ) (fsk : σ) (e : Str)
    (hpre : applyRenames sys pre m.fs = some fsk)
    (hfail : sys.Rename fsk t.1 t.2 = .error e) :
    renameAll sys (pre ++ t :: post) m
      = (some e, { fs := fsk, trace := m.trace ++ (pre ++ [t]).map renameEvent }) := by
  induction pre generalizing m with
  | nil =>
    simp only [applyRenames, Option.some.injEq] at hpre
    subst hpre
    simp [renameAll, hfail, Machine.log, renameEvent]
  | cons p rest ih =>
    cases h : sys.Rename m.fs p.1 p.2 with
    | error e' => simp [applyRenames, h] at hpre
    | ok fs' =>
      simp only [applyRenames, h] at hpre
      have := ih { fs := fs', trace := m.trace ++ [Event.rename p.1 p.2] } hpre
      simp [renameAll, h, this, renameEvent]

theorem renameAll_all_succeed {σ : Type} (sys : System σ) (data : List (Str × Str))
    (m : Machine σ) (fs' : σ) (h : applyRenames sys data m.fs = some fs') :
    renameAll sys data m = (none, { fs := fs', trace := m.trace ++ data.map renameEvent }) := by
  induction data generalizing m with
  | nil =>
    simp only [applyRenames, Option.some.injEq] at h
    subst h
    simp [renameAll]
  | cons p rest ih =>
    cases hr : sys.Rename m.fs p.1 p.2 with
    | error e => simp [applyRenames, hr] at h
    | ok fs₁ =>
      simp only [applyRenames, hr] at h
      have := ih { fs := fs₁, trace := m.trace ++ [Event.rename p.1 p.2] } h
      simp [renameAll, hr, this, renameEvent]

/-- C5: when the plan is confirmed and not a dry run, `CarryOut` prints the preview,
prompts, and then attempts the renames of the list made of the file actions (every
entry of the map once), then the cover action if set, then the directory action if
set, in that order. The renames attempted are always an initial part of that list;
when every rename of the list succeeds, all of them are attempted, the result is nil
and the file system is the one with all of them applied; when the renames `pre`
succeed and the next one `t` fails, exactly `pre` and `t` are attempted. The directory
rename, last of the list, is thus attempted only after every file and cover rename. -/
theorem carryOut_rename_order {σ : Type} (sys : System σ) (a : renameAction)
    (rangeOrder : List (Str × Str)) (m : Machine σ)
    (hperm : rangeOrder.Perm a.FileActions) :
    ∃ files renames : List (Str × Str),
      files.Perm a.FileActions ∧
      renames = files ++ (if a.hasImageAction then [a.ImageAction] else []) ++
        (if a.hasDirAction then [a.DirAction] else []) ∧
      (∃ attempted : List (Str × Str), attempted <+: renames ∧
        (a.CarryOut sys rangeOrder (true, none) false m).2.trace
          = m.trace ++ Event.table renames :: Event.prompt :: attempted.map renameEvent) ∧
      (∀ fs' : σ, applyRenames sys renames m.fs = some fs' →
        (a.CarryOut sys rangeOrder (true, none) false m).1 = none ∧
        (a.CarryOut sys rangeOrder (true, none) false m).2.fs = fs' ∧
        (a.CarryOut sys rangeOrder (true, none) false m).2.trace
          = m.trace ++ Event.table renames :: Event.prompt :: renames.map renameEvent) ∧
      (∀ (pre post : List (Str × Str)) (t : Str × Str) (fsk : σ) (e : Str),
        renames = pre ++ t :: post → applyRenames sys pre m.fs = some fsk →
        sys.Rename fsk t.1 t.2 = .error e →
        (a.CarryOut sys rangeOrder (true, none) false m).1 = some e ∧
        (a.CarryOut sys rangeOrder (true, none) false m).2.trace
          = m.trace ++ Event.table renames :: Event.prompt ::
              (pre ++ [t]).map renameEvent) := by
  refine ⟨rangeOrder, carryOutData a rangeOrder, hperm, rfl, ?_, ?_, ?_⟩
  · obtain ⟨att, h1, h2, _⟩ := renameAll_trace sys (carryOutData a rangeOrder)
      ((m.log (Event.table (carryOutData a rangeOrder))).log Event.prompt)
    refine ⟨att, h2, ?_⟩
    simp only [renameAction.CarryOut, Bool.false_eq_true, if_false, Bool.not_true]
    rw [h1]
    simp [Machine.log]
  · intro fs' hall
    have h := renameAll_all_succeed sys (carryOutData a rangeOrder)
      ((m.log (Event.table (carryOutData a rangeOrder))).log Event.prompt) fs' hall
    simp only [renameAction.CarryOut, Bool.false_eq_true, if_false, Bool.not_true]
    rw [h]
    simp [Machine.log]
  · intro pre post t fsk e hdata hpre hfail
    have h := renameAll_first_failure sys pre post t
      ((m.log (Event.table (carryOutData a rangeOrder))).log Event.prompt) fsk e hpre hfail
    rw [← hdata] at h
    simp only [renameAction.CarryOut, Bool.false_eq_true, if_false, Bool.not_true]
    rw [h]
    simp [Machine.log]

theorem carryOut_rename_order_witness :
    examplePlan.FileActions.Perm examplePlan.FileActions ∧
    ∃ files renames : List (Str × Str),
      files.Perm examplePlan.FileActions ∧
      renames = files ++ (if examplePlan.hasImageAction then [examplePlan.ImageAction] else []) ++
        (if examplePlan.hasDirAction then [examplePlan.DirAction] else []) ∧
      (∃ attempted : List (Str × Str), attempted <+: renames ∧
        (examplePlan.CarryOut exampleSystem examplePlan.FileActions (true, none) false
          { fs := ["/m/A/1.flac".toList, "/m/A/2.flac".toList, "/m/A".toList], trace := [] }).2.trace
          = [] ++ Event.table renames :: Event.prompt :: attempted.map renameEvent) ∧
      (∀ fs' : List Str, applyRenames exampleSystem renames
          ["/m/A/1.flac".toList, "/m/A/2.flac".toList, "/m/A".toList] = some fs' →
        (examplePlan.CarryOut exampleSystem examplePlan.FileActions (true, none) false
          { fs := ["/m/A/1.flac".toList, "/m/A/2.flac".toList, "/m/A".toList], trace := [] }).1
          = none ∧
        (examplePlan.CarryOut exampleSystem examplePlan.FileActions (true, none) false
          { fs := ["/m/A/1.flac".toList, "/m/A/2.flac".toList, "/m/A".toList], trace := [] }).2.fs
          = fs' ∧
        (examplePlan.CarryOut exampleSystem examplePlan.FileActions (true, none) false
          { fs := ["/m/A/1.flac".toList, "/m/A/2.flac".toList, "/m/A".toList], trace := [] }).2.trace
          = [] ++ Event.table renames :: Event.prompt :: renames.map renameEvent) ∧
      (∀ (pre post : List (Str × Str)) (t : Str × Str) (fsk : List Str) (e : Str),
        renames = pre ++ t :: post →
        applyRenames exampleSystem pre
          ["/m/A/1.flac".toList, "/m/A/2.flac".toList, "/m/A".toList] = some fsk →
        exampleSystem.Rename fsk t.1 t.2 = .error e →
        (examplePlan.CarryOut exampleSystem examplePlan.FileActions (true, none) false
          { fs := ["/m/A/1.flac".toList, "/m/A/2.flac".toList, "/m/A".toList], trace := [] }).1
          = some e ∧
        (examplePlan.CarryOut exampleSystem examplePlan.FileActions (true, none) false
          { fs := ["/m/A/1.flac".toList, "/m/A/2.flac".toList, "/m/A".toList], trace := [] }).2.trace
          = [] ++ Event.table renames :: Event.prompt :: (pre ++ [t]).map renameEvent) :=
  ⟨List.Perm.refl _,
    carryOut_rename_order exampleSystem examplePlan examplePlan.FileActions
      { fs := ["/m/A/1.flac".toList, "/m/A/2.flac".toList, "/m/A".toList], trace := [] }
      (List.Perm.refl _)⟩

/-- C6: in a dry run `CarryOut` returns nil, leaves the file system as it was, and does
nothing but print the preview: no prompt and no rename call, whatever the plan. -/
theorem carryOut_dryrun {σ : Type} (sys : System σ) (a : renameAction)
    (rangeOrder : List (Str × Str)) (answer : Bool × Option Str) (m : Machine σ) :
    (a.CarryOut sys rangeOrder answer true m).1 = none ∧
    (a.CarryOut sys rangeOrder answer true m).2.fs = m.fs ∧
    (a.CarryOut sys rangeOrder answer true m).2.trace
      = m.trace ++ [Event.table (carryOutData a rangeOrder)] := by
  simp [renameAction.CarryOut, Machine.log]

/-- C7: when the prompt is answered no (false, without error) outside a dry run,
`CarryOut` returns nil, leaves the file system as it was, and makes no rename call:
it prints the preview and prompts, nothing else. -/
theorem carryOut_declined {σ : Type} (sys : System σ) (a : renameAction)
    (rangeOrder : List (Str × Str)) (m : Machine σ) :
    (a.CarryOut sys rangeOrder (false, none) false m).1 = none ∧
    (a.CarryOut sys rangeOrder (false, none) false m).2.fs = m.fs ∧
    (a.CarryOut sys rangeOrder (false, none) false m).2.trace
      = m.trace ++ [Event.table (carryOutData a rangeOrder), Event.prompt] := by
  simp [renameAction.CarryOut, Machine.log]

/-- C8: when the plan is confirmed and its renames, in the order of application, are
`pre`, then `t`, then `post`, where all of `pre` succeed and `t` fails with error `e`:
`CarryOut` returns `e`, the file system is the one with the renames of `pre` applied
(nothing is rolled back), and the rename calls made are exactly those of `pre` and
then `t`: none of `post` is attempted. -/
theorem carryOut_first_failure {σ : Type} (sys : System σ) (a : renameAction)
    (rangeOrder : List (Str × Str)) (m : Machine σ) (pre post : List (Str × Str))
    (t : Str × Str) (fsk : σ) (e : Str)
    (hdata : carryOutData a rangeOrder = pre ++ t :: post)
    (hpre : applyRenames sys pre m.fs = some fsk)
    (hfail : sys.Rename fsk t.1 t.2 = .error e) :
    (a.CarryOut sys rangeOrder (true, none) false m).1 = some e ∧
    (a.CarryOut sys rangeOrder (true, none) false m).2.fs = fsk ∧
    (a.CarryOut sys rangeOrder (true, none) false m).2.trace
      = m.trace ++ Event.table (carryOutData a rangeOrder) :: Event.prompt ::
          (pre ++ [t]).map renameEvent := by
  have h := renameAll_first_failure sys pre post t
    ((m.log (Event.table (carryOutData a rangeOrder))).log Event.prompt) fsk e hpre hfail
  rw [hdata] at h
  simp only [renameAction.CarryOut, Bool.false_eq_true, if_false, Bool.not_true]
  rw [hdata, h]
  simp [Machine.log]

theorem takeWhile_append_stop (p : Char → Bool) (l₁ l₂ : Str) (x : Char) (hx : p x = false) :
    ((l₁ ++ x :: l₂).takeWhile p).length ≤ l₁.length ∧
    (((l₁ ++ x :: l₂).takeWhile p).length = l₁.length →
      ((l₁ ++ x :: l₂).drop ((l₁ ++ x :: l₂).takeWhile p).length).head? = some x) := by
  induction l₁ with
  | nil => simp [List.takeWhile, hx]
  | cons c cs ih =>
    by_cases hc : p c = true
    · simp only [List.cons_append, List.takeWhile_cons, hc, if_true, List.length_cons,
        List.drop_succ_cons]
      exact ⟨by omega, fun h => ih.2 (by omega)⟩
    · simp [List.takeWhile, hc]

theorem takeWhile_word_append (tag rest : Str) (x : Char) (hall : ∀ c ∈ tag, isWordChar c = true)
    (hx : isWordChar x = false) : (tag ++ x :: rest).takeWhile isWordChar = tag := by
  induction tag with
  | nil => simp [List.takeWhile, hx]
  | cons c cs ih =>
    have hc : isWordChar c = true := hall c (List.mem_cons_self _ _)
    simp only [List.cons_append, List.takeWhile_cons, hc, if_true]
    rw [ih (fun d hd => hall d (List.mem_cons_of_mem _ hd))]

theorem matchParenTag_placeholder (tag post : Str) (hne : tag ≠ [])
    (hall : ∀ c ∈ tag, isWordChar c = true) :
    matchParenTag ('(' :: tag ++ ')' :: post) = some tag := by
  have h := takeWhile_word_append tag post ')' hall (by decide)
  simp [matchParenTag, h, hne]

theorem matchParenTag_bound (c : Char) (pre rest t : Str)
    (h : matchParenTag (c :: pre ++ '%' :: rest) = some t) : t.length + 1 ≤ pre.length := by
  have hb := takeWhile_append_stop isWordChar pre rest '%' (by decide)
  unfold matchParenTag at h
  split at h
  · rename_i rest' heq
    simp only [List.cons_append, List.cons.injEq] at heq
    obtain ⟨_, heq⟩ := heq
    subst heq
    simp only at h
    split at h
    · rename_i hcond
      simp only [Option.some.injEq] at h
      subst h
      rcases Nat.lt_or_ge ((List.takeWhile isWordChar (pre ++ '%' :: rest)).length) pre.length with hlt | hge
      · omega
      · have heq : (List.takeWhile isWordChar (pre ++ '%' :: rest)).length = pre.length := by omega
        have := hb.2 heq
        rw [this] at hcond
        simp at hcond
    · simp at h
  · simp at h

theorem findParenTagsFrom_mem (tag post : Str) (hne : tag ≠ [])
    (hall : ∀ c ∈ tag, isWordChar c = true) (pre : Str) :
    ∀ k, k ≤ pre.length → tag ∈ findParenTagsFrom k (pre ++ '%' :: '(' :: tag ++ ')' :: post) := by
  induction pre with
  | nil =>
    intro k hk
    have hk0 : k = 0 := by simpa using hk
    subst hk0
    have h2 := matchParenTag_placeholder tag post hne hall
    cases htag : tag with
    | nil => exact absurd htag hne
    | cons a as =>
      rw [htag] at h2
      have h1 : matchParenTag ('%' :: '(' :: a :: (as ++ ')' :: post)) = none := by
        simp [matchParenTag]
      simp only [List.cons_append] at h2
      simp [findParenTagsFrom, h1, h2]
  | cons c cs ih =>
    intro k hk
    cases k with
    | succ k' =>
      simp only [List.cons_append, findParenTagsFrom]
      exact ih k' (by simpa using hk)
    | zero =>
      simp only [List.cons_append, findParenTagsFrom]
      cases hm : matchParenTag (c :: (cs ++ '%' :: '(' :: tag ++ ')' :: post)) with
      | none => exact ih 0 (Nat.zero_le _)
      | some t =>
        have hb := matchParenTag_bound c cs ('(' :: tag ++ ')' :: post) t (by simpa using hm)
        simp only
        exact List.mem_cons_of_mem _ (ih (t.length + 1) hb)
theorem schemeTags_of_hasPlaceholder (scheme tag : Str) (h : HasPlaceholder scheme tag) :
    tag ∈ schemeTags scheme := by
  obtain ⟨hne, hall, pre, post, rfl⟩ := h
  have := findParenTagsFrom_mem tag ('s' :: post) hne hall pre 0 (Nat.zero_le _)
  simpa [schemeTags, placeholder] using this

theorem hasSufficientMetadata_false_of_lacking (md : Metadata) (scheme tag : Str)
    (hph : HasPlaceholder scheme tag)
    (hlack : md.lookup tag = none ∨ md.lookup tag = some []) :
    hasSufficientMetadata md scheme = false := by
  have hmem := schemeTags_of_hasPlaceholder scheme tag hph
  unfold hasSufficientMetadata
  split
  · rfl
  · rw [Bool.eq_false_iff]
    intro hall
    have := (List.all_eq_true.mp hall) tag hmem
    rcases hlack with h | h <;> simp [h] at this

theorem foldl_workFile_hasDirAction (w : World) (dirname fileScheme : Str) (l : List Str)
    (st : WorkState) :
    (l.foldl (workFile w dirname fileScheme) st).action.hasDirAction = st.action.hasDirAction := by
  induction l generalizing st with
  | nil => rfl
  | cons f fs ih => simp only [List.foldl_cons]; rw [ih, workFile_hasDirAction]

theorem foldl_workFile_tagValues_mono (w : World) (dirname fileScheme : Str) (l : List Str)
    (st : WorkState) (tag v : Str) (h : v ∈ tagValues st.albumMetadata tag) :
    v ∈ tagValues (l.foldl (workFile w dirname fileScheme) st).albumMetadata tag := by
  induction l generalizing st with
  | nil => exact h
  | cons f fs ih =>
    exact ih _ (workFile_tagValues_mono w dirname fileScheme st f tag v h)

theorem foldl_workFile_errors_mono (w : World) (dirname fileScheme : Str) (l : List Str)
    (st : WorkState) (err : PlanError) (h : err ∈ st.action.Errors) :
    err ∈ (l.foldl (workFile w dirname fileScheme) st).action.Errors := by
  induction l generalizing st with
  | nil => exact h
  | cons f fs ih => exact ih _ (workFile_errors_mono w dirname fileScheme st f err h)

theorem foldl_workFile_keys (w : World) (dirname fileScheme : Str) (l : List Str)
    (st : WorkState)
    (h : ∀ k ∈ st.action.FileActions.map Prod.fst, Renamable w fileScheme k) :
    ∀ k ∈ (l.foldl (workFile w dirname fileScheme) st).action.FileActions.map Prod.fst,
      Renamable w fileScheme k := by
  induction l generalizing st with
  | nil => exact h
  | cons f fs ih => exact ih _ (workFile_keys w dirname fileScheme st f h)

theorem foldl_workFile_sufficient (w : World) (dirname fileScheme : Str) (l : List Str)
    (st : WorkState) (filename : Str) (md : Metadata) (hmem : filename ∈ l)
    (hflac : isFlac filename = true)
    (hfetch : w.FetchMetadata (Join dirname filename) = .ok md)
    (hsuff : hasSufficientMetadata md fileScheme = true) (tag v : Str) (hv : (tag, v) ∈ md) :
    v ∈ tagValues (l.foldl (workFile w dirname fileScheme) st).albumMetadata tag := by
  induction l generalizing st with
  | nil => simp at hmem
  | cons f fs ih =>
    rcases List.mem_cons.mp hmem with h | h
    · subst h
      exact foldl_workFile_tagValues_mono w dirname fileScheme fs _ tag v
        (workFile_sufficient w dirname fileScheme st filename md hflac hfetch hsuff tag v hv)
    · exact ih _ h

theorem foldl_workFile_insufficient (w : World) (dirname fileScheme : Str) (l : List Str)
    (st : WorkState) (filename : Str) (md : Metadata) (hmem : filename ∈ l)
    (hflac : isFlac filename = true)
    (hfetch : w.FetchMetadata (Join dirname filename) = .ok md)
    (hsuff : hasSufficientMetadata md fileScheme = false) :
    PlanError.insufficientMetadata filename ∈
      (l.foldl (workFile w dirname fileScheme) st).action.Errors := by
  induction l generalizing st with
  | nil => simp at hmem
  | cons f fs ih =>
    rcases List.mem_cons.mp hmem with h | h
    · subst h
      exact foldl_workFile_errors_mono w dirname fileScheme fs _ _
        (workFile_insufficient w dirname fileScheme st filename md hflac hfetch hsuff)
    · exact ih _ h

theorem foldl_workFile_music (w : World) (dirname fileScheme : Str) (l : List Str)
    (st : WorkState) (filename : Str) (hmem : filename ∈ l) (hflac : isFlac filename = true) :
    (l.foldl (workFile w dirname fileScheme) st).dirContainsMusic = true := by
  have hstep : ∀ (s : WorkState) (f : Str), s.dirContainsMusic = true →
      (workFile w dirname fileScheme s f).dirContainsMusic = true := by
    intro s f hs
    unfold workFile
    split
    · split
      · rfl
      · split <;> rfl
    · split <;> exact hs
  have hfold : ∀ (l : List Str) (s : WorkState), s.dirContainsMusic = true →
      (l.foldl (workFile w dirname fileScheme) s).dirContainsMusic = true := by
    intro l
    induction l with
    | nil => exact fun s hs => hs
    | cons f fs ih => exact fun s hs => ih _ (hstep s f hs)
  induction l generalizing st with
  | nil => simp at hmem
  | cons f fs ih =>
    rcases List.mem_cons.mp hmem with h | h
    · subst h
      refine hfold fs _ ?_
      unfold workFile
      simp only [hflac, if_true]
      split
      · rfl
      · split <;> rfl
    · exact ih _ h

theorem mem_sortStrings (l : List Str) (x : Str) : x ∈ sortStrings l ↔ x ∈ l :=
  (List.perm_insertionSort _ l).mem_iff

theorem workDirTail_fileActions (w : World) (tags : List Str) (dirname dirScheme coverName : Str)
    (st : WorkState) :
    (workDirTail w tags dirname dirScheme coverName st).FileActions = st.action.FileActions := by
  unfold workDirTail
  simp only
  split
  · split <;> [split; skip] <;> simp [renameAction.AddError, renameAction.SetImageAction]
  · split
    · split <;> [(split <;> [split; skip]); (split <;> [split; skip])] <;>
        simp [renameAction.SetDirAction, renameAction.SetImageAction]
    · split <;> [split; skip] <;> simp [renameAction.AddError, renameAction.SetImageAction]

theorem workDirTail_errors_mono (w : World) (tags : List Str) (dirname dirScheme coverName : Str)
    (st : WorkState) (err : PlanError) (h : err ∈ st.action.Errors) :
    err ∈ (workDirTail w tags dirname dirScheme coverName st).Errors := by
  unfold workDirTail
  simp only
  split
  · split <;> [split; skip] <;> simp [renameAction.AddError, renameAction.SetImageAction, h]
  · split
    · split <;> [(split <;> [split; skip]); (split <;> [split; skip])] <;>
        simp [renameAction.SetDirAction, renameAction.SetImageAction, h]
    · split <;> [split; skip] <;> simp [renameAction.AddError, renameAction.SetImageAction, h]

theorem canRenameDirectory_multi (tags : List Str) (am : AlbumMetadata) (scheme tag v₁ v₂ : Str)
    (htag : tag ∈ tags) (h₁ : v₁ ∈ tagValues am tag) (h₂ : v₂ ∈ tagValues am tag)
    (hne : v₁ ≠ v₂) : ∃ err, (canRenameDirectory tags am scheme).2 = some err := by
  unfold canRenameDirectory
  split
  · exact ⟨_, rfl⟩
  · have hlen : 1 < (tagValues am tag).length := by
      cases hl : tagValues am tag with
      | nil => rw [hl] at h₁; simp at h₁
      | cons a as =>
        cases as with
        | nil =>
          rw [hl] at h₁ h₂
          simp only [List.mem_singleton] at h₁ h₂
          exact absurd (h₁.trans h₂.symm) hne
        | cons b bs => simp
    have hmem : tag ∈ multiValuedTags tags am := by
      unfold multiValuedTags
      rw [List.mem_filter]
      exact ⟨htag, by simpa [tagValues] using hlen⟩
    have hpos : 0 < (multiValuedTags tags am).length := List.length_pos_of_mem hmem
    simp only [hpos, if_true]
    exact ⟨_, rfl⟩

theorem workDirTail_hasDirAction_of_error (w : World) (tags : List Str)
    (dirname dirScheme coverName : Str) (st : WorkState) (err : PlanError)
    (hdir : st.action.hasDirAction = false)
    (herr : (canRenameDirectory tags st.albumMetadata dirScheme).2 = some err) :
    (workDirTail w tags dirname dirScheme coverName st).hasDirAction = false := by
  unfold workDirTail
  simp only
  split
  · split <;> [split; skip] <;> simp [renameAction.AddError, renameAction.SetImageAction, hdir]
  · rename_i c heq
    rw [heq] at herr
    simp at herr


/-- C1 (as amended): when two audio files of the directory whose metadata was fetched
and suffices for the file scheme disagree on the value of a tag of the uniform-tag
check list, the plan of `workDir` has no directory action, whether or not a file action
was added for either file. -/
theorem workDir_no_dirAction_of_disagreement (w : World) (tags : List Str)
    (dirname : Str) (filenames : List Str) (fileScheme dirScheme coverName : Str)
    (f₁ f₂ : Str) (md₁ md₂ : Metadata) (tag v₁ v₂ : Str)
    (hmem₁ : f₁ ∈ filenames) (hmem₂ : f₂ ∈ filenames)
    (hflac₁ : isFlac f₁ = true) (hflac₂ : isFlac f₂ = true)
    (hfetch₁ : w.FetchMetadata (Join dirname f₁) = .ok md₁)
    (hfetch₂ : w.FetchMetadata (Join dirname f₂) = .ok md₂)
    (hsuff₁ : hasSufficientMetadata md₁ fileScheme = true)
    (hsuff₂ : hasSufficientMetadata md₂ fileScheme = true)
    (htag : tag ∈ tags)
    (hv₁ : md₁.lookup tag = some v₁) (hv₂ : md₂.lookup tag = some v₂) (hne : v₁ ≠ v₂) :
    (workDir w tags dirname filenames fileScheme dirScheme coverName).hasDirAction = false := by
  have hs₁ := (mem_sortStrings filenames f₁).mpr hmem₁
  have hs₂ := (mem_sortStrings filenames f₂).mpr hmem₂
  unfold workDir
  simp only
  rw [foldl_workFile_music w dirname fileScheme _ _ f₁ hs₁ hflac₁]
  simp only [if_true]
  have ha := foldl_workFile_sufficient w dirname fileScheme (sortStrings filenames)
    { albumMetadata := [], collectedImages := [], fileMetadata := none,
      dirContainsMusic := false, action := NewAction dirname }
    f₁ md₁ hs₁ hflac₁ hfetch₁ hsuff₁ tag v₁ (mem_of_lookup_eq_some _ _ _ hv₁)
  have hb := foldl_workFile_sufficient w dirname fileScheme (sortStrings filenames)
    { albumMetadata := [], collectedImages := [], fileMetadata := none,
      dirContainsMusic := false, action := NewAction dirname }
    f₂ md₂ hs₂ hflac₂ hfetch₂ hsuff₂ tag v₂ (mem_of_lookup_eq_some _ _ _ hv₂)
  obtain ⟨err, herr⟩ := canRenameDirectory_multi tags _ dirScheme tag v₁ v₂ htag ha hb hne
  refine workDirTail_hasDirAction_of_error w tags dirname dirScheme coverName _ err ?_ herr
  rw [foldl_workFile_hasDirAction]
  rfl

theorem workDir_no_dirAction_of_disagreement_witness :
    (workDir (exampleSystem.world []) defaultUniformCmdTags "/m/A".toList
      ["1.flac".toList, "2.flac".toList] "%(TRACKNUMBER)s".toList "%(ARTIST)s".toList
      "cover".toList).hasDirAction = false :=
  workDir_no_dirAction_of_disagreement (exampleSystem.world []) defaultUniformCmdTags
    "/m/A".toList ["1.flac".toList, "2.flac".toList] "%(TRACKNUMBER)s".toList
    "%(ARTIST)s".toList "cover".toList "1.flac".toList "2.flac".toList
    [("ARTIST".toList, "Foo".toList), ("TITLE".toList, "Song".toList),
      ("TRACKNUMBER".toList, "01".toList)]
    [("ARTIST".toList, "Bar".toList), ("TRACKNUMBER".toList, "02".toList)]
    TagArtist "Foo".toList "Bar".toList
    (by decide) (by decide) (by decide) (by decide) (by decide) (by decide) (by decide)
    (by decide) (by decide) (by decide) (by decide) (by decide)

/-- C1 (as stated, refuted): in `/m/A` the audio files `1.flac` and `2.flac` have
fetched metadata with ARTIST `Foo` and `Bar`, a tag of the default check list; `2.flac`
has no TITLE and is skipped for insufficient metadata, so its tags never reach the tag
set of the directory, and `workDir` sets the directory action (to `/m/Foo`). -/
theorem workDir_dirAction_despite_disagreement :
    isFlac "1.flac".toList = true ∧ isFlac "2.flac".toList = true ∧
    ((exampleSystem.world []).FetchMetadata (Join "/m/A".toList "1.flac".toList)).toOption.bind
      (List.lookup TagArtist) = some "Foo".toList ∧
    ((exampleSystem.world []).FetchMetadata (Join "/m/A".toList "2.flac".toList)).toOption.bind
      (List.lookup TagArtist) = some "Bar".toList ∧
    TagArtist ∈ defaultUniformCmdTags ∧
    (workDir (exampleSystem.world []) defaultUniformCmdTags "/m/A".toList
      ["1.flac".toList, "2.flac".toList] "%(TRACKNUMBER)s - %(TITLE)s".toList
      "%(ARTIST)s".toList "cover".toList).hasDirAction = true ∧
    (workDir (exampleSystem.world []) defaultUniformCmdTags "/m/A".toList
      ["1.flac".toList, "2.flac".toList] "%(TRACKNUMBER)s - %(TITLE)s".toList
      "%(ARTIST)s".toList "cover".toList).DirAction = ("/m/A".toList, "/m/Foo".toList) ∧
    (workDir (exampleSystem.world []) defaultUniformCmdTags "/m/A".toList
      ["1.flac".toList, "2.flac".toList] "%(TRACKNUMBER)s - %(TITLE)s".toList
      "%(ARTIST)s".toList "cover".toList).Errors
        = [PlanError.insufficientMetadata "2.flac".toList] := by
  decide

/-- C3: an audio file of the directory whose fetched metadata lacks a tag that the file
scheme holds a placeholder for, or holds the tag with an empty value, is no key of the
`FileActions` of the plan of `workDir`, and the plan records the insufficiency error
of that file. -/
theorem workDir_insufficient_file (w : World) (tags : List Str)
    (dirname : Str) (filenames : List Str) (fileScheme dirScheme coverName : Str)
    (filename : Str) (md : Metadata) (tag : Str)
    (hmem : filename ∈ filenames) (hflac : isFlac filename = true)
    (hfetch : w.FetchMetadata (Join dirname filename) = .ok md)
    (hph : HasPlaceholder fileScheme tag)
    (hlack : md.lookup tag = none ∨ md.lookup tag = some []) :
    Join dirname filename ∉
      (workDir w tags dirname filenames fileScheme dirScheme coverName).FileActions.map Prod.fst ∧
    PlanError.insufficientMetadata filename ∈
      (workDir w tags dirname filenames fileScheme dirScheme coverName).Errors := by
  have hs := (mem_sortStrings filenames filename).mpr hmem
  have hsuff := hasSufficientMetadata_false_of_lacking md fileScheme tag hph hlack
  unfold workDir
  simp only
  rw [foldl_workFile_music w dirname fileScheme _ _ filename hs hflac]
  simp only [if_true]
  constructor
  · rw [workDirTail_fileActions]
    intro hk
    obtain ⟨md', h1, h2⟩ := foldl_workFile_keys w dirname fileScheme (sortStrings filenames)
      { albumMetadata := [], collectedImages := [], fileMetadata := none,
        dirContainsMusic := false, action := NewAction dirname }
      (by simp [NewAction]) _ hk
    rw [hfetch] at h1
    simp only [Except.ok.injEq] at h1
    subst h1
    rw [hsuff] at h2
    exact Bool.noConfusion h2
  · exact workDirTail_errors_mono w tags dirname dirScheme coverName _ _
      (foldl_workFile_insufficient w dirname fileScheme _ _ filename md hs hflac hfetch hsuff)

theorem workDir_insufficient_file_witness :
    Join "/m/A".toList "2.flac".toList ∉
      (workDir (exampleSystem.world []) defaultUniformCmdTags "/m/A".toList
        ["1.flac".toList, "2.flac".toList] "%(TRACKNUMBER)s - %(TITLE)s".toList
        "%(ARTIST)s".toList "cover".toList).FileActions.map Prod.fst ∧
    PlanError.insufficientMetadata "2.flac".toList ∈
      (workDir (exampleSystem.world []) defaultUniformCmdTags "/m/A".toList
        ["1.flac".toList, "2.flac".toList] "%(TRACKNUMBER)s - %(TITLE)s".toList
        "%(ARTIST)s".toList "cover".toList).Errors :=
  workDir_insufficient_file (exampleSystem.world []) defaultUniformCmdTags "/m/A".toList
    ["1.flac".toList, "2.flac".toList] "%(TRACKNUMBER)s - %(TITLE)s".toList
    "%(ARTIST)s".toList "cover".toList "2.flac".toList
    [("ARTIST".toList, "Bar".toList), ("TRACKNUMBER".toList, "02".toList)]
    TagTitle (by decide) (by decide) (by decide)
    ⟨by decide, by decide, "%(TRACKNUMBER)s - ".toList, [], by decide⟩
    (Or.inl (by decide))
theorem walkEntries_mem (path : Str) (entries : List FsTree) (e : FsTree) (he : e ∈ entries) :
    ∃ l₁ l₂, walkEntries path entries = l₁ ++ walkDirs (Join path e.name) e ++ l₂ := by
  induction entries with
  | nil => simp at he
  | cons x xs ih =>
    rcases List.mem_cons.mp he with h | h
    · subst h
      exact ⟨[], walkEntries path xs, by simp [walkEntries]⟩
    · obtain ⟨l₁, l₂, hl⟩ := ih h
      exact ⟨walkDirs (Join path x.name) x ++ l₁, l₂, by simp [walkEntries, hl]⟩

theorem walkDirs_subdir (root : Str) (t : FsTree) (p : Str) (s : FsTree)
    (h : Subdir root t p s) : ∃ l₁ l₂, walkDirs root t = l₁ ++ walkDirs p s ++ l₂ := by
  induction h with
  | root path name entries => exact ⟨[], [], by simp⟩
  | step path name entries e p s he _ ih =>
    obtain ⟨a, b, hab⟩ := walkEntries_mem path entries e he
    obtain ⟨l₁, l₂, hl⟩ := ih
    refine ⟨path :: (a ++ l₁), l₂ ++ b, ?_⟩
    simp [walkDirs, hab, hl]

theorem walkDirs_subdir_head (root : Str) (t : FsTree) (p : Str) (s : FsTree)
    (h : Subdir root t p s) : ∃ l, walkDirs p s = p :: l := by
  induction h with
  | root path name entries => exact ⟨walkEntries path entries, by simp [walkDirs]⟩
  | step path name entries e p s _ _ ih => exact ih

theorem walkDirs_below (root : Str) (t : FsTree) (A B : Str) (h : Below root t A B) :
    ∃ l₁ l₂ l₃, walkDirs root t = l₁ ++ A :: l₂ ++ B :: l₃ := by
  obtain ⟨name, entries, e, sB, hA, he, hB⟩ := h
  obtain ⟨x, y, hxy⟩ := walkDirs_subdir root t A _ hA
  obtain ⟨a, b, hab⟩ := walkEntries_mem A entries e he
  obtain ⟨c, d, hcd⟩ := walkDirs_subdir _ e B sB hB
  obtain ⟨l, hl⟩ := walkDirs_subdir_head _ e B sB hB
  refine ⟨x, a ++ c, l ++ d ++ b ++ y, ?_⟩
  rw [hxy]
  simp [walkDirs, hab, hcd, hl]

theorem renameAll_listedDirs {σ : Type} (sys : System σ) (data : List (Str × Str))
    (m : Machine σ) : listedDirs (renameAll sys data m).2.trace = listedDirs m.trace := by
  obtain ⟨att, h, _, _⟩ := renameAll_trace sys data m
  rw [h]
  unfold listedDirs
  rw [List.filterMap_append]
  have : List.filterMap (fun e => match e with
      | Event.readDir dirname => some dirname
      | _ => none) (att.map renameEvent) = [] := by
    induction att with
    | nil => rfl
    | cons a as ih => simp [renameEvent, List.filterMap_cons, ih]
  rw [this, List.append_nil]

theorem carryOut_listedDirs {σ : Type} (sys : System σ) (a : renameAction)
    (rangeOrder : List (Str × Str)) (answer : Bool × Option Str) (dryrun : Bool)
    (m : Machine σ) :
    listedDirs (a.CarryOut sys rangeOrder answer dryrun m).2.trace = listedDirs m.trace := by
  unfold renameAction.CarryOut
  simp only
  split
  · simp [listedDirs, Machine.log, List.filterMap_append]
  · split
    · simp [listedDirs, Machine.log, List.filterMap_append]
    · split
      · simp [listedDirs, Machine.log, List.filterMap_append]
      · rw [renameAll_listedDirs]
        simp [listedDirs, Machine.log, List.filterMap_append]

theorem processDir_listedDirs {σ : Type} (sys : System σ) (flags : Flags)
    (fileScheme dirScheme : Str) (st : Machine σ × List RunError) (dirname : Str) :
    listedDirs (processDir sys flags fileScheme dirScheme st dirname).1.trace
      = listedDirs st.1.trace ++ [dirname] := by
  have hlog : listedDirs (st.1.log (Event.readDir dirname)).trace
      = listedDirs st.1.trace ++ [dirname] := by
    simp [listedDirs, Machine.log, List.filterMap_append]
  unfold processDir
  simp only
  split
  · exact hlog
  · have key : ∀ (x : Machine σ × List RunError), listedDirs x.1.trace
        = listedDirs st.1.trace ++ [dirname] →
        listedDirs (if (workDir (sys.world (st.1.log (Event.readDir dirname)).fs)
            flags.flagMetaUniformTags dirname
            (List.map DirEntry.Name (List.filter (fun entry => !entry.IsDir) ‹_›))
            fileScheme dirScheme flags.flagRenameCoverName).EncounteredErrors = true
          then (x.1, multierrAppend x.2 none) else x).1.trace
        = listedDirs st.1.trace ++ [dirname] := by
      intro x hx
      split <;> exact hx
    apply key
    split
    · split
      · rename_i h
        have := congrArg (fun r : Option Str × Machine σ => listedDirs r.2.trace) h
        simp only at this
        rw [← this, carryOut_listedDirs, hlog]
      · rename_i h
        have := congrArg (fun r : Option Str × Machine σ => listedDirs r.2.trace) h
        simp only at this
        rw [← this, carryOut_listedDirs, hlog]
    · simp [listedDirs, Machine.log, List.filterMap_append]

theorem foldl_processDir_listedDirs {σ : Type} (sys : System σ) (flags : Flags)
    (fileScheme dirScheme : Str) (dirs : List Str) (st : Machine σ × List RunError) :
    listedDirs (dirs.foldl (processDir sys flags fileScheme dirScheme) st).1.trace
      = listedDirs st.1.trace ++ dirs := by
  induction dirs generalizing st with
  | nil => simp
  | cons d ds ih =>
    simp only [List.foldl_cons]
    rw [ih, processDir_listedDirs]
    simp

theorem carryOut_round {σ : Type} (sys : System σ) (a : renameAction)
    (rangeOrder : List (Str × Str)) (answer : Bool × Option Str) (dryrun : Bool)
    (m : Machine σ) :
    if dryrun then
      (a.CarryOut sys rangeOrder answer dryrun m).2.fs = m.fs ∧
      (a.CarryOut sys rangeOrder answer dryrun m).2.trace
        = m.trace ++ [Event.table (carryOutData a rangeOrder)]
    else
      match answer with
      | (true, none) =>
        ∃ attempted : List (Str × Str), attempted <+: carryOutData a rangeOrder ∧
          (a.CarryOut sys rangeOrder answer dryrun m).2.trace
            = m.trace ++ Event.table (carryOutData a rangeOrder) :: Event.prompt ::
              attempted.map renameEvent ∧
          (∀ fs' : σ, applyRenames sys (carryOutData a rangeOrder) m.fs = some fs' →
            attempted = carryOutData a rangeOrder ∧
            (a.CarryOut sys rangeOrder answer dryrun m).2.fs = fs')
      | _ =>
        (a.CarryOut sys rangeOrder answer dryrun m).2.fs = m.fs ∧
        (a.CarryOut sys rangeOrder answer dryrun m).2.trace
          = m.trace ++ [Event.table (carryOutData a rangeOrder), Event.prompt] := by
  cases dryrun with
  | true => simp [renameAction.CarryOut, Machine.log]
  | false =>
    obtain ⟨proceed, err⟩ := answer
    cases err with
    | some e =>
      cases proceed <;> simp [renameAction.CarryOut, Machine.log]
    | none =>
      cases proceed with
      | false => simp [renameAction.CarryOut, Machine.log]
      | true =>
        simp only [Bool.false_eq_true, if_false]
        obtain ⟨att, h1, h2, _⟩ := renameAll_trace sys (carryOutData a rangeOrder)
          ((m.log (Event.table (carryOutData a rangeOrder))).log Event.prompt)
        refine ⟨if (applyRenames sys (carryOutData a rangeOrder) m.fs).isSome
            then carryOutData a rangeOrder else att, ?_, ?_, ?_⟩
        · split
          · exact List.prefix_refl _
          · exact h2
        · cases hall : applyRenames sys (carryOutData a rangeOrder) m.fs with
          | none =>
            simp only [renameAction.CarryOut, Bool.false_eq_true, if_false, Bool.not_true,
              Option.isSome_none]
            rw [h1]
            simp [Machine.log]
          | some fs' =>
            have h := renameAll_all_succeed sys (carryOutData a rangeOrder)
              ((m.log (Event.table (carryOutData a rangeOrder))).log Event.prompt) fs' hall
            simp only [renameAction.CarryOut, Bool.false_eq_true, if_false, Bool.not_true,
              Option.isSome_some, if_true]
            rw [h]
            simp [Machine.log]
        · intro fs' hall
          have h := renameAll_all_succeed sys (carryOutData a rangeOrder)
            ((m.log (Event.table (carryOutData a rangeOrder))).log Event.prompt) fs' hall
          refine ⟨by simp [hall], ?_⟩
          simp only [renameAction.CarryOut, Bool.false_eq_true, if_false, Bool.not_true]
          rw [h]

theorem processDir_fst {σ : Type} (sys : System σ) (flags : Flags)
    (fileScheme dirScheme : Str) (st : Machine σ × List RunError) (dirname : Str) :
    (processDir sys flags fileScheme dirScheme st dirname).1 =
      match sys.ReadDir st.1.fs dirname with
      | .error _ => st.1.log (Event.readDir dirname)
      | .ok entries =>
        if (workDir (sys.world st.1.fs) flags.flagMetaUniformTags dirname
            ((entries.filter fun entry => !entry.IsDir).map DirEntry.Name)
            fileScheme dirScheme flags.flagRenameCoverName).Actionable then
          ((workDir (sys.world st.1.fs) flags.flagMetaUniformTags dirname
            ((entries.filter fun entry => !entry.IsDir).map DirEntry.Name)
            fileScheme dirScheme flags.flagRenameCoverName).CarryOut sys
            (sys.RangeOrder (st.1.trace ++ [Event.readDir dirname])
              (workDir (sys.world st.1.fs) flags.flagMetaUniformTags dirname
                ((entries.filter fun entry => !entry.IsDir).map DirEntry.Name)
                fileScheme dirScheme flags.flagRenameCoverName).FileActions)
            (sys.Confirm (st.1.trace ++ [Event.readDir dirname])) flags.flagRenameDryrun
            (st.1.log (Event.readDir dirname))).2
        else (st.1.log (Event.readDir dirname)).log Event.notice := by
  unfold processDir
  simp only [Machine.log]
  cases hrd : sys.ReadDir st.1.fs dirname with
  | error e => rfl
  | ok entries =>
    simp only
    split
    · split
      · split <;> simp_all
      · rfl
    · split
      · split <;> simp_all
      · rfl

theorem processDir_isRound {σ : Type} (sys : System σ) (flags : Flags)
    (fileScheme dirScheme : Str) (st : Machine σ × List RunError) (dirname : Str) :
    IsRound sys flags fileScheme dirScheme st.1 dirname
      (processDir sys flags fileScheme dirScheme st dirname).1 := by
  rw [processDir_fst]
  unfold IsRound
  cases hrd : sys.ReadDir st.1.fs dirname with
  | error e => simp [Machine.log]
  | ok entries =>
    simp only
    by_cases hact : (workDir (sys.world st.1.fs) flags.flagMetaUniformTags dirname
        ((entries.filter fun entry => !entry.IsDir).map DirEntry.Name)
        fileScheme dirScheme flags.flagRenameCoverName).Actionable = true
    · have hcond : ¬ ((workDir (sys.world st.1.fs) flags.flagMetaUniformTags dirname
          ((entries.filter fun entry => !entry.IsDir).map DirEntry.Name)
          fileScheme dirScheme flags.flagRenameCoverName).FileActions.length = 0 ∧
          (workDir (sys.world st.1.fs) flags.flagMetaUniformTags dirname
          ((entries.filter fun entry => !entry.IsDir).map DirEntry.Name)
          fileScheme dirScheme flags.flagRenameCoverName).hasDirAction = false) := by
        intro hc
        unfold renameAction.Actionable at hact
        simp [hc.1, hc.2] at hact
      rw [if_pos hact, if_neg hcond]
      have hround := carryOut_round sys
        (workDir (sys.world st.1.fs) flags.flagMetaUniformTags dirname
          ((entries.filter fun entry => !entry.IsDir).map DirEntry.Name)
          fileScheme dirScheme flags.flagRenameCoverName)
        (sys.RangeOrder (st.1.trace ++ [Event.readDir dirname])
          (workDir (sys.world st.1.fs) flags.flagMetaUniformTags dirname
            ((entries.filter fun entry => !entry.IsDir).map DirEntry.Name)
            fileScheme dirScheme flags.flagRenameCoverName).FileActions)
        (sys.Confirm (st.1.trace ++ [Event.readDir dirname])) flags.flagRenameDryrun
        (st.1.log (Event.readDir dirname))
      simp only [Machine.log, carryOutData] at hround ⊢
      exact hround
    · have hcond : (workDir (sys.world st.1.fs) flags.flagMetaUniformTags dirname
          ((entries.filter fun entry => !entry.IsDir).map DirEntry.Name)
          fileScheme dirScheme flags.flagRenameCoverName).FileActions.length = 0 ∧
          (workDir (sys.world st.1.fs) flags.flagMetaUniformTags dirname
          ((entries.filter fun entry => !entry.IsDir).map DirEntry.Name)
          fileScheme dirScheme flags.flagRenameCoverName).hasDirAction = false := by
        unfold renameAction.Actionable at hact
        simp only [Bool.or_eq_true, decide_eq_true_eq, not_or, Nat.pos_iff_ne_zero, ne_eq,
          not_not, Bool.not_eq_true] at hact
        exact hact
      rw [if_neg hact, if_pos hcond]
      simp [Machine.log]

theorem processDir_trace_ext {σ : Type} (sys : System σ) (flags : Flags)
    (fileScheme dirScheme : Str) (st : Machine σ × List RunError) (dirname : Str) :
    ∃ ext : List Event, (processDir sys flags fileScheme dirScheme st dirname).1.trace
      = st.1.trace ++ ext ∧ listedDirs ext = [dirname] := by
  have hext : ∃ ext : List Event, (processDir sys flags fileScheme dirScheme st dirname).1.trace
      = st.1.trace ++ ext := by
    have h := processDir_isRound sys flags fileScheme dirScheme st dirname
    unfold IsRound at h
    cases hrd : sys.ReadDir st.1.fs dirname with
    | error e =>
      rw [hrd] at h
      exact ⟨_, h.2⟩
    | ok entries =>
      rw [hrd] at h
      simp only at h
      split at h
      · exact ⟨_, by rw [h.2, List.append_assoc]⟩
      · split at h
        · exact ⟨_, by rw [h.2, List.append_assoc]⟩
        · split at h
          · obtain ⟨att, _, ht, _⟩ := h
            exact ⟨_, by rw [ht, List.append_assoc]⟩
          · exact ⟨_, by rw [h.2, List.append_assoc]⟩
  obtain ⟨ext, hx⟩ := hext
  refine ⟨ext, hx, ?_⟩
  have hl := processDir_listedDirs sys flags fileScheme dirScheme st dirname
  rw [hx] at hl
  unfold listedDirs at hl ⊢
  rw [List.filterMap_append] at hl
  exact List.append_cancel_left hl

theorem foldl_processDir_trace_ext {σ : Type} (sys : System σ) (flags : Flags)
    (fileScheme dirScheme : Str) (dirs : List Str) (st : Machine σ × List RunError) :
    ∃ ext : List Event, (dirs.foldl (processDir sys flags fileScheme dirScheme) st).1.trace
      = st.1.trace ++ ext ∧ listedDirs ext = dirs := by
  induction dirs generalizing st with
  | nil => exact ⟨[], by simp, rfl⟩
  | cons d ds ih =>
    obtain ⟨e1, h1, l1⟩ := processDir_trace_ext sys flags fileScheme dirScheme st d
    obtain ⟨e2, h2, l2⟩ := ih (processDir sys flags fileScheme dirScheme st d)
    refine ⟨e1 ++ e2, ?_, ?_⟩
    · rw [List.foldl_cons, h2, h1, List.append_assoc]
    · unfold listedDirs at l1 l2 ⊢
      rw [List.filterMap_append, l1, l2]
      rfl

theorem readDir_of_mem_listedDirs (trace : List Event) (dirname : Str)
    (h : dirname ∈ listedDirs trace) :
    ∃ t₁ t₂, trace = t₁ ++ Event.readDir dirname :: t₂ := by
  unfold listedDirs at h
  obtain ⟨e, he, hd⟩ := List.mem_filterMap.mp h
  cases e with
  | readDir d =>
    simp only [Option.some.injEq] at hd
    subst hd
    exact List.append_of_mem he
  | table rows => simp at hd
  | notice => simp at hd
  | prompt => simp at hd
  | rename a b => simp at hd

/-- C4: in a run of `runRenamer` that reaches its loop (the schemes compile, the target
is a directory, the walk succeeds and names every directory of the tree by a path of
its own), the directories are listed one after the other in the reverse order of the
walk, root included, each once. For a directory `B` that lies below a directory `A`,
the whole round of `B` comes before the listing of `A`, with which the planning of `A`
begins: the history of the run is the history up to the end of the round of `B`,
followed by further events among which is the listing of `A`; and the round of `B` is
the listing of `B`, its planning from that listing and the execution of its plan (the
preview, the prompt and the renames, or the notice when there is nothing to do). -/
theorem runRenamer_deepest_first {σ : Type} (sys : System σ) (flags : Flags)
    (order₁ order₂ : List (Str × Str)) (target : Str) (fs : σ)
    (fileScheme dirScheme : Str) (tree : FsTree) (A B : Str)
    (hfile : unwrapKeys order₁ flags.flagRenameScheme false = .ok fileScheme)
    (hdir : unwrapKeys order₂ flags.flagRenameDirScheme true = .ok dirScheme)
    (hstat : sys.Stat fs target = .ok true)
    (hwalk : sys.Walk fs (TrimSuffix target ['/']) = .ok tree)
    (hnd : (walkDirs (TrimSuffix target ['/']) tree).Nodup)
    (hbelow : Below (TrimSuffix target ['/']) tree A B) :
    listedDirs (runRenamer sys flags order₁ order₂ target fs).2.trace
      = (walkDirs (TrimSuffix target ['/']) tree).reverse ∧
    (listedDirs (runRenamer sys flags order₁ order₂ target fs).2.trace).Nodup ∧
    ∃ (before after : List Str) (t₂ t₃ : List Event),
      (walkDirs (TrimSuffix target ['/']) tree).reverse = before ++ B :: after ∧
      A ∈ after ∧
      listedDirs (before.foldl (processDir sys flags fileScheme dirScheme) ({ fs := fs, trace := [] }, [])).1.trace = before ∧
      IsRound sys flags fileScheme dirScheme (before.foldl (processDir sys flags fileScheme dirScheme) ({ fs := fs, trace := [] }, [])).1 B
        (processDir sys flags fileScheme dirScheme (before.foldl (processDir sys flags fileScheme dirScheme) ({ fs := fs, trace := [] }, [])) B).1 ∧
      (runRenamer sys flags order₁ order₂ target fs).2.trace
        = (processDir sys flags fileScheme dirScheme (before.foldl (processDir sys flags fileScheme dirScheme) ({ fs := fs, trace := [] }, [])) B).1.trace
          ++ t₂ ++ Event.readDir A :: t₃ := by
  have hrun : listedDirs (runRenamer sys flags order₁ order₂ target fs).2.trace
      = (walkDirs (TrimSuffix target ['/']) tree).reverse := by
    unfold runRenamer
    simp only [hfile, hdir, hstat, hwalk]
    rw [foldl_processDir_listedDirs]
    simp [listedDirs]
  refine ⟨hrun, ?_, ?_⟩
  · rw [hrun]
    exact List.nodup_reverse.mpr hnd
  · obtain ⟨l₁, l₂, l₃, hl⟩ := walkDirs_below _ tree A B hbelow
    have hrev : (walkDirs (TrimSuffix target ['/']) tree).reverse
        = l₃.reverse ++ B :: (l₂.reverse ++ A :: l₁.reverse) := by
      rw [hl]
      simp
    obtain ⟨ext, hext, hlext⟩ := foldl_processDir_trace_ext sys flags fileScheme dirScheme
      (l₂.reverse ++ A :: l₁.reverse)
      (processDir sys flags fileScheme dirScheme
        (l₃.reverse.foldl (processDir sys flags fileScheme dirScheme)
          ({ fs := fs, trace := [] }, [])) B)
    obtain ⟨t₂, t₃, ht⟩ := readDir_of_mem_listedDirs ext A (by rw [hlext]; simp)
    refine ⟨l₃.reverse, l₂.reverse ++ A :: l₁.reverse, t₂, t₃, hrev, by simp, ?_,
      processDir_isRound sys flags fileScheme dirScheme _ B, ?_⟩
    · rw [foldl_processDir_listedDirs]
      simp [listedDirs]
    · unfold runRenamer
      simp only [hfile, hdir, hstat, hwalk]
      rw [hrev, List.foldl_append, List.foldl_cons, hext, ht, List.append_assoc]

theorem runRenamer_deepest_first_witness :
    listedDirs (runRenamer exampleSystem exampleFlags MAPPINGS MAPPINGS "/m".toList
        examplePaths).2.trace
      = (walkDirs (TrimSuffix "/m".toList ['/']) (.dir "m".toList [.dir "A".toList
          [.file "1.flac".toList, .file "2.flac".toList]])).reverse ∧
    (listedDirs (runRenamer exampleSystem exampleFlags MAPPINGS MAPPINGS "/m".toList
        examplePaths).2.trace).Nodup ∧
    ∃ (before after : List Str) (t₂ t₃ : List Event),
      (walkDirs (TrimSuffix "/m".toList ['/']) (.dir "m".toList [.dir "A".toList
          [.file "1.flac".toList, .file "2.flac".toList]])).reverse
        = before ++ "/m/A".toList :: after ∧
      "/m".toList ∈ after ∧
      listedDirs (before.foldl (processDir exampleSystem exampleFlags "%(TRACKNUMBER)s - %(TITLE)s".toList
            "%(ARTIST)s".toList) ({ fs := examplePaths, trace := [] }, [])).1.trace = before ∧
      IsRound exampleSystem exampleFlags "%(TRACKNUMBER)s - %(TITLE)s".toList
        "%(ARTIST)s".toList (before.foldl (processDir exampleSystem exampleFlags "%(TRACKNUMBER)s - %(TITLE)s".toList
            "%(ARTIST)s".toList) ({ fs := examplePaths, trace := [] }, [])).1 "/m/A".toList
        (processDir exampleSystem exampleFlags "%(TRACKNUMBER)s - %(TITLE)s".toList
          "%(ARTIST)s".toList (before.foldl (processDir exampleSystem exampleFlags "%(TRACKNUMBER)s - %(TITLE)s".toList
            "%(ARTIST)s".toList) ({ fs := examplePaths, trace := [] }, [])) "/m/A".toList).1 ∧
      (runRenamer exampleSystem exampleFlags MAPPINGS MAPPINGS "/m".toList
          examplePaths).2.trace
        = (processDir exampleSystem exampleFlags "%(TRACKNUMBER)s - %(TITLE)s".toList
            "%(ARTIST)s".toList (before.foldl (processDir exampleSystem exampleFlags "%(TRACKNUMBER)s - %(TITLE)s".toList
            "%(ARTIST)s".toList) ({ fs := examplePaths, trace := [] }, [])) "/m/A".toList).1.trace
          ++ t₂ ++ Event.readDir "/m".toList :: t₃ :=
  runRenamer_deepest_first exampleSystem exampleFlags MAPPINGS MAPPINGS "/m".toList
    examplePaths "%(TRACKNUMBER)s - %(TITLE)s".toList "%(ARTIST)s".toList
    (.dir "m".toList [.dir "A".toList [.file "1.flac".toList, .file "2.flac".toList]])
    "/m".toList "/m/A".toList
    (by decide) (by decide) (by decide) rfl (by decide)
    ⟨"m".toList, [.dir "A".toList [.file "1.flac".toList, .file "2.flac".toList]],
      .dir "A".toList [.file "1.flac".toList, .file "2.flac".toList],
      .dir "A".toList [.file "1.flac".toList, .file "2.flac".toList],
      Subdir.root _ _ _, List.mem_cons_self _ _, Subdir.root _ _ _⟩

/-- C2 (code defect): in the example tree the plan of `/m/A` records an error (the
track `2.flac` has no title), every listing succeeds and, the run being a dry run, no
rename is made; `runRenamer` returns nil. The loop appends the variable `err` of the
listing, which is nil there, where it means to append the errors of the plan. -/
theorem runRenamer_nil_despite_plan_errors :
    (workDir (exampleSystem.world examplePaths) exampleFlags.flagMetaUniformTags "/m/A".toList
      ["1.flac".toList, "2.flac".toList] "%(TRACKNUMBER)s - %(TITLE)s".toList
      "%(ARTIST)s".toList exampleFlags.flagRenameCoverName).EncounteredErrors = true ∧
    unwrapKeys MAPPINGS exampleFlags.flagRenameScheme false
      = .ok "%(TRACKNUMBER)s - %(TITLE)s".toList ∧
    unwrapKeys MAPPINGS exampleFlags.flagRenameDirScheme true = .ok "%(ARTIST)s".toList ∧
    listedDirs (runRenamer exampleSystem exampleFlags MAPPINGS MAPPINGS "/m".toList
      examplePaths).2.trace = ["/m/A".toList, "/m".toList] ∧
    (runRenamer exampleSystem exampleFlags MAPPINGS MAPPINGS "/m".toList examplePaths).1 = [] := by
  decide

/-- C9 (code defect): the pattern `%nt` is accepted as a file scheme, because it
contains the text `%n`; when the range over `MAPPINGS` reaches the code `nt` before
the code `n` (as in the reversed table, a permutation of the table), the template is
`%(TRACKTOTAL)s`, which holds neither `%(TITLE)s` nor `%(TRACKNUMBER)s`. -/
theorem unwrapKeys_accepts_tracktotal_only :
    MAPPINGS.reverse.Perm MAPPINGS ∧
    unwrapKeys MAPPINGS.reverse "%nt".toList false = .ok "%(TRACKTOTAL)s".toList ∧
    Contains "%(TRACKTOTAL)s".toList (placeholder TagTitle) = false ∧
    Contains "%(TRACKTOTAL)s".toList (placeholder TagTrackNumber) = false :=
  ⟨List.reverse_perm MAPPINGS, by decide, by decide, by decide⟩

/-- C10 (code defect): when the range over `MAPPINGS` reaches a one-letter code before
the two-letter code it starts (as in the order of the table in the source, `a` before
`aa` and `n` before `nt`), the directory patterns `%aa` and `%nt` compile to
`%(ARTIST)sa` and `%(TRACKNUMBER)st`, not to the placeholders of ALBUMARTIST and
TRACKTOTAL. -/
theorem unwrapKeys_two_letter_code_order :
    ("aa".toList, TagAlbumArtist) ∈ MAPPINGS ∧ ("nt".toList, TagTracksTotal) ∈ MAPPINGS ∧
    unwrapKeys MAPPINGS "%aa".toList true = .ok "%(ARTIST)sa".toList ∧
    unwrapKeys MAPPINGS "%nt".toList true = .ok "%(TRACKNUMBER)st".toList ∧
    unwrapKeys MAPPINGS "%aa".toList true ≠ .ok (placeholder TagAlbumArtist) ∧
    unwrapKeys MAPPINGS "%nt".toList true ≠ .ok (placeholder TagTracksTotal) := by
  decide

theorem carryOut_first_failure_witness :
    (examplePlan.CarryOut exampleSystem examplePlan.FileActions (true, none) false
      { fs := ["/m/A/1.flac".toList, "/m/A".toList], trace := [] }).1
        = some "rename failed".toList ∧
    (examplePlan.CarryOut exampleSystem examplePlan.FileActions (true, none) false
      { fs := ["/m/A/1.flac".toList, "/m/A".toList], trace := [] }).2.fs
        = ["/m/A/01.flac".toList, "/m/A".toList] ∧
    (examplePlan.CarryOut exampleSystem examplePlan.FileActions (true, none) false
      { fs := ["/m/A/1.flac".toList, "/m/A".toList], trace := [] }).2.trace
        = [] ++ Event.table (carryOutData examplePlan examplePlan.FileActions) :: Event.prompt ::
          ([("/m/A/1.flac".toList, "/m/A/01.flac".toList)] ++
            [("/m/A/2.flac".toList, "/m/A/02.flac".toList)]).map renameEvent :=
  carryOut_first_failure exampleSystem examplePlan examplePlan.FileActions
    { fs := ["/m/A/1.flac".toList, "/m/A".toList], trace := [] }
    [("/m/A/1.flac".toList, "/m/A/01.flac".toList)]
    [("/m/A".toList, "/m/Foo".toList)]
    ("/m/A/2.flac".toList, "/m/A/02.flac".toList)
    ["/m/A/01.flac".toList, "/m/A".toList] "rename failed".toList
    (by decide) (by decide) (by decide)

/-- C11 (code defect): the tag set holds ARTIST and ALBUM with one non-empty value each
and no tag of the check list has two values, so every placeholder of the scheme
`%(ARTIST)s - %(ALBUM)s (FLAC)` is served; `canRenameDirectory` returns false with the
error "missing tag FLAC", because its scan `\((\w+)\)` takes the literal text `(FLAC)`
for a tag, while `applyMetadataToScheme` takes only `%(ARTIST)s` and `%(ALBUM)s` for
placeholders and renders the name `Foo - Bar (FLAC)`. -/
theorem canRenameDirectory_literal_parenthesis :
    multiValuedTags defaultUniformCmdTags
      [("ARTIST".toList, ["Foo".toList]), ("ALBUM".toList, ["Bar".toList])] = [] ∧
    applyMetadataToScheme "%(ARTIST)s - %(ALBUM)s (FLAC)".toList
      [("ARTIST".toList, "Foo".toList), ("ALBUM".toList, "Bar".toList)]
      = "Foo - Bar (FLAC)".toList ∧
    canRenameDirectory defaultUniformCmdTags
      [("ARTIST".toList, ["Foo".toList]), ("ALBUM".toList, ["Bar".toList])]
      "%(ARTIST)s - %(ALBUM)s (FLAC)".toList
      = (false, some (PlanError.missingTag "FLAC".toList)) ∧
    canRenameDirectory defaultUniformCmdTags
      [("ARTIST".toList, ["Foo".toList]), ("ALBUM".toList, ["Bar".toList])]
      "%(ARTIST)s - %(ALBUM)s".toList = (true, none) := by
  decide

theorem workDir_eq_workLoop (w : World) (tags : List Str) (dirname : Str)
    (filenames : List Str) (fileScheme dirScheme coverName : Str) :
    workDir w tags dirname filenames fileScheme dirScheme coverName
      = if (workLoop w dirname filenames fileScheme).dirContainsMusic then
          workDirTail w tags dirname dirScheme coverName (workLoop w dirname filenames fileScheme)
        else (workLoop w dirname filenames fileScheme).action :=
  rfl

theorem workFile_not_audio (w : World) (dirname fileScheme : Str) (st : WorkState)
    (filename : Str) (h : isFlac filename = false) :
    (workFile w dirname fileScheme st filename).action = st.action ∧
    (workFile w dirname fileScheme st filename).albumMetadata = st.albumMetadata ∧
    (workFile w dirname fileScheme st filename).fileMetadata = st.fileMetadata ∧
    (workFile w dirname fileScheme st filename).dirContainsMusic = st.dirContainsMusic := by
  unfold workFile
  simp only [h, Bool.false_eq_true, if_false]
  split <;> exact ⟨rfl, rfl, rfl, rfl⟩

theorem foldl_workFile_no_audio (w : World) (dirname fileScheme : Str) (l : List Str)
    (st : WorkState) (h : ∀ f ∈ l, isFlac f = false) :
    (l.foldl (workFile w dirname fileScheme) st).action = st.action ∧
    (l.foldl (workFile w dirname fileScheme) st).dirContainsMusic = st.dirContainsMusic := by
  induction l generalizing st with
  | nil => exact ⟨rfl, rfl⟩
  | cons f fs ih =>
    have hf := workFile_not_audio w dirname fileScheme st f (h f (List.mem_cons_self _ _))
    have := ih (workFile w dirname fileScheme st f) (fun g hg => h g (List.mem_cons_of_mem _ hg))
    simp only [List.foldl_cons]
    exact ⟨this.1.trans hf.1, this.2.trans hf.2.2.2⟩

/-- C17: for a directory whose file list holds no name that ends in `.flac` (in any
case of the letters), `workDir` returns the empty plan of the directory: no file
action, no cover action, no directory action, no error, whatever images there are. -/
theorem workDir_no_audio (w : World) (tags : List Str) (dirname : Str)
    (filenames : List Str) (fileScheme dirScheme coverName : Str)
    (h : ∀ f ∈ filenames, isFlac f = false) :
    workDir w tags dirname filenames fileScheme dirScheme coverName = NewAction dirname ∧
    (workDir w tags dirname filenames fileScheme dirScheme coverName).FileActions = [] ∧
    (workDir w tags dirname filenames fileScheme dirScheme coverName).hasImageAction = false ∧
    (workDir w tags dirname filenames fileScheme dirScheme coverName).hasDirAction = false ∧
    (workDir w tags dirname filenames fileScheme dirScheme coverName).Errors = [] := by
  have hl := foldl_workFile_no_audio w dirname fileScheme (sortStrings filenames)
    { albumMetadata := [], collectedImages := [], fileMetadata := none,
      dirContainsMusic := false, action := NewAction dirname }
    (fun f hf => h f ((mem_sortStrings filenames f).mp hf))
  have heq : workDir w tags dirname filenames fileScheme dirScheme coverName
      = NewAction dirname := by
    rw [workDir_eq_workLoop]
    unfold workLoop
    rw [hl.2, hl.1]
    rfl
  rw [heq]
  exact ⟨rfl, rfl, rfl, rfl, rfl⟩

theorem workDir_no_audio_witness :
    workDir scenarioWorld defaultUniformCmdTags "/m/X".toList
        ["01.jpg".toList, "cover.jpg".toList, "notes.txt".toList]
        "%(TITLE)s".toList "%(ARTIST)s".toList "cover".toList = NewAction "/m/X".toList ∧
    (workDir scenarioWorld defaultUniformCmdTags "/m/X".toList
        ["01.jpg".toList, "cover.jpg".toList, "notes.txt".toList]
        "%(TITLE)s".toList "%(ARTIST)s".toList "cover".toList).FileActions = [] ∧
    (workDir scenarioWorld defaultUniformCmdTags "/m/X".toList
        ["01.jpg".toList, "cover.jpg".toList, "notes.txt".toList]
        "%(TITLE)s".toList "%(ARTIST)s".toList "cover".toList).hasImageAction = false ∧
    (workDir scenarioWorld defaultUniformCmdTags "/m/X".toList
        ["01.jpg".toList, "cover.jpg".toList, "notes.txt".toList]
        "%(TITLE)s".toList "%(ARTIST)s".toList "cover".toList).hasDirAction = false ∧
    (workDir scenarioWorld defaultUniformCmdTags "/m/X".toList
        ["01.jpg".toList, "cover.jpg".toList, "notes.txt".toList]
        "%(TITLE)s".toList "%(ARTIST)s".toList "cover".toList).Errors = [] :=
  workDir_no_audio scenarioWorld defaultUniformCmdTags "/m/X".toList
    ["01.jpg".toList, "cover.jpg".toList, "notes.txt".toList]
    "%(TITLE)s".toList "%(ARTIST)s".toList "cover".toList (by decide)

theorem find?_first {α : Type} (p : α → Bool) (pre post : List α) (x : α)
    (hpre : ∀ y ∈ pre, p y = false) (hx : p x = true) :
    (pre ++ x :: post).find? p = some x := by
  induction pre with
  | nil => simp [List.find?, hx]
  | cons y ys ih =>
    have hy : p y = false := hpre y (List.mem_cons_self _ _)
    simp only [List.cons_append, List.find?, hy]
    exact ih (fun z hz => hpre z (List.mem_cons_of_mem _ hz))

/-- C19: for a list of two or more candidates, `GetMainCover` returns the first
candidate in list order whose name contains, in lower case, `front`, `folder`, `cover`
or `devant`, whatever the sizes of the files are (the world `w` is arbitrary). -/
theorem getMainCover_first_cover_name (w : World) (dirname : Str) (pre post : List Str)
    (image : Str) (hlen : 2 ≤ (pre ++ image :: post).length)
    (hpre : ∀ x ∈ pre, isCoverName x = false) (himage : isCoverName image = true) :
    GetMainCover w dirname (pre ++ image :: post) = image := by
  have hfind := find?_first isCoverName pre post image hpre himage
  cases hl : pre ++ image :: post with
  | nil => rw [hl] at hlen; simp at hlen
  | cons a as =>
    cases as with
    | nil => rw [hl] at hlen; simp at hlen
    | cons b bs =>
      rw [hl] at hfind
      simp only [GetMainCover, hfind]

theorem getMainCover_first_cover_name_witness :
    GetMainCover scenarioWorld "/m/X".toList (["01.jpg".toList] ++ "cover.jpg".toList :: [])
      = "cover.jpg".toList :=
  getMainCover_first_cover_name scenarioWorld "/m/X".toList ["01.jpg".toList] []
    "cover.jpg".toList (by decide) (by decide) (by decide)

theorem largestStep_of_size (w : World) (dirname : Str) (acc : Nat × Str) (image : Str)
    (hread : (w.StatSize (Join dirname image)).isSome = true) :
    largestStep w dirname acc image
      = if acc.1 < imageSize w dirname image then (imageSize w dirname image, image) else acc := by
  obtain ⟨n, hn⟩ := Option.isSome_iff_exists.mp hread
  simp [largestStep, imageSize, hn]

theorem foldl_largestStep (w : World) (dirname : Str) (rest : List Str)
    (hread : ∀ x ∈ rest, (w.StatSize (Join dirname x)).isSome = true)
    (p₁ p₂ : List Str) (best : Str)
    (hbefore : ∀ x ∈ p₁, imageSize w dirname x < imageSize w dirname best)
    (hafter : ∀ x ∈ p₂, imageSize w dirname x ≤ imageSize w dirname best) :
    ∃ q₁ q₂ : List Str,
      p₁ ++ best :: p₂ ++ rest
        = q₁ ++ (rest.foldl (largestStep w dirname) (imageSize w dirname best, best)).2 :: q₂ ∧
      (∀ x ∈ q₁, imageSize w dirname x
        < imageSize w dirname (rest.foldl (largestStep w dirname) (imageSize w dirname best, best)).2) ∧
      (∀ x ∈ q₂, imageSize w dirname x
        ≤ imageSize w dirname (rest.foldl (largestStep w dirname) (imageSize w dirname best, best)).2) := by
  induction rest generalizing p₁ p₂ best with
  | nil => exact ⟨p₁, p₂, by simp, hbefore, hafter⟩
  | cons y ys ih =>
    have hy := largestStep_of_size w dirname (imageSize w dirname best, best) y
      (hread y (List.mem_cons_self _ _))
    have hys : ∀ x ∈ ys, (w.StatSize (Join dirname x)).isSome = true :=
      fun x hx => hread x (List.mem_cons_of_mem _ hx)
    simp only [List.foldl_cons, hy]
    by_cases hlt : imageSize w dirname best < imageSize w dirname y
    · simp only [hlt, if_true]
      obtain ⟨q₁, q₂, h1, h2, h3⟩ := ih hys (p₁ ++ best :: p₂) [] y
        (by
          intro x hx
          rcases List.mem_append.mp hx with h | h
          · exact Nat.lt_trans (hbefore x h) hlt
          · rcases List.mem_cons.mp h with h | h
            · rw [h]; exact hlt
            · exact Nat.lt_of_le_of_lt (hafter x h) hlt)
        (by simp)
      exact ⟨q₁, q₂, by simpa using h1, h2, h3⟩
    · simp only [hlt, if_false]
      obtain ⟨q₁, q₂, h1, h2, h3⟩ := ih hys p₁ (p₂ ++ [y]) best hbefore
        (by
          intro x hx
          rcases List.mem_append.mp hx with h | h
          · exact hafter x h
          · simp only [List.mem_singleton] at h
            rw [h]; exact Nat.le_of_not_lt hlt)
      exact ⟨q₁, q₂, by simpa using h1, h2, h3⟩

/-- C20: for a list of two or more candidates none of which has a cover-indicating
name and all of which have a readable size, `GetMainCover` returns a candidate of the
list whose size is at least the size of every candidate, and the first such one: all
candidates before it in the list are strictly smaller. -/
theorem getMainCover_largest (w : World) (dirname : Str) (images : List Str)
    (hlen : 2 ≤ images.length)
    (hname : ∀ x ∈ images, isCoverName x = false)
    (hread : ∀ x ∈ images, (w.StatSize (Join dirname x)).isSome = true) :
    ∃ before after : List Str,
      images = before ++ GetMainCover w dirname images :: after ∧
      (∀ x ∈ before,
        imageSize w dirname x < imageSize w dirname (GetMainCover w dirname images)) ∧
      (∀ x ∈ images,
        imageSize w dirname x ≤ imageSize w dirname (GetMainCover w dirname images)) := by
  have hfind : images.find? isCoverName = none := by
    rw [List.find?_eq_none]
    intro x hx
    simp [hname x hx]
  cases himages : images with
  | nil => rw [himages] at hlen; simp at hlen
  | cons a as =>
    cases has : as with
    | nil => rw [himages, has] at hlen; simp at hlen
    | cons b bs =>
      rw [himages, has] at hfind hread
      have hget : GetMainCover w dirname (a :: b :: bs)
          = ((a :: b :: bs).foldl (largestStep w dirname) (0, a)).2 := by
        simp only [GetMainCover, hfind]
      have hfirst : largestStep w dirname (0, a) a = (imageSize w dirname a, a) := by
        rw [largestStep_of_size w dirname (0, a) a (hread a (List.mem_cons_self _ _))]
        by_cases h0 : 0 < imageSize w dirname a
        · simp [h0]
        · have : imageSize w dirname a = 0 := by omega
          simp [this]
      obtain ⟨q₁, q₂, h1, h2, h3⟩ := foldl_largestStep w dirname (b :: bs)
        (fun x hx => hread x (List.mem_cons_of_mem _ hx)) [] [] a (by simp) (by simp)
      rw [hget, List.foldl_cons, hfirst]
      refine ⟨q₁, q₂, by simpa using h1, h2, ?_⟩
      intro x hx
      have hx' : x ∈ q₁ ++ (List.foldl (largestStep w dirname) (imageSize w dirname a, a)
          (b :: bs)).2 :: q₂ := by
        rw [← h1]
        simpa using hx
      rcases List.mem_append.mp hx' with h | h
      · exact Nat.le_of_lt (h2 x h)
      · rcases List.mem_cons.mp h with h | h
        · rw [h]
        · exact h3 x h

theorem getMainCover_largest_witness :
    ∃ before after : List Str,
      ["a.jpg".toList, "b.jpg".toList, "c.jpg".toList]
        = before ++ GetMainCover scenarioWorld "/m/X".toList
            ["a.jpg".toList, "b.jpg".toList, "c.jpg".toList] :: after ∧
      (∀ x ∈ before, imageSize scenarioWorld "/m/X".toList x
        < imageSize scenarioWorld "/m/X".toList (GetMainCover scenarioWorld "/m/X".toList
            ["a.jpg".toList, "b.jpg".toList, "c.jpg".toList])) ∧
      (∀ x ∈ ["a.jpg".toList, "b.jpg".toList, "c.jpg".toList],
        imageSize scenarioWorld "/m/X".toList x
          ≤ imageSize scenarioWorld "/m/X".toList (GetMainCover scenarioWorld "/m/X".toList
            ["a.jpg".toList, "b.jpg".toList, "c.jpg".toList])) :=
  getMainCover_largest scenarioWorld "/m/X".toList
    ["a.jpg".toList, "b.jpg".toList, "c.jpg".toList] (by decide) (by decide) (by decide)
/-- C18: a plan is actionable exactly when its file-action map is non-empty or its
directory action is set. In the round of `runRenamer` for a directory whose listing
succeeds, a plan that is not actionable (in particular one whose only action is a
cover rename) is not carried out: the round prints the notice and nothing else, makes
no rename call, leaves the file system and the collected errors as they were; an
actionable plan is handed to `CarryOut`. -/
theorem processDir_actionable {σ : Type} (sys : System σ) (flags : Flags)
    (fileScheme dirScheme : Str) (st : Machine σ × List RunError) (dirname : Str)
    (entries : List DirEntry)
    (hread : sys.ReadDir st.1.fs dirname = .ok entries) :
    (∀ a : renameAction, a.Actionable = true ↔ (a.FileActions ≠ [] ∨ a.hasDirAction = true)) ∧
    ((roundPlan sys flags fileScheme dirScheme st.1.fs dirname entries).Actionable = false →
      processDir sys flags fileScheme dirScheme st dirname
        = ({ fs := st.1.fs, trace := st.1.trace ++ [Event.readDir dirname, Event.notice] },
            st.2)) ∧
    ((roundPlan sys flags fileScheme dirScheme st.1.fs dirname entries).Actionable = true →
      (processDir sys flags fileScheme dirScheme st dirname).1
        = ((roundPlan sys flags fileScheme dirScheme st.1.fs dirname entries).CarryOut sys
            (sys.RangeOrder (st.1.trace ++ [Event.readDir dirname])
              (roundPlan sys flags fileScheme dirScheme st.1.fs dirname entries).FileActions)
            (sys.Confirm (st.1.trace ++ [Event.readDir dirname]))
            flags.flagRenameDryrun
            { fs := st.1.fs, trace := st.1.trace ++ [Event.readDir dirname] }).2) := by
  refine ⟨?_, ?_, ?_⟩
  · intro a
    cases hl : a.FileActions with
    | nil => simp [renameAction.Actionable, hl]
    | cons x xs => simp [renameAction.Actionable, hl]
  · intro hplan
    unfold roundPlan at hplan
    unfold processDir
    simp only [Machine.log, hread, hplan, Bool.false_eq_true, if_false, multierrAppend]
    split <;> simp
  · intro hplan
    unfold roundPlan at hplan ⊢
    unfold processDir
    simp only [Machine.log, hread, hplan, if_true, multierrAppend]
    split <;> split <;> simp_all

theorem processDir_actionable_witness :
    (∀ a : renameAction, a.Actionable = true ↔ (a.FileActions ≠ [] ∨ a.hasDirAction = true)) ∧
    ((roundPlan exampleSystem exampleFlags "%(TITLE)s".toList "%(ARTIST)s".toList
        examplePaths "/m".toList exampleRootEntries).Actionable = false →
      processDir exampleSystem exampleFlags "%(TITLE)s".toList "%(ARTIST)s".toList
          ({ fs := examplePaths, trace := [] }, []) "/m".toList
        = ({ fs := examplePaths, trace := [] ++ [Event.readDir "/m".toList, Event.notice] },
            [])) ∧
    ((roundPlan exampleSystem exampleFlags "%(TITLE)s".toList "%(ARTIST)s".toList
        examplePaths "/m".toList exampleRootEntries).Actionable = true →
      (processDir exampleSystem exampleFlags "%(TITLE)s".toList "%(ARTIST)s".toList
          ({ fs := examplePaths, trace := [] }, []) "/m".toList).1
        = ((roundPlan exampleSystem exampleFlags "%(TITLE)s".toList "%(ARTIST)s".toList
            examplePaths "/m".toList exampleRootEntries).CarryOut exampleSystem
            (exampleSystem.RangeOrder ([] ++ [Event.readDir "/m".toList])
              (roundPlan exampleSystem exampleFlags "%(TITLE)s".toList "%(ARTIST)s".toList
                examplePaths "/m".toList exampleRootEntries).FileActions)
            (exampleSystem.Confirm ([] ++ [Event.readDir "/m".toList]))
            exampleFlags.flagRenameDryrun
            { fs := examplePaths, trace := [] ++ [Event.readDir "/m".toList] }).2) :=
  processDir_actionable exampleSystem exampleFlags "%(TITLE)s".toList "%(ARTIST)s".toList
    ({ fs := examplePaths, trace := [] }, []) "/m".toList exampleRootEntries (by decide)
theorem workFile_audio_fileMetadata (w : World) (dirname fileScheme : Str) (st : WorkState)
    (filename : Str) (h : isFlac filename = true) :
    (workFile w dirname fileScheme st filename).fileMetadata
      = (w.FetchMetadata (Join dirname filename)).toOption := by
  unfold workFile
  simp only [h, if_true]
  split
  · rename_i e he
    simp [he, Except.toOption]
  · rename_i md he
    simp only [he, Except.toOption]
    split <;> rfl

theorem foldl_workFile_fileMetadata (w : World) (dirname fileScheme : Str) (l : List Str)
    (st : WorkState) :
    (l.foldl (workFile w dirname fileScheme) st).fileMetadata
      = match (l.filter isFlac).getLast? with
        | none => st.fileMetadata
        | some last => (w.FetchMetadata (Join dirname last)).toOption := by
  induction l generalizing st with
  | nil => rfl
  | cons f fs ih =>
    simp only [List.foldl_cons]
    rw [ih]
    by_cases hf : isFlac f = true
    · simp only [List.filter_cons, hf, if_true]
      cases hl : (fs.filter isFlac).getLast? with
      | none =>
        have hnil : fs.filter isFlac = [] := List.getLast?_eq_none_iff.mp hl
        simp [hnil, workFile_audio_fileMetadata w dirname fileScheme st f hf]
      | some last =>
        cases hfs : fs.filter isFlac with
        | nil => rw [hfs] at hl; simp at hl
        | cons g gs =>
          rw [hfs] at hl
          simp [List.getLast?_cons_cons, hl]
    · have hf' : isFlac f = false := by simpa using hf
      simp only [List.filter_cons, hf', Bool.false_eq_true, if_false]
      rw [(workFile_not_audio w dirname fileScheme st f hf').2.2.1]

theorem workLoop_fileMetadata (w : World) (dirname : Str) (filenames : List Str)
    (fileScheme last : Str)
    (hlast : ((sortStrings filenames).filter isFlac).getLast? = some last) :
    (workLoop w dirname filenames fileScheme).fileMetadata
      = (w.FetchMetadata (Join dirname last)).toOption := by
  unfold workLoop
  rw [foldl_workFile_fileMetadata, hlast]

theorem workLoop_music (w : World) (dirname : Str) (filenames : List Str)
    (fileScheme : Str) (h : ∃ f ∈ filenames, isFlac f = true) :
    (workLoop w dirname filenames fileScheme).dirContainsMusic = true := by
  obtain ⟨f, hf, hflac⟩ := h
  exact foldl_workFile_music w dirname fileScheme _ _ f
    ((mem_sortStrings filenames f).mpr hf) hflac

theorem workLoop_hasDirAction (w : World) (dirname : Str) (filenames : List Str)
    (fileScheme : Str) : (workLoop w dirname filenames fileScheme).action.hasDirAction = false := by
  unfold workLoop
  rw [foldl_workFile_hasDirAction]
  rfl

/-- C13: for a directory that holds an audio file, when the directory is not eligible
for renaming (`canRenameDirectory` does not return true without error on the tag set
of the directory, or it does and the variable `fileMetadata` is nil after the loop),
`workDir` sets no directory action and the plan it returns records an error. -/
theorem workDir_ineligible_records_error (w : World) (tags : List Str) (dirname : Str)
    (filenames : List Str) (fileScheme dirScheme coverName : Str)
    (hmusic : ∃ f ∈ filenames, isFlac f = true)
    (hinelig :
      canRenameDirectory tags (workLoop w dirname filenames fileScheme).albumMetadata dirScheme
          ≠ (true, none) ∨
        (workLoop w dirname filenames fileScheme).fileMetadata = none) :
    (workDir w tags dirname filenames fileScheme dirScheme coverName).hasDirAction = false ∧
    (workDir w tags dirname filenames fileScheme dirScheme coverName).Errors ≠ [] := by
  rw [workDir_eq_workLoop, workLoop_music w dirname filenames fileScheme hmusic]
  simp only [if_true]
  have hdir := workLoop_hasDirAction w dirname filenames fileScheme
  unfold workDirTail
  simp only
  split
  · split <;> [split; skip] <;>
      simp [renameAction.AddError, renameAction.SetImageAction, hdir]
  · rename_i c hc
    split
    · rename_i hcond
      simp only [Bool.and_eq_true] at hcond
      rcases hinelig with h | h
      · rw [hc, hcond.1] at h
        exact absurd rfl h
      · rw [h] at hcond
        simp at hcond
    · split <;> [split; skip] <;>
        simp [renameAction.AddError, renameAction.SetImageAction, hdir]

theorem workDir_ineligible_records_error_witness :
    (workDir (exampleSystem.world []) defaultUniformCmdTags "/m/A".toList
      ["1.flac".toList, "3.flac".toList] "%(TRACKNUMBER)s".toList "%(ARTIST)s".toList
      "cover".toList).hasDirAction = false ∧
    (workDir (exampleSystem.world []) defaultUniformCmdTags "/m/A".toList
      ["1.flac".toList, "3.flac".toList] "%(TRACKNUMBER)s".toList "%(ARTIST)s".toList
      "cover".toList).Errors ≠ [] :=
  workDir_ineligible_records_error (exampleSystem.world []) defaultUniformCmdTags
    "/m/A".toList ["1.flac".toList, "3.flac".toList] "%(TRACKNUMBER)s".toList
    "%(ARTIST)s".toList "cover".toList
    ⟨"1.flac".toList, by decide, by decide⟩ (Or.inr (by decide))
theorem workDirTail_cases (w : World) (tags : List Str) (dirname dirScheme coverName : Str)
    (st : WorkState) :
    ∃ A : renameAction,
      A.hasDirAction = st.action.hasDirAction ∧
      A.FileActions = st.action.FileActions ∧
      A.Errors = st.action.Errors ∧
      workDirTail w tags dirname dirScheme coverName st
        = match canRenameDirectory tags st.albumMetadata dirScheme with
          | (_, some err) => A.AddError err
          | (canRenameDir, none) =>
            if canRenameDir && st.fileMetadata.isSome then
              match renameDir dirScheme dirname (singleMetadata st.albumMetadata) with
              | some (oldPath, newPath) => A.SetDirAction oldPath newPath
              | none => A
            else A.AddError (PlanError.cannotRename dirname) := by
  refine ⟨if 0 < st.collectedImages.length then
      match renameCover w dirname st.collectedImages coverName with
      | some (oldPath, newPath) => st.action.SetImageAction oldPath newPath
      | none => st.action
    else st.action, ?_, ?_, ?_, rfl⟩
  · split <;> [split; skip] <;> simp [renameAction.SetImageAction]
  · split <;> [split; skip] <;> simp [renameAction.SetImageAction]
  · split <;> [split; skip] <;> simp [renameAction.SetImageAction]

/-- The guard of the directory rename in `workDir`, for a directory that holds audio
files, `last` being the last of them in sorted order, and whose tag set passes
`canRenameDirectory`: the directory action is set if and only if the metadata of `last`
was fetched without error (the variable `fileMetadata` of the loop is not nil) and the
rendered path differs from the path of the directory; the action then leads from the
directory to the rendered path. -/
theorem workDir_dirAction_iff (w : World) (tags : List Str) (dirname : Str)
    (filenames : List Str) (fileScheme dirScheme coverName last : Str)
    (hlast : ((sortStrings filenames).filter isFlac).getLast? = some last)
    (helig :
      canRenameDirectory tags (workLoop w dirname filenames fileScheme).albumMetadata dirScheme
        = (true, none)) :
    ((workDir w tags dirname filenames fileScheme dirScheme coverName).hasDirAction = true ↔
      ((w.FetchMetadata (Join dirname last)).toOption.isSome = true ∧
        dirname ≠ Join (Dir dirname) (stripUnwanted (applyMetadataToScheme dirScheme
          (singleMetadata (workLoop w dirname filenames fileScheme).albumMetadata))))) ∧
    ((workDir w tags dirname filenames fileScheme dirScheme coverName).hasDirAction = true →
      (workDir w tags dirname filenames fileScheme dirScheme coverName).DirAction
        = (dirname, Join (Dir dirname) (stripUnwanted (applyMetadataToScheme dirScheme
            (singleMetadata (workLoop w dirname filenames fileScheme).albumMetadata))))) := by
  have hmem : last ∈ (sortStrings filenames).filter isFlac := List.mem_of_getLast?_eq_some hlast
  have hmusic : ∃ f ∈ filenames, isFlac f = true :=
    ⟨last, (mem_sortStrings filenames last).mp (List.mem_filter.mp hmem).1,
      (List.mem_filter.mp hmem).2⟩
  have hmd := workLoop_fileMetadata w dirname filenames fileScheme last hlast
  have hdir := workLoop_hasDirAction w dirname filenames fileScheme
  rw [workDir_eq_workLoop, workLoop_music w dirname filenames fileScheme hmusic]
  simp only [if_true]
  obtain ⟨A, hA, -, -, htail⟩ := workDirTail_cases w tags dirname dirScheme coverName
    (workLoop w dirname filenames fileScheme)
  rw [htail, helig, hmd]
  rw [hdir] at hA
  simp only
  cases hfetch : (w.FetchMetadata (Join dirname last)).toOption with
  | none => simp [renameAction.AddError, hA]
  | some md =>
    simp only [Option.isSome_some, Bool.and_self, if_true, true_and]
    unfold renameDir
    simp only
    by_cases heq : dirname = Join (Dir dirname) (stripUnwanted (applyMetadataToScheme dirScheme
        (singleMetadata (workLoop w dirname filenames fileScheme).albumMetadata)))
    · rw [if_pos heq]
      simp [hA, heq.symm]
    · rw [if_neg heq]
      simp [renameAction.SetDirAction, heq]

theorem workDir_dirAction_iff_witness :
    ((workDir (exampleSystem.world []) defaultUniformCmdTags "/m/A".toList
        ["0.flac".toList, "1.flac".toList] "%(TRACKNUMBER)s".toList "%(ARTIST)s".toList
        "cover".toList).hasDirAction = true ↔
      (((exampleSystem.world []).FetchMetadata
          (Join "/m/A".toList "1.flac".toList)).toOption.isSome = true ∧
        "/m/A".toList ≠ Join (Dir "/m/A".toList) (stripUnwanted (applyMetadataToScheme
          "%(ARTIST)s".toList (singleMetadata (workLoop (exampleSystem.world []) "/m/A".toList
            ["0.flac".toList, "1.flac".toList] "%(TRACKNUMBER)s".toList).albumMetadata))))) ∧
    ((workDir (exampleSystem.world []) defaultUniformCmdTags "/m/A".toList
        ["0.flac".toList, "1.flac".toList] "%(TRACKNUMBER)s".toList "%(ARTIST)s".toList
        "cover".toList).hasDirAction = true →
      (workDir (exampleSystem.world []) defaultUniformCmdTags "/m/A".toList
        ["0.flac".toList, "1.flac".toList] "%(TRACKNUMBER)s".toList "%(ARTIST)s".toList
        "cover".toList).DirAction
        = ("/m/A".toList, Join (Dir "/m/A".toList) (stripUnwanted (applyMetadataToScheme
            "%(ARTIST)s".toList (singleMetadata (workLoop (exampleSystem.world [])
              "/m/A".toList ["0.flac".toList, "1.flac".toList]
              "%(TRACKNUMBER)s".toList).albumMetadata))))) :=
  workDir_dirAction_iff (exampleSystem.world []) defaultUniformCmdTags "/m/A".toList
    ["0.flac".toList, "1.flac".toList] "%(TRACKNUMBER)s".toList "%(ARTIST)s".toList
    "cover".toList "1.flac".toList (by decide) (by decide)

/-- C12 (code defect): `/m/A` holds two audio files, one whose metadata (artist Foo) is
fetched and one whose fetch fails. In both listings the tag set is the same and passes
`canRenameDirectory`, and the rendered path `/m/Foo` differs from `/m/A`. When the file
that fails is the last in sorted order (`1.flac`, `3.flac`), `workDir` sets no directory
action and records that the directory cannot be renamed; when it is the first
(`0.flac`, `1.flac`), the directory action `/m/A -> /m/Foo` is set. The guard reads the
variable `fileMetadata` of the loop, which holds the outcome of the last fetch only. -/
theorem workDir_no_dirAction_after_failed_fetch :
    isFlac "1.flac".toList = true ∧ isFlac "3.flac".toList = true ∧
    canRenameDirectory defaultUniformCmdTags
      (workLoop (exampleSystem.world []) "/m/A".toList ["1.flac".toList, "3.flac".toList]
        "%(TRACKNUMBER)s".toList).albumMetadata "%(ARTIST)s".toList = (true, none) ∧
    Join (Dir "/m/A".toList) (stripUnwanted (applyMetadataToScheme "%(ARTIST)s".toList
      (singleMetadata (workLoop (exampleSystem.world []) "/m/A".toList
        ["1.flac".toList, "3.flac".toList] "%(TRACKNUMBER)s".toList).albumMetadata)))
      = "/m/Foo".toList ∧
    (workDir (exampleSystem.world []) defaultUniformCmdTags "/m/A".toList
      ["1.flac".toList, "3.flac".toList] "%(TRACKNUMBER)s".toList "%(ARTIST)s".toList
      "cover".toList).hasDirAction = false ∧
    (workDir (exampleSystem.world []) defaultUniformCmdTags "/m/A".toList
      ["1.flac".toList, "3.flac".toList] "%(TRACKNUMBER)s".toList "%(ARTIST)s".toList
      "cover".toList).Errors
      = [PlanError.fetchFailed "3.flac".toList "no such file".toList,
          PlanError.cannotRename "/m/A".toList] ∧
    isFlac "0.flac".toList = true ∧
    (workLoop (exampleSystem.world []) "/m/A".toList ["0.flac".toList, "1.flac".toList]
        "%(TRACKNUMBER)s".toList).albumMetadata
      = (workLoop (exampleSystem.world []) "/m/A".toList ["1.flac".toList, "3.flac".toList]
        "%(TRACKNUMBER)s".toList).albumMetadata ∧
    (workDir (exampleSystem.world []) defaultUniformCmdTags "/m/A".toList
      ["0.flac".toList, "1.flac".toList] "%(TRACKNUMBER)s".toList "%(ARTIST)s".toList
      "cover".toList).hasDirAction = true ∧
    (workDir (exampleSystem.world []) defaultUniformCmdTags "/m/A".toList
      ["0.flac".toList, "1.flac".toList] "%(TRACKNUMBER)s".toList "%(ARTIST)s".toList
      "cover".toList).DirAction = ("/m/A".toList, "/m/Foo".toList) ∧
    (workDir (exampleSystem.world []) defaultUniformCmdTags "/m/A".toList
      ["0.flac".toList, "1.flac".toList] "%(TRACKNUMBER)s".toList "%(ARTIST)s".toList
      "cover".toList).Errors
      = [PlanError.fetchFailed "0.flac".toList "no such file".toList] := by
  decide
theorem splitSlash_ne_nil (s : Str) : splitSlash s ≠ [] := by
  cases s with
  | nil => simp [splitSlash]
  | cons c cs =>
    unfold splitSlash
    split
    · simp
    · split <;> simp

theorem splitSlash_append (a b : Str) :
    splitSlash (a ++ '/' :: b) = splitSlash a ++ splitSlash b := by
  induction a with
  | nil => simp [splitSlash]
  | cons c cs ih =>
    by_cases hc : c = '/'
    · simp [splitSlash, hc, ih]
    · simp only [List.cons_append, splitSlash, hc, if_false]
      rw [show cs.append ('/' :: b) = cs ++ '/' :: b from rfl, ih]
      cases h : splitSlash cs with
      | nil => exact absurd h (splitSlash_ne_nil cs)
      | cons e es => simp

theorem splitSlash_of_no_slash (e : Str) (h : '/' ∉ e) : splitSlash e = [e] := by
  induction e with
  | nil => rfl
  | cons c cs ih =>
    have hc : c ≠ '/' := fun hc => h (by simp [hc])
    have hcs : '/' ∉ cs := fun hcs => h (List.mem_cons_of_mem _ hcs)
    simp [splitSlash, hc, ih hcs]

theorem cleanScanBack_ge (dotdot : Nat) (out : Str) (w : Nat) (h : dotdot ≤ w) :
    dotdot ≤ cleanScanBack dotdot out w := by
  induction w with
  | zero => simpa [cleanScanBack] using h
  | succ n ih =>
    unfold cleanScanBack
    split
    · rename_i hc
      exact ih (by omega)
    · exact h

theorem cleanStep_rooted (st : CleanState) (elem : Str) (h : RootedState st) :
    RootedState (cleanStep true st elem) := by
  obtain ⟨hd, t, ht⟩ := h
  unfold cleanStep
  split
  · exact ⟨hd, t, ht⟩
  · split
    · exact ⟨hd, t, ht⟩
    · split
      · split
        · rename_i hlt
          refine ⟨hd, ?_⟩
          have hge := cleanScanBack_ge st.dotdot st.out (st.out.length - 1) (by omega)
          obtain ⟨n, hn⟩ : ∃ n, cleanScanBack st.dotdot st.out (st.out.length - 1) = n + 1 :=
            ⟨cleanScanBack st.dotdot st.out (st.out.length - 1) - 1, by omega⟩
          simp only
          rw [hn, ht]
          exact ⟨t.take n, rfl⟩
        · simp only [Bool.not_true, Bool.false_eq_true, if_false]
          exact ⟨hd, t, ht⟩
      · refine ⟨hd, ?_⟩
        simp only [ht]
        split <;> simp

theorem foldl_cleanStep_rooted (elems : List Str) (st : CleanState) (h : RootedState st) :
    RootedState (elems.foldl (cleanStep true) st) := by
  induction elems generalizing st with
  | nil => exact h
  | cons e es ih => exact ih _ (cleanStep_rooted st e h)

theorem cleanStep_element (rooted : Bool) (st : CleanState) (e : Str) (he : IsElement e) :
    (cleanStep rooted st e).out
      = (if (rooted && st.out.length != 1) || (!rooted && st.out.length != 0)
          then st.out ++ ['/'] else st.out) ++ e := by
  obtain ⟨h1, h2, h3, _⟩ := he
  unfold cleanStep
  simp [h1, h2, h3]

theorem Clean_append_element (path e : Str) (he : IsElement e) :
    ∃ pre, IsDirPrefix pre ∧ Clean (path ++ '/' :: e) = pre ++ e := by
  have hne : e ≠ [] := he.1
  have hsplit := splitSlash_of_no_slash e he.2.2.2
  cases path with
  | nil =>
    refine ⟨['/'], Or.inr ⟨[], rfl⟩, ?_⟩
    simp only [List.nil_append, Clean, decide_True, if_true, hsplit, List.foldl_cons,
      List.foldl_nil]
    rw [cleanStep_element true _ e he]
    simp
  | cons c cs =>
    by_cases hc : c = '/'
    · subst hc
      have hinv := foldl_cleanStep_rooted (splitSlash cs) { out := ['/'], dotdot := 1 }
        ⟨rfl, [], rfl⟩
      obtain ⟨_, t, ht⟩ := hinv
      simp only [List.cons_append, Clean, decide_True, if_true, splitSlash_append, hsplit,
        List.foldl_append, List.foldl_cons, List.foldl_nil]
      rw [cleanStep_element true _ e he, ht]
      cases t with
      | nil =>
        refine ⟨['/'], Or.inr ⟨[], rfl⟩, ?_⟩
        simp [hne]
      | cons x xs =>
        refine ⟨'/' :: x :: xs ++ ['/'], Or.inr ⟨'/' :: x :: xs, rfl⟩, ?_⟩
        simp
    · have hsplit' : splitSlash (c :: cs ++ '/' :: e) = splitSlash (c :: cs) ++ [e] := by
        rw [← hsplit]
        exact splitSlash_append (c :: cs) e
      simp only [List.cons_append, Clean, hc, decide_False, Bool.false_eq_true, if_false]
      simp only [List.cons_append] at hsplit'
      rw [hsplit', List.foldl_append, List.foldl_cons, List.foldl_nil,
        cleanStep_element false _ e he]
      cases hout : (List.foldl (cleanStep false) { out := [], dotdot := 0 }
          (splitSlash (c :: cs))).out with
      | nil =>
        refine ⟨[], Or.inl rfl, ?_⟩
        simp [hne]
      | cons x xs =>
        refine ⟨x :: xs ++ ['/'], Or.inr ⟨x :: xs, rfl⟩, ?_⟩
        simp

theorem Clean_element (e : Str) (he : IsElement e) : Clean e = e := by
  have hsplit := splitSlash_of_no_slash e he.2.2.2
  cases e with
  | nil => exact absurd rfl he.1
  | cons c cs =>
    have hc : c ≠ '/' := fun hc => he.2.2.2 (by simp [hc])
    simp only [Clean, hc, decide_False, Bool.false_eq_true, if_false, hsplit, List.foldl_cons,
      List.foldl_nil]
    rw [cleanStep_element false _ _ he]
    simp

theorem Join_element (dirname e : Str) (he : IsElement e) :
    ∃ pre, IsDirPrefix pre ∧ Join dirname e = pre ++ e := by
  unfold Join
  by_cases hd : dirname = []
  · simp only [hd, ne_eq, not_true_eq_false, if_false, he.1, not_false_eq_true, if_true]
    exact ⟨[], Or.inl rfl, by simpa using Clean_element e he⟩
  · simp only [ne_eq, hd, not_false_eq_true, if_true]
    exact Clean_append_element dirname e he

theorem Base_append_element (pre e : Str) (hpre : IsDirPrefix pre) (he : IsElement e) :
    Base (pre ++ e) = e := by
  obtain ⟨hne, _, _, hslash⟩ := he
  have hrev : ∀ c ∈ e.reverse, c ≠ '/' := fun c hc hcs =>
    hslash (hcs ▸ List.mem_reverse.mp hc)
  have hdrop : ∀ rest : Str, (e.reverse ++ rest).dropWhile (fun c => c = '/') = e.reverse ++ rest := by
    intro rest
    cases her : e.reverse with
    | nil => exact absurd (List.reverse_eq_nil_iff.mp her) hne
    | cons x xs =>
      have hx : x ≠ '/' := hrev x (by rw [her]; exact List.mem_cons_self _ _)
      simp [List.dropWhile, hx]
  have htake : ∀ rest : Str, (rest = [] ∨ ∃ r, rest = '/' :: r) →
      (e.reverse ++ rest).takeWhile (fun c => c != '/') = e.reverse := by
    intro rest hrest
    have hall : ∀ l : Str, (∀ c ∈ l, c ≠ '/') →
        (l ++ rest).takeWhile (fun c => c != '/') = l := by
      intro l
      induction l with
      | nil =>
        intro _
        rcases hrest with h | ⟨r, h⟩ <;> simp [h, List.takeWhile]
      | cons x xs ih =>
        intro hl
        have hx : x ≠ '/' := hl x (List.mem_cons_self _ _)
        simp only [List.cons_append, List.takeWhile_cons, bne_iff_ne, ne_eq, hx,
          not_false_eq_true, decide_True, if_true]
        rw [ih (fun c hc => hl c (List.mem_cons_of_mem _ hc))]
    exact hall e.reverse hrev
  have hrest : pre.reverse = [] ∨ ∃ r, pre.reverse = '/' :: r := by
    rcases hpre with h | ⟨p, h⟩
    · exact Or.inl (by simp [h])
    · exact Or.inr ⟨p.reverse, by simp [h]⟩
  unfold Base
  have hne' : pre ++ e ≠ [] := by simp [hne]
  simp only [hne', if_false, List.reverse_append, hdrop, htake pre.reverse hrest,
    List.reverse_reverse, hne]

theorem Base_Join_element (dirname e : Str) (he : IsElement e) : Base (Join dirname e) = e := by
  obtain ⟨pre, hpre, hj⟩ := Join_element dirname e he
  rw [hj]
  exact Base_append_element pre e hpre he
theorem stripUnwanted_append_flac (s : Str) :
    stripUnwanted (s ++ ".flac".toList) = stripUnwanted s ++ ".flac".toList := by
  unfold stripUnwanted
  rw [List.filter_append]
  congr 1

theorem stripUnwanted_eq_filter (s : Str) :
    stripUnwanted s = s.filter fun c => decide (c ∉ ['/', Char.ofNat 92, '!', '?', '%', '$', '*',
      '|', Char.ofNat 34, Char.ofNat 39, '<', '>']) := by
  unfold stripUnwanted unwantedChars
  apply List.filter_congr
  intro c _
  simp

theorem no_slash_stripUnwanted (s : Str) : '/' ∉ stripUnwanted s := by
  intro h
  have := (List.mem_filter.mp h).2
  revert this
  decide

theorem isElement_flac_name (s : Str) : IsElement (stripUnwanted s ++ ".flac".toList) := by
  have hlen : (stripUnwanted s ++ ".flac".toList).length = (stripUnwanted s).length + 5 := by
    rw [List.length_append]
    rfl
  refine ⟨?_, ?_, ?_, ?_⟩
  · intro h
    rw [h] at hlen
    simp at hlen
  · intro h
    rw [h] at hlen
    simp at hlen
  · intro h
    rw [h] at hlen
    simp at hlen
  · intro h
    rcases List.mem_append.mp h with h | h
    · exact no_slash_stripUnwanted s h
    · revert h
      decide

theorem renameFile_snd (scheme dirname filename : Str) (md : Metadata) (old T : Str)
    (h : renameFile scheme dirname filename md = some (old, T)) :
    T = Join dirname (stripUnwanted (applyMetadataToScheme scheme md) ++ ".flac".toList) := by
  unfold renameFile at h
  simp only at h
  split at h
  · simp at h
  · simp only [Option.some.injEq, Prod.mk.injEq] at h
    rw [← h.2, stripUnwanted_append_flac]

/-- C14: when `renameFile` proposes the target path `T` for a file, it proposes no
rename for the file named `Base T` in the same directory, with the same scheme and
metadata; and it proposes none for a file that already bears the sanitized rendering
of the scheme followed by `.flac`. -/
theorem renameFile_idempotent (scheme dirname filename : Str) (md : Metadata) (old T : Str)
    (h : renameFile scheme dirname filename md = some (old, T)) :
    renameFile scheme dirname (Base T) md = none ∧
    renameFile scheme dirname
      (stripUnwanted (applyMetadataToScheme scheme md) ++ ".flac".toList) md = none := by
  have hT := renameFile_snd scheme dirname filename md old T h
  have hbase : Base T = stripUnwanted (applyMetadataToScheme scheme md) ++ ".flac".toList := by
    rw [hT]
    exact Base_Join_element dirname _ (isElement_flac_name _)
  have hnone : renameFile scheme dirname
      (stripUnwanted (applyMetadataToScheme scheme md) ++ ".flac".toList) md = none := by
    unfold renameFile
    simp only []
    rw [stripUnwanted_append_flac]
    simp
  rw [hbase]
  exact ⟨hnone, hnone⟩

theorem renameFile_idempotent_witness :
    renameFile "%(TRACKNUMBER)s - %(TITLE)s".toList "/m/X".toList
      (Base "/m/X/01 - Song A.flac".toList)
      [("TITLE".toList, "Song A".toList), ("TRACKNUMBER".toList, "01".toList)] = none ∧
    renameFile "%(TRACKNUMBER)s - %(TITLE)s".toList "/m/X".toList
      (stripUnwanted (applyMetadataToScheme "%(TRACKNUMBER)s - %(TITLE)s".toList
        [("TITLE".toList, "Song A".toList), ("TRACKNUMBER".toList, "01".toList)])
          ++ ".flac".toList)
      [("TITLE".toList, "Song A".toList), ("TRACKNUMBER".toList, "01".toList)] = none :=
  renameFile_idempotent "%(TRACKNUMBER)s - %(TITLE)s".toList "/m/X".toList "a.flac".toList
    [("TITLE".toList, "Song A".toList), ("TRACKNUMBER".toList, "01".toList)]
    "/m/X/a.flac".toList "/m/X/01 - Song A.flac".toList (by decide)

/-- C15: the target `renameFile` proposes is the directory joined with a base name that
is the rendering of the scheme with the characters `/ \ ! ? % $ * | " ' < >` (codes 92,
34 and 39 for the backslash and the two quotes) filtered out, all other characters
kept in their order, followed by `.flac`; this is also the base name of the target,
and stripping after appending the extension, as the code does, gives the same name as
stripping before. -/
theorem renameFile_target_name (scheme dirname filename : Str) (md : Metadata) (old T : Str)
    (h : renameFile scheme dirname filename md = some (old, T)) :
    T = Join dirname (((applyMetadataToScheme scheme md).filter fun c =>
        decide (c ∉ ['/', Char.ofNat 92, '!', '?', '%', '$', '*', '|', Char.ofNat 34,
          Char.ofNat 39, '<', '>'])) ++ ".flac".toList) ∧
    Base T = ((applyMetadataToScheme scheme md).filter fun c =>
        decide (c ∉ ['/', Char.ofNat 92, '!', '?', '%', '$', '*', '|', Char.ofNat 34,
          Char.ofNat 39, '<', '>'])) ++ ".flac".toList ∧
    stripUnwanted (applyMetadataToScheme scheme md ++ ".flac".toList)
      = stripUnwanted (applyMetadataToScheme scheme md) ++ ".flac".toList := by
  have hT := renameFile_snd scheme dirname filename md old T h
  rw [← stripUnwanted_eq_filter]
  refine ⟨hT, ?_, stripUnwanted_append_flac _⟩
  rw [hT]
  exact Base_Join_element dirname _ (isElement_flac_name _)

theorem renameFile_target_name_witness :
    "/m/X/A  B.flac".toList = Join "/m/X".toList (((applyMetadataToScheme "%(TITLE)s".toList
        [("TITLE".toList, "A / B?".toList)]).filter fun c =>
        decide (c ∉ ['/', Char.ofNat 92, '!', '?', '%', '$', '*', '|', Char.ofNat 34,
          Char.ofNat 39, '<', '>'])) ++ ".flac".toList) ∧
    Base "/m/X/A  B.flac".toList = ((applyMetadataToScheme "%(TITLE)s".toList
        [("TITLE".toList, "A / B?".toList)]).filter fun c =>
        decide (c ∉ ['/', Char.ofNat 92, '!', '?', '%', '$', '*', '|', Char.ofNat 34,
          Char.ofNat 39, '<', '>'])) ++ ".flac".toList ∧
    stripUnwanted (applyMetadataToScheme "%(TITLE)s".toList
        [("TITLE".toList, "A / B?".toList)] ++ ".flac".toList)
      = stripUnwanted (applyMetadataToScheme "%(TITLE)s".toList
        [("TITLE".toList, "A / B?".toList)]) ++ ".flac".toList :=
  renameFile_target_name "%(TITLE)s".toList "/m/X".toList "a.flac".toList
    [("TITLE".toList, "A / B?".toList)] "/m/X/a.flac".toList "/m/X/A  B.flac".toList
    (by decide)
set_option maxRecDepth 100000 in
theorem unwrapKey_fileStage :
    ∀ e ∈ MAPPINGS, ∀ n a t : Bool,
      unwrapKey (fileStage n a t) e
        = fileStage (n || e.1 == "n".toList) (a || e.1 == "a".toList) (t || e.1 == "t".toList) := by
  decide

set_option maxRecDepth 100000 in
theorem unwrapKey_dirStage :
    ∀ e ∈ MAPPINGS, ∀ a b : Bool,
      unwrapKey (dirStage a b) e
        = dirStage (a || e.1 == "a".toList) (b || e.1 == "b".toList) := by
  decide

theorem foldl_unwrapKey_fileStage (order : List (Str × Str)) (h : ∀ e ∈ order, e ∈ MAPPINGS)
    (n a t : Bool) :
    order.foldl unwrapKey (fileStage n a t)
      = fileStage (n || order.any fun e => e.1 == "n".toList)
          (a || order.any fun e => e.1 == "a".toList)
          (t || order.any fun e => e.1 == "t".toList) := by
  induction order generalizing n a t with
  | nil => simp
  | cons e es ih =>
    simp only [List.foldl_cons, List.any_cons]
    rw [unwrapKey_fileStage e (h e (List.mem_cons_self _ _)),
      ih (fun x hx => h x (List.mem_cons_of_mem _ hx))]
    simp only [Bool.or_assoc]

theorem foldl_unwrapKey_dirStage (order : List (Str × Str)) (h : ∀ e ∈ order, e ∈ MAPPINGS)
    (a b : Bool) :
    order.foldl unwrapKey (dirStage a b)
      = dirStage (a || order.any fun e => e.1 == "a".toList)
          (b || order.any fun e => e.1 == "b".toList) := by
  induction order generalizing a b with
  | nil => simp
  | cons e es ih =>
    simp only [List.foldl_cons, List.any_cons]
    rw [unwrapKey_dirStage e (h e (List.mem_cons_self _ _)),
      ih (fun x hx => h x (List.mem_cons_of_mem _ hx))]
    simp only [Bool.or_assoc]

theorem any_code_of_perm (order : List (Str × Str)) (h : order.Perm MAPPINGS)
    (code long : Str) (hmem : (code, long) ∈ MAPPINGS) :
    (order.any fun e => e.1 == code) = true := by
  rw [List.any_eq_true]
  exact ⟨(code, long), h.mem_iff.mpr hmem, by simp⟩

theorem unwrapKeys_scenario_file (order : List (Str × Str)) (h : order.Perm MAPPINGS) :
    unwrapKeys order "%n - %a - %t".toList false
      = .ok "%(TRACKNUMBER)s - %(ARTIST)s - %(TITLE)s".toList := by
  have hfold := foldl_unwrapKey_fileStage order (fun e he => h.mem_iff.mp he) false false false
  rw [any_code_of_perm order h "n".toList TagTrackNumber (by decide),
    any_code_of_perm order h "a".toList TagArtist (by decide),
    any_code_of_perm order h "t".toList TagTitle (by decide)] at hfold
  have hstart : fileStage false false false = "%n - %a - %t".toList := by decide
  have hend : fileStage true true true = "%(TRACKNUMBER)s - %(ARTIST)s - %(TITLE)s".toList := by
    decide
  have hguard : (!false && (!Contains "%n - %a - %t".toList "%t".toList &&
      !Contains "%n - %a - %t".toList "%n".toList)) = false := by decide
  unfold unwrapKeys
  rw [hguard, ← hstart, hfold]
  simp [hend]

theorem unwrapKeys_scenario_dir (order : List (Str × Str)) (h : order.Perm MAPPINGS) :
    unwrapKeys order "%a - %b".toList true = .ok "%(ARTIST)s - %(ALBUM)s".toList := by
  have hfold := foldl_unwrapKey_dirStage order (fun e he => h.mem_iff.mp he) false false
  rw [any_code_of_perm order h "a".toList TagArtist (by decide),
    any_code_of_perm order h "b".toList TagAlbum (by decide)] at hfold
  have hstart : dirStage false false = "%a - %b".toList := by decide
  have hend : dirStage true true = "%(ARTIST)s - %(ALBUM)s".toList := by decide
  unfold unwrapKeys
  simp only [Bool.not_true, Bool.false_and, Bool.false_eq_true, if_false]
  rw [← hstart, hfold]
  simp [hend]
theorem workFile_audio_ok (w : World) (dirname fileScheme : Str) (st : WorkState)
    (filename : Str) (md : Metadata) (hflac : isFlac filename = true)
    (hfetch : w.FetchMetadata (Join dirname filename) = .ok md)
    (hsuff : hasSufficientMetadata md fileScheme = true) :
    workFile w dirname fileScheme st filename
      = { albumMetadata := appendMetadata st.albumMetadata md
          collectedImages := st.collectedImages
          fileMetadata := some md
          dirContainsMusic := true
          action :=
            match renameFile fileScheme dirname filename md with
            | some (oldPath, newPath) => st.action.AddFileAction oldPath newPath
            | none => st.action } := by
  unfold workFile
  simp only [hflac, if_true, hfetch, hsuff, Bool.not_true, Bool.false_eq_true, if_false]

theorem workFile_sameButImages (w : World) (dirname fileScheme : Str) (st₁ st₂ : WorkState)
    (filename : Str) (h : SameButImages st₁ st₂) :
    SameButImages (workFile w dirname fileScheme st₁ filename)
      (workFile w dirname fileScheme st₂ filename) := by
  obtain ⟨h1, h2, h3, h4⟩ := h
  unfold workFile
  split
  · split
    · exact ⟨by simp [h1], h2, rfl, rfl⟩
    · split
      · exact ⟨by simp [h1], h2, rfl, rfl⟩
      · exact ⟨by simp [h1], by simp [h2], rfl, rfl⟩
  · split <;> exact ⟨h1, h2, h3, h4⟩

theorem foldl_workFile_filter (w : World) (dirname fileScheme : Str) (l : List Str)
    (st₁ st₂ : WorkState) (h : SameButImages st₁ st₂) :
    SameButImages (l.foldl (workFile w dirname fileScheme) st₁)
      ((l.filter isFlac).foldl (workFile w dirname fileScheme) st₂) := by
  induction l generalizing st₁ st₂ with
  | nil => exact h
  | cons f fs ih =>
    by_cases hf : isFlac f = true
    · simp only [List.foldl_cons, List.filter_cons, hf, if_true]
      exact ih _ _ (workFile_sameButImages w dirname fileScheme st₁ st₂ f h)
    · have hf' : isFlac f = false := by simpa using hf
      simp only [List.foldl_cons, List.filter_cons, hf', Bool.false_eq_true, if_false]
      refine ih _ _ ?_
      obtain ⟨h1, h2, h3, h4⟩ := h
      obtain ⟨g1, g2, g3, g4⟩ := workFile_not_audio w dirname fileScheme st₁ f hf'
      exact ⟨g1.trans h1, g2.trans h2, g3.trans h3, g4.trans h4⟩

theorem perm_pair {α : Type} (l : List α) (a b : α) (h : l.Perm [a, b]) :
    l = [a, b] ∨ l = [b, a] := by
  have hlen := h.length_eq
  match l, hlen with
  | [x, y], _ =>
    have hx : x ∈ [a, b] := h.mem_iff.mp (List.mem_cons_self _ _)
    have hy : y ∈ [a, b] := h.mem_iff.mp (List.mem_cons_of_mem _ (List.mem_cons_self _ _))
    have ha : a ∈ [x, y] := h.mem_iff.mpr (List.mem_cons_self _ _)
    have hb : b ∈ [x, y] := h.mem_iff.mpr (List.mem_cons_of_mem _ (List.mem_cons_self _ _))
    simp only [List.mem_cons, List.mem_singleton, List.not_mem_nil, or_false] at hx hy ha hb
    by_cases hab : a = b
    · subst hab
      rcases hx with hx | hx <;> rcases hy with hy | hy <;> simp [hx, hy]
    · rcases hx with hx | hx <;> rcases hy with hy | hy
      · subst hx; subst hy
        rcases hb with hb | hb <;> exact absurd hb.symm hab
      · subst hx; subst hy
        exact Or.inl rfl
      · subst hx; subst hy
        exact Or.inr rfl
      · subst hx; subst hy
        rcases ha with ha | ha <;> exact absurd ha hab

theorem scenario_loop (w : World) (dirname : Str) (f₁ f₂ : Str) (md₁ md₂ : Metadata)
    (fileScheme name₁ name₂ : Str) (st : WorkState)
    (hflac₁ : isFlac f₁ = true) (hflac₂ : isFlac f₂ = true)
    (hfetch₁ : w.FetchMetadata (Join dirname f₁) = .ok md₁)
    (hfetch₂ : w.FetchMetadata (Join dirname f₂) = .ok md₂)
    (hsuff₁ : hasSufficientMetadata md₁ fileScheme = true)
    (hsuff₂ : hasSufficientMetadata md₂ fileScheme = true)
    (hname₁ : stripUnwanted (applyMetadataToScheme fileScheme md₁ ++ ".flac".toList) = name₁)
    (hname₂ : stripUnwanted (applyMetadataToScheme fileScheme md₂ ++ ".flac".toList) = name₂)
    (hnew₁ : Join dirname f₁ ≠ Join dirname name₁)
    (hnew₂ : Join dirname f₂ ≠ Join dirname name₂)
    (hne : Join dirname f₁ ≠ Join dirname f₂)
    (hstart : st.action.FileActions = []) :
    ([f₁, f₂].foldl (workFile w dirname fileScheme) st).action.FileActions
      = [(Join dirname f₁, Join dirname name₁), (Join dirname f₂, Join dirname name₂)] ∧
    ([f₁, f₂].foldl (workFile w dirname fileScheme) st).action.Errors = st.action.Errors ∧
    ([f₁, f₂].foldl (workFile w dirname fileScheme) st).albumMetadata
      = appendMetadata (appendMetadata st.albumMetadata md₁) md₂ ∧
    ([f₁, f₂].foldl (workFile w dirname fileScheme) st).fileMetadata = some md₂ ∧
    ([f₁, f₂].foldl (workFile w dirname fileScheme) st).dirContainsMusic = true := by
  have hr₁ : renameFile fileScheme dirname f₁ md₁
      = some (Join dirname f₁, Join dirname name₁) := by
    unfold renameFile
    simp only [hname₁, hnew₁, if_false]
  have hr₂ : renameFile fileScheme dirname f₂ md₂
      = some (Join dirname f₂, Join dirname name₂) := by
    unfold renameFile
    simp only [hname₂, hnew₂, if_false]
  simp only [List.foldl_cons, List.foldl_nil]
  rw [workFile_audio_ok w dirname fileScheme st f₁ md₁ hflac₁ hfetch₁ hsuff₁,
    workFile_audio_ok w dirname fileScheme _ f₂ md₂ hflac₂ hfetch₂ hsuff₂]
  simp [hr₁, hr₂, renameAction.AddFileAction, hstart, mapSet, hne]
theorem scenario_tail (w : World) (tags : List Str) (dirname dirScheme coverName name : Str)
    (st : WorkState)
    (helig : canRenameDirectory tags st.albumMetadata dirScheme = (true, none))
    (hname : stripUnwanted (applyMetadataToScheme dirScheme (singleMetadata st.albumMetadata))
      = name)
    (hmd : st.fileMetadata.isSome = true)
    (hnd : dirname ≠ Join (Dir dirname) name) :
    (workDirTail w tags dirname dirScheme coverName st).FileActions = st.action.FileActions ∧
    (workDirTail w tags dirname dirScheme coverName st).hasDirAction = true ∧
    (workDirTail w tags dirname dirScheme coverName st).DirAction
      = (dirname, Join (Dir dirname) name) ∧
    (workDirTail w tags dirname dirScheme coverName st).Errors = st.action.Errors := by
  obtain ⟨A, _, hA2, hA3, htail⟩ := workDirTail_cases w tags dirname dirScheme coverName st
  have hr : renameDir dirScheme dirname (singleMetadata st.albumMetadata)
      = some (dirname, Join (Dir dirname) name) := by
    unfold renameDir
    simp only [hname, hnd, if_false]
  rw [htail, helig]
  simp only [hmd, Bool.and_self, if_true, hr]
  exact ⟨hA2, rfl, rfl, hA3⟩

/-- The plan of `workDir` for the scenario of two tracks, with the directory action
stated over `filepath.Dir` of the directory path. -/
theorem two_tracks_plan (w : World) (order₁ order₂ : List (Str × Str)) (dirname : Str)
    (filenames : List Str) (f₁ f₂ fileScheme dirScheme coverName : Str)
    (ho₁ : order₁.Perm MAPPINGS) (ho₂ : order₂.Perm MAPPINGS)
    (hfs : unwrapKeys order₁ "%n - %a - %t".toList false = .ok fileScheme)
    (hds : unwrapKeys order₂ "%a - %b".toList true = .ok dirScheme)
    (haudio : (filenames.filter isFlac).Perm [f₁, f₂])
    (hfetch₁ : w.FetchMetadata (Join dirname f₁) = .ok trackA)
    (hfetch₂ : w.FetchMetadata (Join dirname f₂) = .ok trackB)
    (hnew₁ : Join dirname f₁ ≠ Join dirname "01 - Foo - Song A.flac".toList)
    (hnew₂ : Join dirname f₂ ≠ Join dirname "02 - Foo - Song B.flac".toList)
    (hnd : dirname ≠ Join (Dir dirname) "Foo - Bar".toList) :
    (workDir w defaultUniformCmdTags dirname filenames fileScheme dirScheme
        coverName).FileActions.Perm
      [(Join dirname f₁, Join dirname "01 - Foo - Song A.flac".toList),
        (Join dirname f₂, Join dirname "02 - Foo - Song B.flac".toList)] ∧
    (workDir w defaultUniformCmdTags dirname filenames fileScheme dirScheme
        coverName).hasDirAction = true ∧
    (workDir w defaultUniformCmdTags dirname filenames fileScheme dirScheme
        coverName).DirAction = (dirname, Join (Dir dirname) "Foo - Bar".toList) ∧
    (workDir w defaultUniformCmdTags dirname filenames fileScheme dirScheme
        coverName).Errors = [] := by
  rw [unwrapKeys_scenario_file order₁ ho₁] at hfs
  rw [unwrapKeys_scenario_dir order₂ ho₂] at hds
  simp only [Except.ok.injEq] at hfs hds
  subst hfs hds
  have hin₁ : f₁ ∈ filenames.filter isFlac := haudio.mem_iff.mpr (List.mem_cons_self _ _)
  have hin₂ : f₂ ∈ filenames.filter isFlac :=
    haudio.mem_iff.mpr (List.mem_cons_of_mem _ (List.mem_cons_self _ _))
  have hflac₁ : isFlac f₁ = true := (List.mem_filter.mp hin₁).2
  have hflac₂ : isFlac f₂ = true := (List.mem_filter.mp hin₂).2
  have hne : Join dirname f₁ ≠ Join dirname f₂ := by
    intro h
    rw [h, hfetch₂] at hfetch₁
    revert hfetch₁
    decide
  have hsorted : ((sortStrings filenames).filter isFlac).Perm [f₁, f₂] :=
    ((List.perm_insertionSort _ filenames).filter isFlac).trans haudio
  have hsame := foldl_workFile_filter w dirname
    "%(TRACKNUMBER)s - %(ARTIST)s - %(TITLE)s".toList (sortStrings filenames)
    { albumMetadata := [], collectedImages := [], fileMetadata := none,
      dirContainsMusic := false, action := NewAction dirname }
    { albumMetadata := [], collectedImages := [], fileMetadata := none,
      dirContainsMusic := false, action := NewAction dirname } ⟨rfl, rfl, rfl, rfl⟩
  obtain ⟨s1, s2, s3, s4⟩ := hsame
  rw [workDir_eq_workLoop]
  unfold workLoop
  rcases perm_pair _ f₁ f₂ hsorted with hcase | hcase
  · rw [hcase] at s1 s2 s3 s4
    obtain ⟨l1, l2, l3, l4, l5⟩ := scenario_loop w dirname f₁ f₂ trackA trackB
      "%(TRACKNUMBER)s - %(ARTIST)s - %(TITLE)s".toList
      "01 - Foo - Song A.flac".toList "02 - Foo - Song B.flac".toList
      { albumMetadata := [], collectedImages := [], fileMetadata := none,
        dirContainsMusic := false, action := NewAction dirname }
      hflac₁ hflac₂ hfetch₁ hfetch₂ (by decide) (by decide) (by decide) (by decide)
      hnew₁ hnew₂ hne rfl
    rw [s4, l5]
    simp only [if_true]
    obtain ⟨t1, t2, t3, t4⟩ := scenario_tail w defaultUniformCmdTags dirname
      "%(ARTIST)s - %(ALBUM)s".toList coverName "Foo - Bar".toList _
      (by rw [s2, l3]; dsimp only; decide) (by rw [s2, l3]; dsimp only; decide) (by rw [s3, l4]; rfl) hnd
    rw [t1, t2, t3, t4, s1, l1, l2]
    exact ⟨List.Perm.refl _, rfl, rfl, rfl⟩
  · rw [hcase] at s1 s2 s3 s4
    obtain ⟨l1, l2, l3, l4, l5⟩ := scenario_loop w dirname f₂ f₁ trackB trackA
      "%(TRACKNUMBER)s - %(ARTIST)s - %(TITLE)s".toList
      "02 - Foo - Song B.flac".toList "01 - Foo - Song A.flac".toList
      { albumMetadata := [], collectedImages := [], fileMetadata := none,
        dirContainsMusic := false, action := NewAction dirname }
      hflac₂ hflac₁ hfetch₂ hfetch₁ (by decide) (by decide) (by decide) (by decide)
      hnew₂ hnew₁ (fun h => hne h.symm) rfl
    rw [s4, l5]
    simp only [if_true]
    obtain ⟨t1, t2, t3, t4⟩ := scenario_tail w defaultUniformCmdTags dirname
      "%(ARTIST)s - %(ALBUM)s".toList coverName "Foo - Bar".toList _
      (by rw [s2, l3]; dsimp only; decide) (by rw [s2, l3]; dsimp only; decide) (by rw [s3, l4]; rfl) hnd
    rw [t1, t2, t3, t4, s1, l1, l2]
    exact ⟨List.Perm.swap _ _ _, rfl, rfl, rfl⟩

/-- C16 (as stated, refuted): the directory `/m/Foo - Bar` holds exactly the two audio
files of the scenario, `a.flac` and `b.flac`, not yet named per the scheme; the plan of
`workDir` maps them as the scenario says and records no error, but it has no directory
action: the rendered path is the path the directory already has. -/
theorem two_tracks_directory_already_named :
    (scenarioWorld.FetchMetadata (Join "/m/Foo - Bar".toList "a.flac".toList) = .ok trackA) ∧
    (scenarioWorld.FetchMetadata (Join "/m/Foo - Bar".toList "b.flac".toList) = .ok trackB) ∧
    unwrapKeys MAPPINGS "%n - %a - %t".toList false
      = .ok "%(TRACKNUMBER)s - %(ARTIST)s - %(TITLE)s".toList ∧
    unwrapKeys MAPPINGS "%a - %b".toList true = .ok "%(ARTIST)s - %(ALBUM)s".toList ∧
    (workDir scenarioWorld defaultUniformCmdTags "/m/Foo - Bar".toList
        ["a.flac".toList, "b.flac".toList]
        "%(TRACKNUMBER)s - %(ARTIST)s - %(TITLE)s".toList "%(ARTIST)s - %(ALBUM)s".toList
        "cover".toList).FileActions
      = [("/m/Foo - Bar/a.flac".toList, "/m/Foo - Bar/01 - Foo - Song A.flac".toList),
          ("/m/Foo - Bar/b.flac".toList, "/m/Foo - Bar/02 - Foo - Song B.flac".toList)] ∧
    (workDir scenarioWorld defaultUniformCmdTags "/m/Foo - Bar".toList
        ["a.flac".toList, "b.flac".toList]
        "%(TRACKNUMBER)s - %(ARTIST)s - %(TITLE)s".toList "%(ARTIST)s - %(ALBUM)s".toList
        "cover".toList).Errors = [] ∧
    (workDir scenarioWorld defaultUniformCmdTags "/m/Foo - Bar".toList
        ["a.flac".toList, "b.flac".toList]
        "%(TRACKNUMBER)s - %(ARTIST)s - %(TITLE)s".toList "%(ARTIST)s - %(ALBUM)s".toList
        "cover".toList).hasDirAction = false := by
  decide
/-- C23 (code defect): for every alias `s -> T` of `MAPPINGS`, `ExpandTags(["%" + s])`
returns no tag and the error "short notation %s not found": `ExpandTag` looks the tag
up with its `%` prefix, and no key of the table starts with `%`. Tags without the
prefix pass unchanged and the empty input gives the empty result without error. -/
theorem expandTags_percent_alias_not_found :
    (∀ e ∈ MAPPINGS, ExpandTags ['%' :: e.1] = ([], [TagError.notFound ('%' :: e.1)])) ∧
    ExpandTags ["%a".toList] = ([], [TagError.notFound "%a".toList]) ∧
    ExpandTag "a".toList = .ok TagArtist ∧
    ExpandTags ["ARTIST".toList, "x".toList] = (["ARTIST".toList, "x".toList], []) ∧
    ExpandTags [] = ([], []) := by
  decide

mutual
theorem walkDirs_reverse (path : Str) :
    (t : FsTree) → (walkDirs path t).reverse = postOrderMirrored path t
  | .file _ => rfl
  | .dir _ entries => by
    simp [walkDirs, postOrderMirrored, walkEntries_reverse path entries]
theorem walkEntries_reverse (path : Str) :
    (es : List FsTree) → (walkEntries path es).reverse = postOrderMirroredEntries path es
  | [] => rfl
  | e :: es => by
    simp [walkEntries, postOrderMirroredEntries, walkDirs_reverse (Join path e.name) e,
      walkEntries_reverse path es]
end

mutual
theorem walkDirs_perm_postOrder (path : Str) :
    (t : FsTree) → (walkDirs path t).Perm (postOrder path t)
  | .file _ => List.Perm.refl _
  | .dir _ entries => by
    simp only [walkDirs, postOrder]
    exact (List.Perm.cons path (walkEntries_perm_postOrder path entries)).trans
      (List.perm_append_singleton path _).symm
theorem walkEntries_perm_postOrder (path : Str) :
    (es : List FsTree) → (walkEntries path es).Perm (postOrderEntries path es)
  | [] => List.Perm.refl _
  | e :: es => by
    simp only [walkEntries, postOrderEntries]
    exact List.Perm.append (walkDirs_perm_postOrder (Join path e.name) e)
      (walkEntries_perm_postOrder path es)
end

/-- C24 (as amended): for every directory tree, the reverse of the listing that the
walk of `runRenamer` collects is the post-order traversal that visits the entries of
every directory in reverse lexical order; it lists the same directories as the
post-order traversal in lexical order, as often, but not in the same sequence. -/
theorem reversed_walk_is_mirrored_postOrder (path : Str) (t : FsTree) :
    (walkDirs path t).reverse = postOrderMirrored path t ∧
    (walkDirs path t).reverse.Perm (postOrder path t) :=
  ⟨walkDirs_reverse path t,
    (List.reverse_perm _).trans (walkDirs_perm_postOrder path t)⟩

/-- C24 (as stated, refuted): for the tree of a directory `m` with the subdirectories
`A` and `B`, the reversed walk is `/m/B`, `/m/A`, `/m`, while the post-order traversal
in the order of the walk is `/m/A`, `/m/B`, `/m`. -/
theorem reversed_walk_is_not_postOrder :
    (walkDirs "/m".toList (.dir "m".toList [.dir "A".toList [], .dir "B".toList []])).reverse
      = ["/m/B".toList, "/m/A".toList, "/m".toList] ∧
    postOrder "/m".toList (.dir "m".toList [.dir "A".toList [], .dir "B".toList []])
      = ["/m/A".toList, "/m/B".toList, "/m".toList] ∧
    (walkDirs "/m".toList (.dir "m".toList [.dir "A".toList [], .dir "B".toList []])).reverse
      ≠ postOrder "/m".toList (.dir "m".toList [.dir "A".toList [], .dir "B".toList []]) := by
  decide

/-- C25 (code defect): the directory `/m/X` holds the track `a.flac` and the entry
`front.jpg`, whose extension is in the whitelist and whose file `/m/X/front.jpg` is a
valid image; `workDir` does not collect it, so no cover action is set: `isImage` hands
the bare name `front.jpg` to the validity check, not the path of the entry in `/m/X`. -/
theorem workDir_image_checked_by_bare_name :
    isFlac "front.jpg".toList = false ∧
    ToLower (Ext "front.jpg".toList) ∈ imageExtensions ∧
    imageWorld.IsValidImage (Join "/m/X".toList "front.jpg".toList) = true ∧
    isImage imageWorld "front.jpg".toList = false ∧
    (workLoop imageWorld "/m/X".toList ["a.flac".toList, "front.jpg".toList]
      "%(TITLE)s".toList).collectedImages = [] ∧
    (workDir imageWorld defaultUniformCmdTags "/m/X".toList
      ["a.flac".toList, "front.jpg".toList] "%(TITLE)s".toList "%(ARTIST)s".toList
      "cover".toList).hasImageAction = false := by
  decide

/-- C29 (as stated, refuted): the directory `/m/X` lists `Front.jpg`, `a.flac` and
`cover.jpg`, both images valid; with the cover name `cover`, `workDir` selects
`Front.jpg` (the first candidate in sorted order with a cover-indicating name) and sets
the cover action to `/m/X/cover.jpg`, the path of another entry of the listing. -/
theorem workDir_cover_target_is_other_entry :
    (workDir scenarioWorld defaultUniformCmdTags "/m/X".toList
      ["a.flac".toList, "cover.jpg".toList, "Front.jpg".toList]
      "%(TITLE)s".toList "%(ARTIST)s".toList "cover".toList).hasImageAction = true ∧
    (workDir scenarioWorld defaultUniformCmdTags "/m/X".toList
      ["a.flac".toList, "cover.jpg".toList, "Front.jpg".toList]
      "%(TITLE)s".toList "%(ARTIST)s".toList "cover".toList).ImageAction
      = ("/m/X/Front.jpg".toList, "/m/X/cover.jpg".toList) ∧
    "cover.jpg".toList ∈ ["a.flac".toList, "cover.jpg".toList, "Front.jpg".toList] ∧
    "cover.jpg".toList ≠ "Front.jpg".toList ∧
    Join "/m/X".toList "cover.jpg".toList = "/m/X/cover.jpg".toList := by
  decide
theorem workFile_hasImageAction (w : World) (dirname fileScheme : Str) (st : WorkState)
    (filename : Str) :
    (workFile w dirname fileScheme st filename).action.hasImageAction
      = st.action.hasImageAction := by
  unfold workFile
  split
  · split
    · rfl
    · split
      · rfl
      · split <;> rfl
  · split <;> rfl

theorem workLoop_hasImageAction (w : World) (dirname : Str) (filenames : List Str)
    (fileScheme : Str) :
    (workLoop w dirname filenames fileScheme).action.hasImageAction = false := by
  have h : ∀ (l : List Str) (st : WorkState),
      (l.foldl (workFile w dirname fileScheme) st).action.hasImageAction
        = st.action.hasImageAction := by
    intro l
    induction l with
    | nil => exact fun _ => rfl
    | cons f fs ih => exact fun st => (ih _).trans (workFile_hasImageAction w dirname fileScheme st f)
  unfold workLoop
  rw [h]
  rfl

theorem workFile_collectedImages (w : World) (dirname fileScheme : Str) (st : WorkState)
    (filename image : Str)
    (h : image ∈ (workFile w dirname fileScheme st filename).collectedImages) :
    image ∈ st.collectedImages ∨
      (image = filename ∧ isFlac filename = false ∧ isImage w filename = true) := by
  unfold workFile at h
  split at h
  · split at h
    · exact Or.inl h
    · split at h <;> exact Or.inl h
  · rename_i hflac
    split at h
    · rename_i himg
      rcases List.mem_append.mp h with h1 | h1
      · exact Or.inl h1
      · simp only [List.mem_singleton] at h1
        exact Or.inr ⟨h1, by simpa using hflac, himg⟩
    · exact Or.inl h

theorem workLoop_collectedImages (w : World) (dirname : Str) (filenames : List Str)
    (fileScheme image : Str)
    (h : image ∈ (workLoop w dirname filenames fileScheme).collectedImages) :
    image ∈ filenames ∧ isFlac image = false ∧ isImage w image = true := by
  have hfold : ∀ (l : List Str) (st : WorkState),
      image ∈ (l.foldl (workFile w dirname fileScheme) st).collectedImages →
      image ∈ st.collectedImages ∨
        (image ∈ l ∧ isFlac image = false ∧ isImage w image = true) := by
    intro l
    induction l with
    | nil => exact fun st h => Or.inl h
    | cons f fs ih =>
      intro st h
      rcases ih _ h with h1 | ⟨h1, h2, h3⟩
      · rcases workFile_collectedImages w dirname fileScheme st f image h1 with h4 | ⟨h4, h5, h6⟩
        · exact Or.inl h4
        · exact Or.inr ⟨by rw [h4]; exact List.mem_cons_self _ _, h4 ▸ h5, h4 ▸ h6⟩
      · exact Or.inr ⟨List.mem_cons_of_mem _ h1, h2, h3⟩
  unfold workLoop at h
  rcases hfold _ _ h with h1 | ⟨h1, h2, h3⟩
  · simp at h1
  · exact ⟨(mem_sortStrings filenames image).mp h1, h2, h3⟩

theorem foldl_largestStep_mem (w : World) (dirname : Str) (images : List Str)
    (acc : Nat × Str) :
    (images.foldl (largestStep w dirname) acc).2 = acc.2 ∨
      (images.foldl (largestStep w dirname) acc).2 ∈ images := by
  induction images generalizing acc with
  | nil => exact Or.inl rfl
  | cons x xs ih =>
    simp only [List.foldl_cons]
    rcases ih (largestStep w dirname acc x) with h | h
    · have hstep : (largestStep w dirname acc x).2 = acc.2 ∨ (largestStep w dirname acc x).2 = x := by
        unfold largestStep
        split
        · split
          · exact Or.inr rfl
          · exact Or.inl rfl
        · exact Or.inl rfl
      rcases hstep with h1 | h1
      · exact Or.inl (h.trans h1)
      · exact Or.inr (by rw [h, h1]; exact List.mem_cons_self _ _)
    · exact Or.inr (List.mem_cons_of_mem _ h)

theorem GetMainCover_mem (w : World) (dirname : Str) (images : List Str)
    (h : GetMainCover w dirname images ≠ []) : GetMainCover w dirname images ∈ images := by
  cases images with
  | nil => exact absurd rfl h
  | cons a as =>
    cases as with
    | nil => simp [GetMainCover]
    | cons b bs =>
      simp only [GetMainCover]
      split
      · rename_i image hfind
        exact List.mem_of_find?_eq_some hfind
      · rcases foldl_largestStep_mem w dirname (a :: b :: bs) (0, a) with h1 | h1
        · rw [h1]
          exact List.mem_cons_self _ _
        · exact h1

theorem renameCover_some (w : World) (dirname : Str) (images : List Str)
    (coverName oldPath newPath : Str)
    (h : renameCover w dirname images coverName = some (oldPath, newPath)) :
    ∃ image ∈ images, oldPath = Join dirname image ∧
      newPath = Join dirname (coverName ++ Ext image) ∧ oldPath ≠ newPath := by
  unfold renameCover at h
  simp only at h
  split at h
  · simp at h
  · rename_i hsel
    split at h
    · simp at h
    · rename_i hne
      simp only [Option.some.injEq, Prod.mk.injEq] at h
      refine ⟨GetMainCover w dirname images, GetMainCover_mem w dirname images hsel,
        h.1.symm, h.2.symm, ?_⟩
      rw [← h.1, ← h.2]
      exact hne

theorem workDirTail_imageAction (w : World) (tags : List Str)
    (dirname dirScheme coverName : Str) (st : WorkState)
    (hstart : st.action.hasImageAction = false)
    (h : (workDirTail w tags dirname dirScheme coverName st).hasImageAction = true) :
    ∃ oldPath newPath,
      renameCover w dirname st.collectedImages coverName = some (oldPath, newPath) ∧
      (workDirTail w tags dirname dirScheme coverName st).ImageAction = (oldPath, newPath) := by
  have key : ∀ A : renameAction,
      (match canRenameDirectory tags st.albumMetadata dirScheme with
        | (_, some err) => A.AddError err
        | (canRenameDir, none) =>
          if canRenameDir && st.fileMetadata.isSome then
            match renameDir dirScheme dirname (singleMetadata st.albumMetadata) with
            | some (oldPath, newPath) => A.SetDirAction oldPath newPath
            | none => A
          else A.AddError (PlanError.cannotRename dirname)).hasImageAction = A.hasImageAction ∧
      (match canRenameDirectory tags st.albumMetadata dirScheme with
        | (_, some err) => A.AddError err
        | (canRenameDir, none) =>
          if canRenameDir && st.fileMetadata.isSome then
            match renameDir dirScheme dirname (singleMetadata st.albumMetadata) with
            | some (oldPath, newPath) => A.SetDirAction oldPath newPath
            | none => A
          else A.AddError (PlanError.cannotRename dirname)).ImageAction = A.ImageAction := by
    intro A
    split
    · exact ⟨rfl, rfl⟩
    · split
      · split <;> exact ⟨rfl, rfl⟩
      · exact ⟨rfl, rfl⟩
  unfold workDirTail at h ⊢
  simp only at h ⊢
  rw [(key _).1] at h
  rw [(key _).2]
  split at h
  · split at h
    · rename_i oldPath newPath hren
      refine ⟨oldPath, newPath, hren, ?_⟩
      rename_i hpos _
      simp [hren, renameAction.SetImageAction, hpos]
    · rw [hstart] at h
      exact absurd h (by decide)
  · rw [hstart] at h
    exact absurd h (by decide)

/-- C29 (as amended): when the plan of `workDir` has a cover action, the action renames
a cover candidate of the listing (an entry that is no audio file and passes `isImage`)
to the directory joined with the cover name and the extension of that candidate, and
the target differs from the path of the candidate itself. The target is not compared
with the paths of the other entries. -/
theorem workDir_cover_action (w : World) (tags : List Str) (dirname : Str)
    (filenames : List Str) (fileScheme dirScheme coverName : Str)
    (h : (workDir w tags dirname filenames fileScheme dirScheme coverName).hasImageAction = true) :
    ∃ image ∈ filenames,
      isFlac image = false ∧ isImage w image = true ∧
      (workDir w tags dirname filenames fileScheme dirScheme coverName).ImageAction
        = (Join dirname image, Join dirname (coverName ++ Ext image)) ∧
      Join dirname image ≠ Join dirname (coverName ++ Ext image) := by
  rw [workDir_eq_workLoop] at h ⊢
  have hstart := workLoop_hasImageAction w dirname filenames fileScheme
  split at h
  · obtain ⟨oldPath, newPath, hren, hact⟩ :=
      workDirTail_imageAction w tags dirname dirScheme coverName _ hstart h
    obtain ⟨image, himage, hold, hnew, hne⟩ := renameCover_some w dirname _ coverName _ _ hren
    obtain ⟨h1, h2, h3⟩ := workLoop_collectedImages w dirname filenames fileScheme image himage
    rename_i hmusic
    simp only [hmusic, if_true]
    exact ⟨image, h1, h2, h3, by rw [hact, hold, hnew], by rw [← hold, ← hnew]; exact hne⟩
  · rw [hstart] at h
    exact absurd h (by decide)

theorem workDir_cover_action_witness :
    ∃ image ∈ ["a.flac".toList, "front.jpg".toList],
      isFlac image = false ∧ isImage scenarioWorld image = true ∧
      (workDir scenarioWorld defaultUniformCmdTags "/m/X".toList
        ["a.flac".toList, "front.jpg".toList] "%(TITLE)s".toList "%(ARTIST)s".toList
        "cover".toList).ImageAction
        = (Join "/m/X".toList image, Join "/m/X".toList ("cover".toList ++ Ext image)) ∧
      Join "/m/X".toList image ≠ Join "/m/X".toList ("cover".toList ++ Ext image) :=
  workDir_cover_action scenarioWorld defaultUniformCmdTags "/m/X".toList
    ["a.flac".toList, "front.jpg".toList] "%(TITLE)s".toList "%(ARTIST)s".toList
    "cover".toList (by decide)
theorem mapSet_mem {α β : Type} [DecidableEq α] (k : α) (v : β) (m : List (α × β))
    (p : α × β) (h : p ∈ mapSet k v m) : p = (k, v) ∨ p ∈ m := by
  induction m with
  | nil => simpa [mapSet] using h
  | cons q rest ih =>
    obtain ⟨k', v'⟩ := q
    by_cases hk : k' = k
    · simp only [mapSet, hk, if_true, List.mem_cons] at h
      rcases h with h | h
      · exact Or.inl h
      · exact Or.inr (List.mem_cons_of_mem _ h)
    · simp only [mapSet, hk, if_false, List.mem_cons] at h
      rcases h with h | h
      · exact Or.inr (by rw [h]; exact List.mem_cons_self _ _)
      · rcases ih h with h1 | h1
        · exact Or.inl h1
        · exact Or.inr (List.mem_cons_of_mem _ h1)

theorem mapSet_keys_eq {α β : Type} [DecidableEq α] (k : α) (v : β) (m : List (α × β)) :
    (mapSet k v m).map Prod.fst
      = if k ∈ m.map Prod.fst then m.map Prod.fst else m.map Prod.fst ++ [k] := by
  induction m with
  | nil => simp [mapSet]
  | cons q rest ih =>
    obtain ⟨k', v'⟩ := q
    by_cases hk : k' = k
    · simp [mapSet, hk]
    · have hk' : ¬ k = k' := fun h => hk h.symm
      simp only [mapSet, hk, if_false, List.map_cons, ih, List.mem_cons, hk', false_or]
      split <;> simp

theorem mapSet_keys_nodup {α β : Type} [DecidableEq α] (k : α) (v : β) (m : List (α × β))
    (h : (m.map Prod.fst).Nodup) : ((mapSet k v m).map Prod.fst).Nodup := by
  rw [mapSet_keys_eq]
  split
  · exact h
  · rename_i hk
    exact List.Nodup.append h (List.nodup_singleton k) (by simpa using hk)

theorem workFile_fileActions_inv (w : World) (dirname fileScheme : Str) (st : WorkState)
    (filename : Str)
    (h : (st.action.FileActions.map Prod.fst).Nodup ∧
      ∀ p ∈ st.action.FileActions, PlannedTarget w dirname fileScheme p) :
    ((workFile w dirname fileScheme st filename).action.FileActions.map Prod.fst).Nodup ∧
      ∀ p ∈ (workFile w dirname fileScheme st filename).action.FileActions,
        PlannedTarget w dirname fileScheme p := by
  unfold workFile
  split
  · split
    · exact h
    · rename_i md hfetch
      split
      · exact h
      · split
        · rename_i oldPath newPath hren
          have hold := renameFile_fst _ _ _ _ _ hren
          have hnew := renameFile_snd _ _ _ _ _ _ hren
          simp only at hold
          refine ⟨mapSet_keys_nodup _ _ _ h.1, ?_⟩
          intro p hp
          rcases mapSet_mem _ _ _ _ hp with h1 | h1
          · rw [h1]
            exact ⟨md, by rw [hold]; exact hfetch, hnew⟩
          · exact h.2 p h1
        · exact h
  · split <;> exact h

theorem workLoop_fileActions_inv (w : World) (dirname : Str) (filenames : List Str)
    (fileScheme : Str) :
    ((workLoop w dirname filenames fileScheme).action.FileActions.map Prod.fst).Nodup ∧
      ∀ p ∈ (workLoop w dirname filenames fileScheme).action.FileActions,
        PlannedTarget w dirname fileScheme p := by
  have hfold : ∀ (l : List Str) (st : WorkState),
      ((st.action.FileActions.map Prod.fst).Nodup ∧
        ∀ p ∈ st.action.FileActions, PlannedTarget w dirname fileScheme p) →
      (((l.foldl (workFile w dirname fileScheme) st).action.FileActions.map Prod.fst).Nodup ∧
        ∀ p ∈ (l.foldl (workFile w dirname fileScheme) st).action.FileActions,
          PlannedTarget w dirname fileScheme p) := by
    intro l
    induction l with
    | nil => exact fun _ h => h
    | cons f fs ih => exact fun st h => ih _ (workFile_fileActions_inv w dirname fileScheme st f h)
  unfold workLoop
  exact hfold _ _ ⟨by simp [NewAction], by simp [NewAction]⟩

theorem workDir_fileActions_eq (w : World) (tags : List Str) (dirname : Str)
    (filenames : List Str) (fileScheme dirScheme coverName : Str) :
    (workDir w tags dirname filenames fileScheme dirScheme coverName).FileActions
      = (workLoop w dirname filenames fileScheme).action.FileActions := by
  rw [workDir_eq_workLoop]
  split
  · exact workDirTail_fileActions w tags dirname dirScheme coverName _
  · rfl

/-- C27 (as amended): in the plan of `workDir` every source path is a key of the
file-action map at most once, and two entries of the map have the same target path
exactly when the metadata of their source files render to the same sanitized name;
source files whose sanitized renderings differ are never mapped to the same target. -/
theorem workDir_fileActions_same_target_iff (w : World) (tags : List Str) (dirname : Str)
    (filenames : List Str) (fileScheme dirScheme coverName : Str)
    (k₁ v₁ k₂ v₂ : Str) (md₁ md₂ : Metadata)
    (h₁ : (k₁, v₁) ∈ (workDir w tags dirname filenames fileScheme dirScheme coverName).FileActions)
    (h₂ : (k₂, v₂) ∈ (workDir w tags dirname filenames fileScheme dirScheme coverName).FileActions)
    (hfetch₁ : w.FetchMetadata k₁ = .ok md₁) (hfetch₂ : w.FetchMetadata k₂ = .ok md₂) :
    ((workDir w tags dirname filenames fileScheme dirScheme coverName).FileActions.map
      Prod.fst).Nodup ∧
    (v₁ = v₂ ↔
      stripUnwanted (applyMetadataToScheme fileScheme md₁)
        = stripUnwanted (applyMetadataToScheme fileScheme md₂)) := by
  rw [workDir_fileActions_eq] at h₁ h₂ ⊢
  obtain ⟨hnd, hinv⟩ := workLoop_fileActions_inv w dirname filenames fileScheme
  refine ⟨hnd, ?_⟩
  obtain ⟨m₁, hm₁, hv₁⟩ := hinv _ h₁
  obtain ⟨m₂, hm₂, hv₂⟩ := hinv _ h₂
  simp only at hm₁ hm₂ hv₁ hv₂
  rw [hfetch₁] at hm₁
  rw [hfetch₂] at hm₂
  simp only [Except.ok.injEq] at hm₁ hm₂
  subst hm₁ hm₂
  constructor
  · intro heq
    have hb : Base v₁ = Base v₂ := by rw [heq]
    rw [hv₁, hv₂, Base_Join_element dirname _ (isElement_flac_name _),
      Base_Join_element dirname _ (isElement_flac_name _)] at hb
    exact List.append_cancel_right hb
  · intro heq
    rw [hv₁, hv₂, heq]

theorem workDir_fileActions_same_target_iff_witness :
    ((workDir scenarioWorld defaultUniformCmdTags "/m/X".toList
        ["a.flac".toList, "b.flac".toList] "%(TITLE)s".toList "%(ARTIST)s".toList
        "cover".toList).FileActions.map Prod.fst).Nodup ∧
    ("/m/X/Song A.flac".toList = "/m/X/Song B.flac".toList ↔
      stripUnwanted (applyMetadataToScheme "%(TITLE)s".toList trackA)
        = stripUnwanted (applyMetadataToScheme "%(TITLE)s".toList trackB)) :=
  workDir_fileActions_same_target_iff scenarioWorld defaultUniformCmdTags "/m/X".toList
    ["a.flac".toList, "b.flac".toList] "%(TITLE)s".toList "%(ARTIST)s".toList
    "cover".toList "/m/X/a.flac".toList "/m/X/Song A.flac".toList "/m/X/b.flac".toList
    "/m/X/Song B.flac".toList trackA trackB (by decide) (by decide) (by decide) (by decide)

/-- C27 (as stated, refuted): the directory `/m/X` holds the same track as `a.flac`
and as `copy.flac`; with the file scheme compiled from `%n - %t` the plan of `workDir`
maps the two different source files to the one target `/m/X/01 - Song A.flac`. -/
theorem workDir_fileActions_not_injective :
    unwrapKeys MAPPINGS "%n - %t".toList false = .ok "%(TRACKNUMBER)s - %(TITLE)s".toList ∧
    (workDir duplicateWorld defaultUniformCmdTags "/m/X".toList
      ["a.flac".toList, "copy.flac".toList] "%(TRACKNUMBER)s - %(TITLE)s".toList
      "%(ARTIST)s".toList "cover".toList).FileActions
      = [("/m/X/a.flac".toList, "/m/X/01 - Song A.flac".toList),
          ("/m/X/copy.flac".toList, "/m/X/01 - Song A.flac".toList)] ∧
    "/m/X/a.flac".toList ≠ "/m/X/copy.flac".toList := by
  decide
theorem sortStrings_perm (l₁ l₂ : List Str) (h : l₁.Perm l₂) :
    sortStrings l₁ = sortStrings l₂ := by
  unfold sortStrings
  apply List.eq_of_perm_of_sorted (r := fun a b : Str => a ≤ b)
  · exact ((List.perm_insertionSort _ l₁).trans h).trans (List.perm_insertionSort _ l₂).symm
  · exact List.sorted_insertionSort _ l₁
  · exact List.sorted_insertionSort _ l₂

/-- C26: for two file-name lists that are permutations of each other, and the same
oracles, directory, schemes and cover name, `workDir` returns the same plan: the same
file actions, cover action, directory action and sequence of errors. -/
theorem workDir_perm (w : World) (tags : List Str) (dirname : Str)
    (filenames₁ filenames₂ : List Str) (fileScheme dirScheme coverName : Str)
    (h : filenames₁.Perm filenames₂) :
    workDir w tags dirname filenames₁ fileScheme dirScheme coverName
      = workDir w tags dirname filenames₂ fileScheme dirScheme coverName := by
  unfold workDir
  rw [sortStrings_perm filenames₁ filenames₂ h]

theorem workDir_perm_witness :
    workDir scenarioWorld defaultUniformCmdTags "/m/X".toList
        ["b.flac".toList, "cover.jpg".toList, "a.flac".toList]
        "%(TITLE)s".toList "%(ARTIST)s".toList "cover".toList
      = workDir scenarioWorld defaultUniformCmdTags "/m/X".toList
        ["a.flac".toList, "b.flac".toList, "cover.jpg".toList]
        "%(TITLE)s".toList "%(ARTIST)s".toList "cover".toList :=
  workDir_perm scenarioWorld defaultUniformCmdTags "/m/X".toList
    ["b.flac".toList, "cover.jpg".toList, "a.flac".toList]
    ["a.flac".toList, "b.flac".toList, "cover.jpg".toList]
    "%(TITLE)s".toList "%(ARTIST)s".toList "cover".toList (by decide)
theorem tagValues_appendEntry_iff (am : AlbumMetadata) (e : Str × Str) (tag v : Str) :
    v ∈ tagValues (appendEntry am e) tag ↔ v ∈ tagValues am tag ∨ (tag = e.1 ∧ v = e.2) := by
  constructor
  · intro h
    by_cases ht : tag = e.1
    · subst ht
      unfold tagValues appendEntry at h
      simp only [] at h
      rw [lookup_mapSet_self] at h
      by_cases h2 : e.2 ∈ (List.lookup e.1 am).getD []
      · simp only [h2, if_true, Option.getD_some] at h
        exact Or.inl h
      · simp only [h2, if_false, Option.getD_some, List.mem_append, List.mem_singleton] at h
        rcases h with h | h
        · exact Or.inl h
        · exact Or.inr ⟨rfl, h⟩
    · unfold tagValues appendEntry at h
      simp only [] at h
      rw [lookup_mapSet_ne _ _ _ _ ht] at h
      exact Or.inl h
  · rintro (h | ⟨ht, hv⟩)
    · exact tagValues_appendEntry_mono am e tag v h
    · rw [ht, hv]
      exact tagValues_appendEntry_self am e

theorem tagValues_appendMetadata_iff (md : Metadata) (am : AlbumMetadata) (tag v : Str) :
    v ∈ tagValues (appendMetadata am md) tag ↔ v ∈ tagValues am tag ∨ (tag, v) ∈ md := by
  induction md generalizing am with
  | nil => simp [appendMetadata]
  | cons e rest ih =>
    have := ih (appendEntry am e)
    unfold appendMetadata at this ⊢
    simp only [List.foldl_cons]
    rw [this, tagValues_appendEntry_iff]
    constructor
    · rintro ((h | ⟨h1, h2⟩) | h)
      · exact Or.inl h
      · exact Or.inr (by rw [h1, h2]; exact List.mem_cons_self _ _)
      · exact Or.inr (List.mem_cons_of_mem _ h)
    · rintro (h | h)
      · exact Or.inl (Or.inl h)
      · rcases List.mem_cons.mp h with h1 | h1
        · exact Or.inl (Or.inr ⟨by rw [← h1], by rw [← h1]⟩)
        · exact Or.inr h1

theorem tagValues_foldl_appendMetadata_iff (mds : List Metadata) (am : AlbumMetadata)
    (tag v : Str) :
    v ∈ tagValues (mds.foldl appendMetadata am) tag ↔
      v ∈ tagValues am tag ∨ ∃ md ∈ mds, (tag, v) ∈ md := by
  induction mds generalizing am with
  | nil => simp
  | cons md rest ih =>
    simp only [List.foldl_cons]
    rw [ih, tagValues_appendMetadata_iff]
    constructor
    · rintro ((h | h) | ⟨m, hm, h⟩)
      · exact Or.inl h
      · exact Or.inr ⟨md, List.mem_cons_self _ _, h⟩
      · exact Or.inr ⟨m, List.mem_cons_of_mem _ hm, h⟩
    · rintro (h | ⟨m, hm, h⟩)
      · exact Or.inl (Or.inl h)
      · rcases List.mem_cons.mp hm with h1 | h1
        · exact Or.inl (Or.inr (h1 ▸ h))
        · exact Or.inr ⟨m, h1, h⟩

theorem lookup_eq_some_of_mem_nodup {α β : Type} [BEq α] [LawfulBEq α] (k : α) (v : β)
    (m : List (α × β)) (hnd : (m.map Prod.fst).Nodup) (h : (k, v) ∈ m) :
    List.lookup k m = some v := by
  induction m with
  | nil => simp at h
  | cons p rest ih =>
    obtain ⟨k', v'⟩ := p
    simp only [List.map_cons, List.nodup_cons] at hnd
    rcases List.mem_cons.mp h with h1 | h1
    · simp only [Prod.mk.injEq] at h1
      simp [List.lookup, h1.1, h1.2]
    · have hne : k ≠ k' := by
        intro hk
        apply hnd.1
        rw [← hk]
        exact List.mem_map.mpr ⟨(k, v), h1, rfl⟩
      have hb : (k == k') = false := by simpa using hne
      simp only [List.lookup, hb]
      exact ih hnd.2 h1

theorem tagValues_appendEntry_nodup (am : AlbumMetadata) (e : Str × Str)
    (h : ∀ tag, (tagValues am tag).Nodup) : ∀ tag, (tagValues (appendEntry am e) tag).Nodup := by
  intro tag
  by_cases ht : tag = e.1
  · subst ht
    unfold tagValues appendEntry
    simp only []
    rw [lookup_mapSet_self]
    have hn := h e.1
    unfold tagValues at hn
    by_cases h2 : e.2 ∈ (List.lookup e.1 am).getD []
    · simpa [h2] using hn
    · simp only [h2, if_false, Option.getD_some]
      exact List.Nodup.append hn (List.nodup_singleton _) (by simpa using h2)
  · unfold tagValues appendEntry
    simp only []
    rw [lookup_mapSet_ne _ _ _ _ ht]
    exact h tag

theorem tagValues_foldl_nodup (mds : List Metadata) (am : AlbumMetadata)
    (h : ∀ tag, (tagValues am tag).Nodup) :
    ∀ tag, (tagValues (mds.foldl appendMetadata am) tag).Nodup := by
  have hmd : ∀ (md : Metadata) (am : AlbumMetadata), (∀ tag, (tagValues am tag).Nodup) →
      ∀ tag, (tagValues (appendMetadata am md) tag).Nodup := by
    intro md
    induction md with
    | nil => exact fun _ h => h
    | cons e rest ih => exact fun am h => ih _ (tagValues_appendEntry_nodup am e h)
  induction mds generalizing am with
  | nil => exact h
  | cons md rest ih => exact ih _ (hmd md am h)

/-- C21: folding the metadata maps of a list of files with `appendMetadata` into the
empty tag set gives a tag set in which a value belongs to the set of a tag exactly
when some file of the list has that value for the tag; every set holds each value
once; the empty list gives the empty tag set; and two lists of files in which the
same values occur for the same tags, in any order and any number of times, give the
same sets. -/
theorem appendMetadata_fold (mds : List Metadata)
    (hmaps : ∀ md ∈ mds, (md.map Prod.fst).Nodup) :
    (∀ tag v, v ∈ tagValues (mds.foldl appendMetadata []) tag ↔
      ∃ md ∈ mds, List.lookup tag md = some v) ∧
    (∀ tag, (tagValues (mds.foldl appendMetadata []) tag).Nodup) ∧
    ([].foldl appendMetadata ([] : AlbumMetadata) = []) ∧
    (∀ mds' : List Metadata, (∀ md ∈ mds', (md.map Prod.fst).Nodup) →
      (∀ tag v, (∃ md ∈ mds', List.lookup tag md = some v) ↔
        (∃ md ∈ mds, List.lookup tag md = some v)) →
      ∀ tag v, v ∈ tagValues (mds'.foldl appendMetadata []) tag ↔
        v ∈ tagValues (mds.foldl appendMetadata []) tag) := by
  have hchar : ∀ (l : List Metadata), (∀ md ∈ l, (md.map Prod.fst).Nodup) →
      ∀ tag v, v ∈ tagValues (l.foldl appendMetadata []) tag ↔
        ∃ md ∈ l, List.lookup tag md = some v := by
    intro l hl tag v
    rw [tagValues_foldl_appendMetadata_iff]
    constructor
    · rintro (h | ⟨md, hmd, h⟩)
      · simp [tagValues] at h
      · exact ⟨md, hmd, lookup_eq_some_of_mem_nodup tag v md (hl md hmd) h⟩
    · rintro ⟨md, hmd, h⟩
      exact Or.inr ⟨md, hmd, mem_of_lookup_eq_some tag v md h⟩
  refine ⟨hchar mds hmaps, ?_, rfl, ?_⟩
  · exact tagValues_foldl_nodup mds [] (by simp [tagValues])
  · intro mds' hmaps' hsame tag v
    rw [hchar mds' hmaps', hchar mds hmaps]
    exact hsame tag v

theorem appendMetadata_fold_witness :
    (∀ tag v, v ∈ tagValues ([trackA, trackB, trackA].foldl appendMetadata []) tag ↔
      ∃ md ∈ [trackA, trackB, trackA], List.lookup tag md = some v) ∧
    (∀ tag, (tagValues ([trackA, trackB, trackA].foldl appendMetadata []) tag).Nodup) ∧
    ([].foldl appendMetadata ([] : AlbumMetadata) = []) ∧
    (∀ mds' : List Metadata, (∀ md ∈ mds', (md.map Prod.fst).Nodup) →
      (∀ tag v, (∃ md ∈ mds', List.lookup tag md = some v) ↔
        (∃ md ∈ [trackA, trackB, trackA], List.lookup tag md = some v)) →
      ∀ tag v, v ∈ tagValues (mds'.foldl appendMetadata []) tag ↔
        v ∈ tagValues ([trackA, trackB, trackA].foldl appendMetadata []) tag) :=
  appendMetadata_fold [trackA, trackB, trackA] (by decide)
theorem digitChar_spec : ∀ d, d < 10 →
    (digitChar d).isDigit = true ∧ (digitChar d).toNat - 48 = d := by
  decide

theorem digitsValue_decimalFrom (fuel n : Nat) (acc : Str) (h : n < fuel) :
    digitsValue (decimalFrom fuel n acc) 0 = digitsValue acc n := by
  induction fuel generalizing n acc with
  | zero => omega
  | succ f ih =>
    unfold decimalFrom
    split
    · rename_i hlt
      obtain ⟨h1, h2⟩ := digitChar_spec n hlt
      simp [digitsValue, h1, h2]
    · rename_i hge
      rw [ih (n / 10) _ (by omega)]
      obtain ⟨h1, h2⟩ := digitChar_spec (n % 10) (Nat.mod_lt _ (by decide))
      simp only [digitsValue, h1, if_true, h2]
      congr 1
      omega

theorem digitsValue_decimal (n : Nat) : digitsValue (decimal n) 0 = some n := by
  unfold decimal
  rw [digitsValue_decimalFrom (n + 1) n [] (by omega)]
  rfl

theorem decimalFrom_digits (fuel n : Nat) (acc : Str) (hacc : ∀ c ∈ acc, c.isDigit = true) :
    ∀ c ∈ decimalFrom fuel n acc, c.isDigit = true := by
  induction fuel generalizing n acc with
  | zero => exact hacc
  | succ f ih =>
    unfold decimalFrom
    split
    · rename_i hlt
      intro c hc
      rcases List.mem_cons.mp hc with h | h
      · rw [h]; exact (digitChar_spec n hlt).1
      · exact hacc c h
    · apply ih
      intro c hc
      rcases List.mem_cons.mp hc with h | h
      · rw [h]; exact (digitChar_spec (n % 10) (Nat.mod_lt _ (by decide))).1
      · exact hacc c h

theorem decimalFrom_length (fuel n : Nat) (acc : Str) :
    acc.length + 1 ≤ (decimalFrom (fuel + 1) n acc).length := by
  have hmono : ∀ (f m : Nat) (a : Str), a.length ≤ (decimalFrom f m a).length := by
    intro f
    induction f with
    | zero => intro m a; simp [decimalFrom]
    | succ g ih =>
      intro m a
      unfold decimalFrom
      split
      · simp
      · have := ih (m / 10) (digitChar (m % 10) :: a)
        simp only [List.length_cons] at this
        omega
  unfold decimalFrom
  split
  · simp
  · have := hmono fuel (n / 10) (digitChar (n % 10) :: acc)
    simp only [List.length_cons] at this
    omega

theorem decimal_digits (n : Nat) : ∀ c ∈ decimal n, c.isDigit = true :=
  decimalFrom_digits (n + 1) n [] (by simp)

theorem decimal_ne_nil (n : Nat) : decimal n ≠ [] := by
  intro h
  have := decimalFrom_length n n []
  unfold decimal at h
  rw [h] at this
  simp at this

theorem sprintf02d_ofNat (n : Nat) :
    sprintf02d (n : Int) = if (decimal n).length < 2 then '0' :: decimal n else decimal n := by
  unfold sprintf02d
  have h : ¬ ((n : Int) < 0) := by omega
  simp [h]

theorem sprintf02d_ofNat_digits (n : Nat) : ∀ c ∈ sprintf02d (n : Int), c.isDigit = true := by
  rw [sprintf02d_ofNat]
  split
  · intro c hc
    rcases List.mem_cons.mp hc with h | h
    · rw [h]; decide
    · exact decimal_digits n c h
  · exact decimal_digits n

theorem sprintf02d_ofNat_length (n : Nat) : 2 ≤ (sprintf02d (n : Int)).length := by
  rw [sprintf02d_ofNat]
  split
  · have := decimal_ne_nil n
    cases h : decimal n with
    | nil => exact absurd h this
    | cons a as => simp
  · omega

theorem digitsValue_sprintf02d (n : Nat) : digitsValue (sprintf02d (n : Int)) 0 = some n := by
  rw [sprintf02d_ofNat]
  split
  · have h0 : ('0' : Char).isDigit = true := by decide
    simp only [digitsValue, h0, if_true]
    exact digitsValue_decimal n
  · exact digitsValue_decimal n

theorem Atoi_digits (bits : Nat) (value : Str) (n : Nat) (hne : value ≠ [])
    (hdig : ∀ c ∈ value, c.isDigit = true) (hn : digitsValue value 0 = some n) :
    Atoi bits value = if n < 2 ^ (bits - 1) then some (n : Int) else none := by
  cases value with
  | nil => exact absurd rfl hne
  | cons c cs =>
    have hc : c.isDigit = true := hdig c (List.mem_cons_self _ _)
    have h1 : c ≠ '-' := by
      intro h; rw [h] at hc; revert hc; decide
    have h2 : c ≠ '+' := by
      intro h; rw [h] at hc; revert hc; decide
    unfold Atoi
    simp [h1, h2, hn]

theorem digitsValue_some_digits (value : Str) (acc n : Nat)
    (h : digitsValue value acc = some n) : ∀ c ∈ value, c.isDigit = true := by
  induction value generalizing acc with
  | nil => simp
  | cons c cs ih =>
    unfold digitsValue at h
    by_cases hc : c.isDigit = true
    · rw [if_pos hc] at h
      intro d hd
      rcases List.mem_cons.mp hd with h1 | h1
      · rw [h1]; exact hc
      · exact ih _ h d h1
    · rw [if_neg hc] at h
      exact absurd h (by simp)

theorem digitsValue_of_digits (value : Str) (acc : Nat)
    (h : ∀ c ∈ value, c.isDigit = true) : ∃ n, digitsValue value acc = some n := by
  induction value generalizing acc with
  | nil => exact ⟨acc, rfl⟩
  | cons c cs ih =>
    have hc : c.isDigit = true := h c (List.mem_cons_self _ _)
    unfold digitsValue
    rw [if_pos hc]
    exact ih _ (fun d hd => h d (List.mem_cons_of_mem _ hd))

theorem isDigit_toNat (c : Char) (h : c.isDigit = true) : 48 ≤ c.toNat ∧ c.toNat ≤ 57 := by
  unfold Char.isDigit at h
  simp only [Bool.and_eq_true, decide_eq_true_eq] at h
  obtain ⟨h1, h2⟩ := h
  have h1' : (48 : Nat) ≤ c.val.toNat := by
    have := UInt32.le_def.mp h1
    simpa using this
  have h2' : c.val.toNat ≤ 57 := by
    have := UInt32.le_def.mp h2
    simpa using this
  exact ⟨h1', h2'⟩

theorem isSpaceRune_digit (c : Char) (h : c.isDigit = true) : isSpaceRune c = false := by
  obtain ⟨h1, h2⟩ := isDigit_toNat c h
  unfold isSpaceRune
  simp only [decide_eq_false_iff_not, List.mem_cons, List.mem_singleton, List.not_mem_nil,
    or_false]
  omega

theorem digit_ne_equals (c : Char) (h : c.isDigit = true) : c ≠ '=' := by
  intro he
  rw [he] at h
  revert h
  decide

theorem TrimSpace_trackLine (value : Str) (hne : value ≠ [])
    (hdig : ∀ c ∈ value, c.isDigit = true) : TrimSpace (trackLine value) = trackLine value := by
  have hrev : value.reverse ≠ [] := by simpa using hne
  unfold TrimSpace trackLine
  have h1 : ("TRACKNUMBER=".toList ++ value).dropWhile isSpaceRune
      = "TRACKNUMBER=".toList ++ value := by
    show List.dropWhile isSpaceRune ('T' :: ("RACKNUMBER=".toList ++ value)) = _
    rw [List.dropWhile_cons_of_neg (by decide)]
    rfl
  rw [h1, List.reverse_append]
  cases hr : value.reverse with
  | nil => exact absurd hr hrev
  | cons c cs =>
    have hc : c.isDigit = true := by
      apply hdig
      rw [← List.mem_reverse, hr]
      exact List.mem_cons_self _ _
    have hs := isSpaceRune_digit c hc
    rw [List.cons_append, List.dropWhile_cons_of_neg (by simp [hs]), ← List.cons_append, ← hr,
      ← List.reverse_append, List.reverse_reverse]

theorem Contains_trackLine (value : Str) : Contains (trackLine value) ['='] = true := by
  unfold trackLine
  simp [Contains, HasPrefix]

theorem takeWhile_trackLine (value : Str) :
    (trackLine value).takeWhile (fun c => c != '=') = "TRACKNUMBER".toList := by
  unfold trackLine
  simp [List.takeWhile]

theorem dropWhile_trackLine (value : Str) :
    ((trackLine value).dropWhile (fun c => c != '=')).drop 1 = value := by
  unfold trackLine
  simp [List.dropWhile]

theorem ingestLine_trimmed_trackLine (bits : Nat) (md : Metadata) (line value : Str) (n : Nat)
    (hline : TrimSpace line = trackLine value)
    (hne : value ≠ []) (hn : digitsValue value 0 = some n) :
    ingestLine bits md line =
      if n < 2 ^ (bits - 1) then mapSet "TRACKNUMBER".toList (sprintf02d (n : Int)) md
      else mapSet "TRACKNUMBER".toList value md := by
  have hdig := digitsValue_some_digits value 0 n hn
  unfold ingestLine
  simp only [hline, Contains_trackLine, takeWhile_trackLine,
    dropWhile_trackLine, Atoi_digits bits value n hne hdig hn]
  by_cases hlt : n < 2 ^ (bits - 1)
  · simp [hne, hlt]
  · simp [hne, hlt]

theorem sprintf02d_padded (num : Int) (hdig : ∀ c ∈ sprintf02d num, c.isDigit = true) :
    2 ≤ (sprintf02d num).length := by
  cases num with
  | ofNat n => exact sprintf02d_ofNat_length n
  | negSucc n =>
    exfalso
    have hneg : Int.negSucc n < 0 := Int.negSucc_lt_zero n
    have hmem : '-' ∈ sprintf02d (Int.negSucc n) := by
      unfold sprintf02d
      rw [if_pos hneg]
      exact List.mem_cons_self _ _
    have := hdig '-' hmem
    revert this
    decide

theorem overflow_two_digits (bits : Nat) (hbits : 5 ≤ bits) (value : Str) (hne : value ≠ [])
    (hdig : ∀ c ∈ value, c.isDigit = true) (hnone : Atoi bits value = none) :
    2 ≤ value.length := by
  obtain ⟨n, hn⟩ := digitsValue_of_digits value 0 hdig
  rw [Atoi_digits bits value n hne hdig hn] at hnone
  have hge : 2 ^ (bits - 1) ≤ n := by
    by_contra hlt
    rw [if_pos (by omega)] at hnone
    exact absurd hnone (by simp)
  have h16 : 2 ^ 4 ≤ 2 ^ (bits - 1) := Nat.pow_le_pow_right (by decide) (by omega)
  cases value with
  | nil => exact absurd rfl hne
  | cons c cs =>
    cases cs with
    | cons d ds => simp
    | nil =>
      exfalso
      have hc := hdig c (List.mem_cons_self _ _)
      obtain ⟨h1, h2⟩ := isDigit_toNat c hc
      simp only [digitsValue, hc, if_true] at hn
      have : n = c.toNat - 48 := by
        have := Option.some.inj hn
        omega
      omega

theorem ingestLine_padded (bits : Nat) (hbits : 5 ≤ bits) (md : Metadata) (line : Str)
    (hmd : ∀ v, List.lookup "TRACKNUMBER".toList md = some v →
      (∀ c ∈ v, c.isDigit = true) → 2 ≤ v.length) :
    ∀ v, List.lookup "TRACKNUMBER".toList (ingestLine bits md line) = some v →
      (∀ c ∈ v, c.isDigit = true) → 2 ≤ v.length := by
  intro v hv hdig
  unfold ingestLine at hv
  simp only at hv
  split at hv
  · exact hmd v hv hdig
  · split at hv
    · exact hmd v hv hdig
    · rename_i hval
      split at hv
      · rename_i htag
        split at hv
        · rename_i num hnum
          rw [htag, lookup_mapSet_self] at hv
          have hv' := Option.some.inj hv
          rw [← hv'] at hdig ⊢
          exact sprintf02d_padded num hdig
        · rename_i hnone
          rw [htag, lookup_mapSet_self] at hv
          have hv' := Option.some.inj hv
          rw [← hv'] at hdig ⊢
          exact overflow_two_digits bits hbits _ hval hdig hnone
      · rename_i htag
        rw [lookup_mapSet_ne _ _ _ _ (fun h => htag h.symm)] at hv
        exact hmd v hv hdig

theorem foldl_ingestLine_padded (bits : Nat) (hbits : 5 ≤ bits) (lines : List Str)
    (md : Metadata)
    (hmd : ∀ v, List.lookup "TRACKNUMBER".toList md = some v →
      (∀ c ∈ v, c.isDigit = true) → 2 ≤ v.length) :
    ∀ v, List.lookup "TRACKNUMBER".toList (lines.foldl (ingestLine bits) md) = some v →
      (∀ c ∈ v, c.isDigit = true) → 2 ≤ v.length := by
  induction lines generalizing md with
  | nil => exact hmd
  | cons l ls ih => exact ih _ (ingestLine_padded bits hbits md l hmd)

theorem splitLines_ne_nil (s : Str) : splitLines s ≠ [] := by
  cases s with
  | nil => simp [splitLines]
  | cons c cs =>
    unfold splitLines
    split
    · simp
    · split <;> simp

theorem splitLines_append (a b : Str) :
    splitLines (a ++ Char.ofNat 10 :: b) = splitLines a ++ splitLines b := by
  induction a with
  | nil => simp [splitLines]
  | cons c cs ih =>
    by_cases hc : c = Char.ofNat 10
    · simp [splitLines, hc, ih]
    · simp only [List.cons_append, splitLines, hc, if_false]
      rw [show cs.append (Char.ofNat 10 :: b) = cs ++ Char.ofNat 10 :: b from rfl, ih]
      cases h : splitLines cs with
      | nil => exact absurd h (splitLines_ne_nil cs)
      | cons e es => simp

theorem splitLines_of_no_newline (e : Str) (h : Char.ofNat 10 ∉ e) : splitLines e = [e] := by
  induction e with
  | nil => rfl
  | cons c cs ih =>
    have hc : c ≠ Char.ofNat 10 := fun hc => h (by simp [hc])
    have hcs : Char.ofNat 10 ∉ cs := fun hcs => h (List.mem_cons_of_mem _ hcs)
    simp [splitLines, hc, ih hcs]

theorem splitLines_trackLine (value : Str) (hdig : ∀ c ∈ value, c.isDigit = true) :
    splitLines (trackLine value) = [trackLine value] := by
  apply splitLines_of_no_newline
  intro hmem
  unfold trackLine at hmem
  rcases List.mem_append.mp hmem with h | h
  · revert h; decide
  · have := hdig _ h
    revert this
    decide

theorem ingestLine_lookup_of_not_assigns (bits : Nat) (md : Metadata) (tag line : Str)
    (h : assignsTag tag line = false) :
    List.lookup tag (ingestLine bits md line) = List.lookup tag md := by
  unfold assignsTag at h
  unfold ingestLine
  simp only
  by_cases hc : Contains (TrimSpace line) ['='] = true
  · by_cases hv : ((TrimSpace line).dropWhile fun c => c != '=').drop 1 = []
    · simp [hc, hv]
    · have hv' : ((((TrimSpace line).dropWhile fun c => c != '=').drop 1) != []) = true := by
        simpa using hv
      rw [hc, hv'] at h
      simp only [Bool.true_and, Bool.and_true, beq_eq_false_iff_ne, ne_eq] at h
      have hne : tag ≠ (TrimSpace line).takeWhile (fun c => c != '=') := fun e => h e.symm
      simp only [hc, Bool.not_true, Bool.false_eq_true, if_false, hv]
      split
      · split
        · exact lookup_mapSet_ne _ _ _ _ hne
        · exact lookup_mapSet_ne _ _ _ _ hne
      · exact lookup_mapSet_ne _ _ _ _ hne
  · simp [hc]

theorem foldl_ingestLine_lookup (bits : Nat) (tag : Str) (lines : List Str) (md : Metadata)
    (h : ∀ l ∈ lines, assignsTag tag l = false) :
    List.lookup tag (lines.foldl (ingestLine bits) md) = List.lookup tag md := by
  induction lines generalizing md with
  | nil => rfl
  | cons l ls ih =>
    rw [List.foldl_cons, ih _ (fun x hx => h x (List.mem_cons_of_mem _ hx)),
      ingestLine_lookup_of_not_assigns bits md tag l (h l (List.mem_cons_self _ _))]

/-- C22 (amended): in every tag listing parsed by `FetchMetadata` on a platform whose
`int` has `bits` bits (at least 5; Go has 32 and 64): let `line` be the last line of
the listing that assigns TRACKNUMBER (no line after it does), and let it read, trimmed,
`TRACKNUMBER=value` with `value` a non-empty run of decimal digits of numeric value `n`.
When `n` is below `2 ^ (bits - 1)` the tag is stored as the rendering of `n` by `%02d`;
otherwise it is stored as `value`, as it stands. The rendering is the decimal text of
`n` with one `0` in front when that text has fewer than two characters: it reads back
as `n`, has at least two characters, `1` gives `01` and `10` gives `10`. A line with
the padded value in the place of a value that fits stores the same map. Every value of
the tag in a parsed listing that consists of decimal digits only has at least two
characters. -/
theorem parseTags_tracknumber_padded (bits : Nat) (hbits : 5 ≤ bits) (output : Str)
    (before after : List Str) (line value : Str) (n : Nat)
    (hlines : splitLines output = before ++ line :: after)
    (hline : TrimSpace line = trackLine value)
    (hlast : ∀ l ∈ after, assignsTag "TRACKNUMBER".toList l = false)
    (hne : value ≠ []) (hn : digitsValue value 0 = some n) :
    (List.lookup "TRACKNUMBER".toList (parseTags bits output) =
      some (if n < 2 ^ (bits - 1) then sprintf02d (n : Int) else value)) ∧
    (sprintf02d (n : Int) =
      if (decimal n).length < 2 then '0' :: decimal n else decimal n) ∧
    (digitsValue (decimal n) 0 = some n) ∧
    (digitsValue (sprintf02d (n : Int)) 0 = some n) ∧
    (2 ≤ (sprintf02d (n : Int)).length) ∧
    (sprintf02d 1 = "01".toList ∧ sprintf02d 10 = "10".toList) ∧
    (n < 2 ^ (bits - 1) → ∀ md : Metadata,
      ingestLine bits md (trackLine (sprintf02d (n : Int))) = ingestLine bits md line) ∧
    (∀ (listing v : Str), List.lookup "TRACKNUMBER".toList (parseTags bits listing) = some v →
      (∀ c ∈ v, c.isDigit = true) → 2 ≤ v.length) := by
  have hpne : sprintf02d (n : Int) ≠ [] := by
    intro h
    have := sprintf02d_ofNat_length n
    rw [h] at this
    simp at this
  refine ⟨?_, sprintf02d_ofNat n, digitsValue_decimal n, digitsValue_sprintf02d n,
    sprintf02d_ofNat_length n, ⟨by decide, by decide⟩, ?_, ?_⟩
  · unfold parseTags
    rw [hlines, List.foldl_append, List.foldl_cons,
      foldl_ingestLine_lookup bits _ after _ hlast,
      ingestLine_trimmed_trackLine bits _ line value n hline hne hn]
    by_cases hfit : n < 2 ^ (bits - 1)
    · rw [if_pos hfit, if_pos hfit, lookup_mapSet_self]
    · rw [if_neg hfit, if_neg hfit, lookup_mapSet_self]
  · intro hfit md
    rw [ingestLine_trimmed_trackLine bits md line value n hline hne hn, if_pos hfit,
      ingestLine_trimmed_trackLine bits md _ _ n
        (TrimSpace_trackLine _ hpne (sprintf02d_ofNat_digits n)) hpne
        (digitsValue_sprintf02d n), if_pos hfit]
  · intro listing v
    exact foldl_ingestLine_padded bits hbits (splitLines listing) [] (by simp) v

theorem parseTags_tracknumber_padded_witness :
    (5 ≤ 64 ∧
      splitLines ("ARTIST=Foo".toList ++ Char.ofNat 10 :: " TRACKNUMBER=7".toList ++
          Char.ofNat 10 :: "TITLE=Song".toList ++ [Char.ofNat 10])
        = ["ARTIST=Foo".toList] ++ " TRACKNUMBER=7".toList :: ["TITLE=Song".toList, []] ∧
      TrimSpace " TRACKNUMBER=7".toList = trackLine "7".toList ∧
      (∀ l ∈ ["TITLE=Song".toList, []], assignsTag "TRACKNUMBER".toList l = false) ∧
      "7".toList ≠ [] ∧ digitsValue "7".toList 0 = some 7) ∧
    List.lookup "TRACKNUMBER".toList
      (parseTags 64 ("ARTIST=Foo".toList ++ Char.ofNat 10 :: " TRACKNUMBER=7".toList ++
          Char.ofNat 10 :: "TITLE=Song".toList ++ [Char.ofNat 10])) =
        some (if 7 < 2 ^ (64 - 1) then sprintf02d ((7 : Nat) : Int) else "7".toList) :=
  ⟨⟨by decide, by decide, by decide, by decide, by decide, by decide⟩,
    (parseTags_tracknumber_padded 64 (by decide)
      ("ARTIST=Foo".toList ++ Char.ofNat 10 :: " TRACKNUMBER=7".toList ++
          Char.ofNat 10 :: "TITLE=Song".toList ++ [Char.ofNat 10])
      ["ARTIST=Foo".toList] ["TITLE=Song".toList, []] " TRACKNUMBER=7".toList "7".toList 7
      (by decide) (by decide) (by decide) (by decide) (by decide)).1⟩

/-- C22 (counterexample): with a 64-bit `int`, the line `TRACKNUMBER=09223372036854775808`
has a value that is a decimal integer (2 ^ 63), yet the tag is stored as the text of the
line, not as the decimal text `9223372036854775808` of the integer: `strconv.Atoi`
reports a range error and the value is kept as it stands. -/
theorem parseTags_tracknumber_out_of_range :
    digitsValue "09223372036854775808".toList 0 = some (2 ^ 63) ∧
    parseTags 64 (trackLine "09223372036854775808".toList) =
      [("TRACKNUMBER".toList, "09223372036854775808".toList)] ∧
    sprintf02d ((2 ^ 63 : Nat) : Int) = "9223372036854775808".toList ∧
    List.lookup "TRACKNUMBER".toList
      (parseTags 64 (trackLine "09223372036854775808".toList)) ≠
        some (sprintf02d ((2 ^ 63 : Nat) : Int)) := by
  refine ⟨by decide, by decide, by decide, by decide⟩
theorem Clean_cons (c : Char) (cs : Str) :
    Clean (c :: cs) =
      if (cleanLoop (decide (c = '/')) (if c = '/' then cs else c :: cs)).out.length = 0
      then ['.'] else (cleanLoop (decide (c = '/')) (if c = '/' then cs else c :: cs)).out := by
  by_cases hc : c = '/'
  · simp [Clean, cleanLoop, cleanStart, hc]
  · simp [Clean, cleanLoop, cleanStart, hc]

theorem cleanStep_element_eq (rooted : Bool) (st : CleanState) (e : Str) (he : IsElement e) :
    cleanStep rooted st e =
      { out := (if (rooted && st.out.length != 1) || (!rooted && st.out.length != 0)
          then st.out ++ ['/'] else st.out) ++ e, dotdot := st.dotdot } := by
  obtain ⟨h1, h2, h3, _⟩ := he
  unfold cleanStep
  simp [h1, h2, h3]

theorem cleanStep_dots_grow (st : CleanState) (h : st.dotdot = st.out.length) :
    cleanStep false st ['.', '.'] =
      { out := (if 0 < st.out.length then st.out ++ ['/'] else st.out) ++ ['.', '.'],
        dotdot := ((if 0 < st.out.length then st.out ++ ['/'] else st.out) ++ ['.', '.']).length } := by
  unfold cleanStep
  simp [h]

theorem cleanStep_nil (rooted : Bool) (st : CleanState) : cleanStep rooted st [] = st := by
  simp [cleanStep]

theorem cleanStep_dot (rooted : Bool) (st : CleanState) : cleanStep rooted st ['.'] = st := by
  simp [cleanStep]

theorem cleanReach_inv (rooted : Bool) (st : CleanState) (h : CleanReach rooted st) :
    st.dotdot ≤ st.out.length ∧
    (rooted = true → st.dotdot = 1 ∧ ∃ t, st.out = '/' :: t) ∧
    (rooted = false → st.out.head? ≠ some '/') := by
  induction h with
  | start =>
    cases rooted <;> simp [cleanStart]
  | dots st hr _ hd ih =>
    subst hr
    rw [cleanStep_dots_grow st hd]
    refine ⟨le_refl _, by simp, ?_⟩
    intro _
    obtain ⟨_, _, h3⟩ := ih
    cases hout : st.out with
    | nil => simp
    | cons a as =>
      have := h3 rfl
      rw [hout] at this
      simpa using this
  | element st e _ he ih =>
    rw [cleanStep_element_eq rooted st e he]
    obtain ⟨h1, h2, h3⟩ := ih
    refine ⟨?_, ?_, ?_⟩
    · show st.dotdot ≤ (_ ++ e).length
      rw [List.length_append]
      split
      · rw [List.length_append]; omega
      · omega
    · intro hr
      obtain ⟨hd, t, ht⟩ := h2 hr
      refine ⟨hd, ?_⟩
      simp only [ht]
      split
      · exact ⟨t ++ ['/'] ++ e, by simp⟩
      · exact ⟨t ++ e, by simp⟩
    · intro hr
      subst hr
      cases hout : st.out with
      | nil =>
        simp only [List.length_nil, bne_self_eq_false, Bool.and_false, Bool.or_false,
          Bool.false_and, Bool.not_false, Bool.true_and, Bool.false_eq_true, if_false,
          List.nil_append]
        obtain ⟨hne, _, _, hslash⟩ := he
        cases e with
        | nil => exact absurd rfl hne
        | cons a as =>
          simp only [List.head?_cons, ne_eq, Option.some.injEq]
          intro ha
          exact hslash (by simp [ha])
      | cons a as =>
        have := h3 rfl
        rw [hout] at this
        simp only [List.head?_cons, ne_eq, Option.some.injEq] at this
        split <;> simpa using this

theorem cleanScanBack_stop (d : Nat) (base tail : Str) (k : Nat) (hk : k < tail.length)
    (hd : d ≤ base.length) (hstop : d = base.length ∨ tail.head? = some '/')
    (hno : ∀ i, 0 < i → tail.get? i ≠ some '/') :
    cleanScanBack d (base ++ tail) (base.length + k) = base.length := by
  induction k with
  | zero =>
    cases hb : base.length with
    | zero => simp [cleanScanBack]
    | succ w =>
      simp only [Nat.add_zero]
      unfold cleanScanBack
      rcases hstop with h | h
      · rw [if_neg]
        intro hc
        omega
      · rw [if_neg]
        intro hc
        apply hc.2
        rw [← hb, List.get?_append_right (le_refl _)]
        cases tail with
        | nil => simp at h
        | cons a as => simpa using h
  | succ k ih =>
    rw [show base.length + (k + 1) = (base.length + k) + 1 from rfl]
    unfold cleanScanBack
    rw [if_pos]
    · exact ih (by omega)
    · refine ⟨by omega, ?_⟩
      rw [List.get?_append_right (by omega)]
      have := hno (k + 1) (by omega)
      rwa [show base.length + k + 1 - base.length = k + 1 by omega]

theorem get?_ne_slash_of_not_mem (e : Str) (h : '/' ∉ e) (i : Nat) : e.get? i ≠ some '/' := by
  intro hi
  exact h (List.get?_mem hi)

theorem cleanStep_backtrack (rooted : Bool) (st : CleanState) (e : Str)
    (hst : CleanReach rooted st) (he : IsElement e) :
    cleanStep rooted (cleanStep rooted st e) ['.', '.'] = st := by
  obtain ⟨h1, h2, h3⟩ := cleanReach_inv rooted st hst
  have hne : e ≠ [] := he.1
  have hslash : '/' ∉ e := he.2.2.2
  have hlen : 0 < e.length := List.length_pos.mpr hne
  rw [cleanStep_element_eq rooted st e he]
  by_cases hsep : ((rooted && st.out.length != 1) || (!rooted && st.out.length != 0)) = true
  · rw [if_pos hsep]
    have hscan := cleanScanBack_stop st.dotdot st.out ('/' :: e) e.length (by simp) h1
      (Or.inr rfl) (by
        intro i hi
        cases i with
        | zero => omega
        | succ j => simpa using get?_ne_slash_of_not_mem e hslash j)
    unfold cleanStep
    simp only [List.append_assoc, List.singleton_append, List.length_append, List.length_cons]
    have hlt : st.dotdot < st.out.length + (e.length + 1) := by omega
    simp only [hlt, if_true, reduceCtorEq, if_false, List.cons.injEq, List.cons_ne_self,
      and_false, and_self]
    rw [show st.out.length + (e.length + 1) - 1 = st.out.length + e.length by omega, hscan]
    simp
  · rw [if_neg hsep]
    have hd : st.dotdot = st.out.length := by
      cases rooted with
      | true =>
        obtain ⟨hd, t, ht⟩ := h2 rfl
        simp only [Bool.true_and, Bool.not_true, Bool.false_and, Bool.or_false, bne_iff_ne, ne_eq,
          not_not] at hsep
        omega
      | false =>
        simp only [Bool.false_and, Bool.not_false, Bool.true_and, Bool.false_or, bne_iff_ne, ne_eq,
          not_not] at hsep
        omega
    have hscan := cleanScanBack_stop st.dotdot st.out e (e.length - 1) (by omega) h1
      (Or.inl hd) (fun i _ => get?_ne_slash_of_not_mem e hslash i)
    unfold cleanStep
    simp only [List.length_append]
    have hlt : st.dotdot < st.out.length + e.length := by omega
    simp only [hlt, if_true, reduceCtorEq, if_false]
    rw [show st.out.length + e.length - 1 = st.out.length + (e.length - 1) by omega, hscan]
    simp

theorem cleanStep_reach (rooted : Bool) (st : CleanState) (elem : Str)
    (hst : CleanReach rooted st) (hslash : '/' ∉ elem) :
    CleanReach rooted (cleanStep rooted st elem) := by
  by_cases h1 : elem = []
  · rw [h1, cleanStep_nil]; exact hst
  by_cases h2 : elem = ['.']
  · rw [h2, cleanStep_dot]; exact hst
  by_cases h3 : elem = ['.', '.']
  · rw [h3]
    cases hst with
    | start =>
      cases rooted with
      | true =>
        have : cleanStep true (cleanStart true) ['.', '.'] = cleanStart true := by decide
        rw [this]
        exact CleanReach.start
      | false => exact CleanReach.dots _ rfl CleanReach.start rfl
    | dots st0 hr h0 hd =>
      subst hr
      apply CleanReach.dots _ rfl (CleanReach.dots _ rfl h0 hd)
      rw [cleanStep_dots_grow st0 hd]
    | element st0 e h0 he =>
      rw [cleanStep_backtrack rooted st0 e h0 he]
      exact h0
  · exact CleanReach.element st elem hst ⟨h1, h2, h3, hslash⟩

theorem splitSlash_no_slash (s : Str) : ∀ e ∈ splitSlash s, '/' ∉ e := by
  induction s with
  | nil => simp [splitSlash]
  | cons c cs ih =>
    unfold splitSlash
    split
    · intro e he
      rcases List.mem_cons.mp he with h | h
      · rw [h]; simp
      · exact ih e h
    · rename_i hc
      cases hs : splitSlash cs with
      | nil => exact absurd hs (splitSlash_ne_nil cs)
      | cons l ls =>
        rw [hs] at ih
        intro e he
        rcases List.mem_cons.mp he with h | h
        · rw [h]
          intro hmem
          rcases List.mem_cons.mp hmem with h' | h'
          · exact hc h'.symm
          · exact ih l (List.mem_cons_self _ _) h'
        · exact ih e (List.mem_cons_of_mem _ h)

theorem foldl_cleanStep_reach (rooted : Bool) (elems : List Str) (st : CleanState)
    (hst : CleanReach rooted st) (h : ∀ e ∈ elems, '/' ∉ e) :
    CleanReach rooted (elems.foldl (cleanStep rooted) st) := by
  induction elems generalizing st with
  | nil => exact hst
  | cons e es ih =>
    exact ih _ (cleanStep_reach rooted st e hst (h e (List.mem_cons_self _ _)))
      (fun x hx => h x (List.mem_cons_of_mem _ hx))

theorem cleanLoop_reach (rooted : Bool) (rest : Str) : CleanReach rooted (cleanLoop rooted rest) :=
  foldl_cleanStep_reach rooted _ _ CleanReach.start (splitSlash_no_slash rest)

theorem cleanLoop_append (rooted : Bool) (a b : Str) (hb : '/' ∉ b) :
    cleanLoop rooted (a ++ '/' :: b) = cleanStep rooted (cleanLoop rooted a) b := by
  unfold cleanLoop
  rw [splitSlash_append, List.foldl_append, splitSlash_of_no_slash b hb]
  rfl

theorem cleanLoop_element (rooted : Bool) (b : Str) (hb : '/' ∉ b) :
    cleanLoop rooted b = cleanStep rooted (cleanStart rooted) b := by
  unfold cleanLoop
  rw [splitSlash_of_no_slash b hb]
  rfl

theorem cleanLoop_out (rooted : Bool) (st : CleanState) (h : CleanReach rooted st) :
    cleanLoop rooted (cleanRest rooted st.out) = st := by
  induction h with
  | start => cases rooted <;> decide
  | dots st0 hr h0 hd ih =>
    subst hr
    have hslash : '/' ∉ ['.', '.'] := by decide
    rw [cleanStep_dots_grow st0 hd]
    simp only [cleanRest, Bool.false_eq_true, if_false] at ih ⊢
    by_cases hout : st0.out = []
    · have hst0 : st0 = cleanStart false := by
        cases st0 with
        | mk out dotdot =>
          simp only at hout hd
          subst hout
          simp [cleanStart, hd]
      rw [hst0]
      decide
    · have hpos : 0 < st0.out.length := List.length_pos.mpr hout
      simp only [hpos, if_true, List.append_assoc, List.singleton_append]
      rw [cleanLoop_append false _ _ hslash, ih, cleanStep_dots_grow st0 hd]
      simp [hpos]
  | element st0 e h0 he ih =>
    obtain ⟨h1, h2, h3⟩ := cleanReach_inv rooted st0 h0
    have hslash : '/' ∉ e := he.2.2.2
    rw [cleanStep_element_eq rooted st0 e he]
    cases rooted with
    | true =>
      obtain ⟨hd, t, ht⟩ := h2 rfl
      simp only [cleanRest, if_true] at ih ⊢
      by_cases hone : st0.out.length = 1
      · have hst0 : st0 = cleanStart true := by
          cases st0 with
          | mk out dotdot =>
            simp only at ht hd hone
            subst ht
            have : t = [] := by
              cases t with
              | nil => rfl
              | cons a as => simp at hone
            subst this
            simp [cleanStart, hd]
        subst hst0
        simp only [cleanStart, if_true, List.length_singleton, bne_self_eq_false, Bool.and_false,
          Bool.not_true, Bool.false_and, Bool.or_false, Bool.false_eq_true, if_false,
          List.singleton_append, List.drop_succ_cons, List.drop_zero]
        rw [cleanLoop_element true e hslash, cleanStep_element_eq true _ e he]
        simp [cleanStart]
      · simp only [Bool.true_and, bne_iff_ne, ne_eq, hone, not_false_eq_true, decide_True,
          Bool.not_true, Bool.false_and, Bool.or_false, if_true]
        rw [ht] at ih ⊢
        simp only [List.drop_succ_cons, List.drop_zero, List.cons_append, List.append_assoc,
          List.singleton_append, List.nil_append] at ih ⊢
        rw [cleanLoop_append true _ _ hslash, ih, cleanStep_element_eq true st0 e he]
        have htne : t ≠ [] := by
          intro h
          rw [ht, h] at hone
          exact hone rfl
        simp [ht, htne]
    | false =>
      simp only [cleanRest, Bool.false_eq_true, if_false] at ih ⊢
      by_cases hout : st0.out = []
      · have hst0 : st0 = cleanStart false := by
          cases st0 with
          | mk out dotdot =>
            simp only at hout h1
            subst hout
            simp only [List.length_nil, Nat.le_zero_eq] at h1
            simp [cleanStart, h1]
        subst hst0
        simp only [cleanStart, Bool.false_eq_true, if_false, List.length_nil, bne_self_eq_false,
          Bool.and_false, Bool.not_false, Bool.true_and, Bool.or_false, List.nil_append,
          Bool.false_and]
        rw [cleanLoop_element false e hslash, cleanStep_element_eq false _ e he]
        simp [cleanStart]
      · have hpos : st0.out.length ≠ 0 := fun h => hout (List.length_eq_zero.mp h)
        simp only [Bool.false_and, Bool.not_false, Bool.true_and, Bool.false_or, bne_iff_ne, ne_eq,
          hpos, not_false_eq_true, decide_True, if_true, List.append_assoc, List.singleton_append]
        rw [cleanLoop_append false _ _ hslash, ih, cleanStep_element_eq false st0 e he]
        simp [hpos]

theorem Clean_append_of_reach (rooted : Bool) (st : CleanState) (elem : Str)
    (hst : CleanReach rooted st) (hout : st.out ≠ []) (hslash : '/' ∉ elem) :
    Clean (st.out ++ '/' :: elem) =
      if (cleanStep rooted st elem).out.length = 0 then ['.']
      else (cleanStep rooted st elem).out := by
  obtain ⟨_, h2, h3⟩ := cleanReach_inv rooted st hst
  have hloop := cleanLoop_out rooted st hst
  cases hs : st.out with
  | nil => exact absurd hs hout
  | cons p ps =>
    rw [hs] at hloop
    rw [List.cons_append, Clean_cons]
    cases rooted with
    | true =>
      obtain ⟨_, t, ht⟩ := h2 rfl
      rw [hs] at ht
      have hp : p = '/' := (List.cons.inj ht).1
      subst hp
      simp only [decide_True, if_true]
      simp only [cleanRest, if_true, List.drop_succ_cons, List.drop_zero] at hloop
      rw [cleanLoop_append true _ _ hslash, hloop]
    | false =>
      have hp : p ≠ '/' := by
        have := h3 rfl
        rw [hs] at this
        simpa using this
      simp only [hp, decide_False, if_false]
      simp only [cleanRest, Bool.false_eq_true, if_false] at hloop
      rw [← List.cons_append, cleanLoop_append false _ _ hslash, hloop]

theorem dropWhile_append_of_all (p : Char → Bool) (l rest : Str) (h : ∀ c ∈ l, p c = true) :
    (l ++ rest).dropWhile p = rest.dropWhile p := by
  induction l with
  | nil => rfl
  | cons a as ih =>
    rw [List.cons_append, List.dropWhile_cons_of_pos (h a (List.mem_cons_self _ _))]
    exact ih (fun c hc => h c (List.mem_cons_of_mem _ hc))

theorem Dir_append_element (base name : Str) (hslash : '/' ∉ name) :
    Dir (base ++ '/' :: name) = Clean (base ++ ['/']) := by
  unfold Dir
  have hall : ∀ c ∈ name.reverse, (fun c => c != '/') c = true := by
    intro c hc
    have : c ≠ '/' := fun h => hslash (h ▸ List.mem_reverse.mp hc)
    simpa using this
  rw [List.reverse_append, List.reverse_cons, List.append_assoc,
    dropWhile_append_of_all _ _ _ hall]
  simp [List.dropWhile]

theorem Dir_element (name : Str) (hslash : '/' ∉ name) : Dir name = ['.'] := by
  unfold Dir
  have hall : ∀ c ∈ name.reverse, (fun c => c != '/') c = true := by
    intro c hc
    have : c ≠ '/' := fun h => hslash (h ▸ List.mem_reverse.mp hc)
    simpa using this
  have := dropWhile_append_of_all _ name.reverse [] hall
  rw [List.append_nil] at this
  rw [this]
  rfl

theorem Join_dot (name : Str) (he : IsElement name) : Join ['.'] name = name := by
  unfold Join
  simp only [ne_eq, List.cons_ne_self, not_false_eq_true, if_true, reduceCtorEq]
  rw [List.singleton_append, Clean_cons]
  have hdot : ('.' : Char) ≠ '/' := by decide
  simp only [hdot, decide_False, if_false]
  rw [show ('.' :: '/' :: name) = ['.'] ++ '/' :: name from rfl,
    cleanLoop_append false _ _ he.2.2.2]
  have : cleanLoop false ['.'] = cleanStart false := by decide
  rw [this, cleanStep_element_eq false _ name he]
  have hlen : name.length ≠ 0 := fun h => he.1 (List.length_eq_zero.mp h)
  simp [cleanStart, hlen]

theorem Dir_Join_dot (name : Str) (he : IsElement name) :
    Dir (Join ['.'] name) = ['.'] ∧ Join ['.'] name ≠ ['.'] ∧ ¬ (Join ['.'] name <+: ['.']) := by
  rw [Join_dot name he]
  refine ⟨Dir_element name he.2.2.2, he.2.1, ?_⟩
  intro hpre
  have hlen := hpre.length_le
  cases name with
  | nil => exact he.1 rfl
  | cons a as =>
    cases as with
    | cons b bs => simp at hlen
    | nil =>
      obtain ⟨t, ht⟩ := hpre
      have ha : a = '.' := by
        have := (List.cons.inj ht).1
        exact this
      exact he.2.1 (by rw [ha])

theorem Dir_Join_reach (rooted : Bool) (st : CleanState) (name : Str)
    (hst : CleanReach rooted st) (hout : st.out ≠ []) (he : IsElement name) :
    Dir (Join st.out name) = st.out ∧ Join st.out name ≠ st.out ∧
      ¬ (Join st.out name <+: st.out) := by
  obtain ⟨_, h2, _⟩ := cleanReach_inv rooted st hst
  have hslash : '/' ∉ name := he.2.2.2
  have hnlen : 0 < name.length := List.length_pos.mpr he.1
  have hjoin : Join st.out name = (cleanStep rooted st name).out := by
    unfold Join
    rw [if_pos hout, Clean_append_of_reach rooted st name hst hout hslash, if_neg]
    rw [cleanStep_element rooted st name he, List.length_append]
    omega
  have hself : Clean (st.out ++ ['/']) = st.out := by
    rw [Clean_append_of_reach rooted st [] hst hout (by simp), cleanStep_nil, if_neg]
    exact fun h => hout (List.length_eq_zero.mp h)
  rw [hjoin, cleanStep_element rooted st name he]
  by_cases hsep : ((rooted && st.out.length != 1) || (!rooted && st.out.length != 0)) = true
  · rw [if_pos hsep]
    refine ⟨?_, ?_, ?_⟩
    · rw [List.append_assoc, List.singleton_append, Dir_append_element st.out name hslash]
      exact hself
    · intro h
      have := congrArg List.length h
      simp only [List.length_append, List.length_singleton] at this
      omega
    · intro h
      have := h.length_le
      simp only [List.length_append, List.length_singleton] at this
      omega
  · rw [if_neg hsep]
    refine ⟨?_, ?_, ?_⟩
    · have hroot : st.out = ['/'] := by
        cases rooted with
        | true =>
          obtain ⟨_, t, ht⟩ := h2 rfl
          simp only [Bool.true_and, Bool.not_true, Bool.false_and, Bool.or_false, bne_iff_ne,
            ne_eq, not_not] at hsep
          rw [ht] at hsep ⊢
          cases t with
          | nil => rfl
          | cons a as => simp at hsep
        | false =>
          simp only [Bool.false_and, Bool.not_false, Bool.true_and, Bool.false_or, bne_iff_ne,
            ne_eq, not_not] at hsep
          exact absurd (List.length_eq_zero.mp hsep) hout
      rw [hroot, List.singleton_append,
        show ('/' :: name) = [] ++ '/' :: name from rfl, Dir_append_element [] name hslash]
      decide
    · intro h
      have := congrArg List.length h
      simp only [List.length_append] at this
      omega
    · intro h
      have := h.length_le
      simp only [List.length_append] at this
      omega

theorem Clean_reach (path : Str) :
    Clean path = ['.'] ∨ ∃ rooted st, CleanReach rooted st ∧ st.out ≠ [] ∧ Clean path = st.out := by
  cases path with
  | nil => exact Or.inl rfl
  | cons c cs =>
    rw [Clean_cons]
    by_cases hlen : (cleanLoop (decide (c = '/')) (if c = '/' then cs else c :: cs)).out.length = 0
    · rw [if_pos hlen]
      exact Or.inl rfl
    · rw [if_neg hlen]
      exact Or.inr ⟨_, _, cleanLoop_reach _ _, fun h => hlen (by rw [h]; rfl), rfl⟩

theorem Dir_Join_Clean (path name : Str) (he : IsElement name) :
    Dir (Join (Clean path) name) = Clean path ∧ Join (Clean path) name ≠ Clean path ∧
      ¬ (Join (Clean path) name <+: Clean path) := by
  rcases Clean_reach path with h | ⟨rooted, st, hst, hout, h⟩
  · rw [h]; exact Dir_Join_dot name he
  · rw [h]; exact Dir_Join_reach rooted st name hst hout he

theorem Join_reach (rooted : Bool) (st : CleanState) (name : Str)
    (hst : CleanReach rooted st) (hout : st.out ≠ []) (he : IsElement name) :
    Join st.out name = (cleanStep rooted st name).out := by
  have hnlen : 0 < name.length := List.length_pos.mpr he.1
  unfold Join
  rw [if_pos hout, Clean_append_of_reach rooted st name hst hout he.2.2.2, if_neg]
  rw [cleanStep_element rooted st name he, List.length_append]
  omega

theorem Join_Clean_left (path name : Str) (he : IsElement name) :
    Join (Clean path) name = Join path name := by
  cases path with
  | nil =>
    have h1 : Clean [] = ['.'] := rfl
    rw [h1, Join_dot name he]
    unfold Join
    simp only [ne_eq, not_true_eq_false, if_false, he.1, not_false_eq_true, if_true]
    exact (Clean_element name he).symm
  | cons c cs =>
    have hnlen : 0 < name.length := List.length_pos.mpr he.1
    have hreach := cleanLoop_reach (decide (c = '/')) (if c = '/' then cs else c :: cs)
    obtain ⟨_, h2, _⟩ := cleanReach_inv _ _ hreach
    have hright : Join (c :: cs) name
        = (cleanStep (decide (c = '/')) (cleanLoop (decide (c = '/'))
            (if c = '/' then cs else c :: cs)) name).out := by
      unfold Join
      rw [if_pos (by simp), List.cons_append, Clean_cons]
      have hrest : (if c = '/' then cs ++ '/' :: name else c :: (cs ++ '/' :: name))
          = (if c = '/' then cs else c :: cs) ++ '/' :: name := by
        split <;> rfl
      rw [hrest, cleanLoop_append _ _ _ he.2.2.2, if_neg]
      rw [cleanStep_element _ _ name he, List.length_append]
      omega
    rw [hright, Clean_cons]
    by_cases hlen : (cleanLoop (decide (c = '/')) (if c = '/' then cs else c :: cs)).out.length = 0
    · rw [if_pos hlen, Join_dot name he, cleanStep_element _ _ name he]
      have hroot : decide (c = '/') = false := by
        cases hd : decide (c = '/') with
        | false => rfl
        | true =>
          rw [hd] at h2 hlen
          obtain ⟨_, t, ht⟩ := h2 rfl
          rw [ht] at hlen
          simp at hlen
      rw [hroot] at hlen ⊢
      have hnil := List.length_eq_zero.mp hlen
      simp [hlen, hnil]
    · rw [if_neg hlen]
      exact Join_reach _ _ name hreach (fun h => hlen (by rw [h]; rfl)) he

theorem Dir_eq_Clean (path : Str) :
    Dir path = Clean (path.reverse.dropWhile (fun c => c != '/')).reverse := rfl

theorem Dir_Join (parent name : Str) (he : IsElement name) :
    Dir (Join parent name) = Clean parent := by
  rw [← Join_Clean_left parent name he]
  exact (Dir_Join_Clean parent name he).1

theorem Join_Dir_Join (parent name other : Str) (he : IsElement name) (ho : IsElement other) :
    Join (Dir (Join parent name)) other = Join parent other := by
  rw [Dir_Join parent name he, Join_Clean_left parent other ho]

theorem Join_ne_of_ne (parent name other : Str) (he : IsElement name) (ho : IsElement other)
    (hne : name ≠ other) : Join parent name ≠ Join parent other := by
  intro h
  have := congrArg Base h
  rw [Base_Join_element parent name he, Base_Join_element parent other ho] at this
  exact hne this

theorem Join_Clean_nil_dot (path : Str) :
    Join (Clean path) [] = Clean path ∧ Join (Clean path) ['.'] = Clean path := by
  rcases Clean_reach path with h | ⟨rooted, st, hst, hout, h⟩
  · rw [h]
    exact ⟨by decide, by decide⟩
  · rw [h]
    refine ⟨?_, ?_⟩
    · unfold Join
      rw [if_pos hout, Clean_append_of_reach rooted st [] hst hout (by simp), cleanStep_nil,
        if_neg]
      exact fun hl => hout (List.length_eq_zero.mp hl)
    · unfold Join
      rw [if_pos hout, Clean_append_of_reach rooted st ['.'] hst hout (by decide),
        cleanStep_dot, if_neg]
      exact fun hl => hout (List.length_eq_zero.mp hl)

theorem Clean_rooted (path : Str) (h : path.head? = some '/') :
    ∃ st, CleanReach true st ∧ st.out ≠ [] ∧ Clean path = st.out := by
  cases path with
  | nil => simp at h
  | cons c cs =>
    have hc : c = '/' := by simpa using h
    subst hc
    have hreach := cleanLoop_reach true cs
    obtain ⟨_, h2, _⟩ := cleanReach_inv _ _ hreach
    obtain ⟨_, t, ht⟩ := h2 rfl
    refine ⟨cleanLoop true cs, hreach, by rw [ht]; simp, ?_⟩
    rw [Clean_cons]
    simp only [decide_True, if_true]
    rw [if_neg]
    rw [ht]
    simp

theorem Join_dotdot_rooted (st : CleanState) (hst : CleanReach true st) :
    Join st.out ['.', '.'] = Dir st.out := by
  obtain ⟨_, h2, _⟩ := cleanReach_inv _ _ hst
  obtain ⟨_, t, ht⟩ := h2 rfl
  have hout : st.out ≠ [] := by rw [ht]; simp
  have hjoin : Join st.out ['.', '.'] = (cleanStep true st ['.', '.']).out := by
    have hr := cleanStep_reach true st ['.', '.'] hst (by decide)
    obtain ⟨_, h2', _⟩ := cleanReach_inv _ _ hr
    obtain ⟨_, t', ht'⟩ := h2' rfl
    unfold Join
    rw [if_pos hout, Clean_append_of_reach true st ['.', '.'] hst hout (by decide), if_neg]
    rw [ht']
    simp
  rw [hjoin]
  cases hst with
  | start => decide
  | dots st0 hr _ _ => exact absurd hr (by simp)
  | element st0 e h0 he =>
    obtain ⟨_, h20, _⟩ := cleanReach_inv _ _ h0
    obtain ⟨_, t0, ht0⟩ := h20 rfl
    have hout0 : st0.out ≠ [] := by rw [ht0]; simp
    rw [cleanStep_backtrack true st0 e h0 he, ← Join_reach true st0 e h0 hout0 he]
    exact (Dir_Join_reach true st0 e h0 hout0 he).1.symm

/-- C28 (amended): the directory is the entry `dirBase`, a proper name, of `parent`, so
that its path is `filepath.Join(parent, dirBase)`, and `renameDir` proposes a rename.
The source is that path, its parent (`filepath.Dir`) is the cleaned `parent` and its
base name is `dirBase`. When the sanitized rendering of the scheme is a proper name
(not empty, not `.` and not `..`), the target is a sibling of the directory: it is
`filepath.Join(parent, rendering)`, has the parent of the source, has the rendering,
which differs from `dirBase`, as its base name, and is neither the source, nor the
parent, nor an initial part of the path of the parent. When the rendering is empty or
`.`, the target is the parent itself. When the rendering is `..`, the target is the
parent joined with `..`, which for an absolute path is the parent of the parent. -/
theorem renameDir_sibling (dirScheme parent dirBase : Str) (fileMetadata : Metadata)
    (source target : Str) (hbase : IsElement dirBase)
    (h : renameDir dirScheme (Join parent dirBase) fileMetadata = some (source, target)) :
    source = Join parent dirBase ∧ Dir source = Clean parent ∧ Base source = dirBase ∧
    (stripUnwanted (applyMetadataToScheme dirScheme fileMetadata) ≠ [] →
      stripUnwanted (applyMetadataToScheme dirScheme fileMetadata) ≠ ['.'] →
      stripUnwanted (applyMetadataToScheme dirScheme fileMetadata) ≠ ['.', '.'] →
      target = Join parent (stripUnwanted (applyMetadataToScheme dirScheme fileMetadata)) ∧
      Dir target = Dir source ∧
      Base target = stripUnwanted (applyMetadataToScheme dirScheme fileMetadata) ∧
      stripUnwanted (applyMetadataToScheme dirScheme fileMetadata) ≠ dirBase ∧
      target ≠ source ∧ target ≠ Dir source ∧ ¬ (target <+: Dir source)) ∧
    ((stripUnwanted (applyMetadataToScheme dirScheme fileMetadata) = [] ∨
      stripUnwanted (applyMetadataToScheme dirScheme fileMetadata) = ['.']) →
      target = Dir source) ∧
    (stripUnwanted (applyMetadataToScheme dirScheme fileMetadata) = ['.', '.'] →
      target = Join (Dir source) ['.', '.'] ∧
      (parent.head? = some '/' → target = Dir (Dir source))) := by
  unfold renameDir at h
  simp only at h
  split at h
  · exact absurd h (by simp)
  · rename_i hne
    have hpair := Option.some.inj h
    have hs : Join parent dirBase = source := (Prod.mk.inj hpair).1
    have ht : Join (Dir (Join parent dirBase))
        (stripUnwanted (applyMetadataToScheme dirScheme fileMetadata)) = target :=
      (Prod.mk.inj hpair).2
    have hdir : Dir (Join parent dirBase) = Clean parent := Dir_Join parent dirBase hbase
    rw [← hs, hdir]
    rw [hdir] at ht hne
    refine ⟨rfl, rfl, Base_Join_element parent dirBase hbase, ?_, ?_, ?_⟩
    · intro hempty hdot hdotdot
      have he : IsElement (stripUnwanted (applyMetadataToScheme dirScheme fileMetadata)) :=
        ⟨hempty, hdot, hdotdot, no_slash_stripUnwanted _⟩
      obtain ⟨h1, h2, h3⟩ := Dir_Join_Clean parent _ he
      rw [ht] at h1 h2 h3
      have htarget : target
          = Join parent (stripUnwanted (applyMetadataToScheme dirScheme fileMetadata)) := by
        rw [← ht, Join_Clean_left parent _ he]
      refine ⟨htarget, h1, ?_, ?_, ?_, h2, h3⟩
      · rw [htarget]
        exact Base_Join_element _ _ he
      · intro heq
        apply hne
        rw [ht, htarget, heq]
      · intro heq
        exact hne (by rw [ht, heq])
    · intro hcase
      rcases hcase with hc | hc
      · rw [hc] at ht
        rw [← ht]
        exact (Join_Clean_nil_dot parent).1
      · rw [hc] at ht
        rw [← ht]
        exact (Join_Clean_nil_dot parent).2
    · intro hc
      rw [hc] at ht
      refine ⟨ht.symm, ?_⟩
      intro hroot
      obtain ⟨st, hst, _, hclean⟩ := Clean_rooted parent hroot
      rw [← ht, hclean]
      exact Join_dotdot_rooted st hst

theorem renameDir_sibling_witness :
    (IsElement "X".toList ∧
      renameDir "%(ARTIST)s".toList (Join "/m".toList "X".toList)
        [("ARTIST".toList, "Foo".toList)] = some ("/m/X".toList, "/m/Foo".toList)) ∧
    "/m/Foo".toList = Join "/m".toList
      (stripUnwanted (applyMetadataToScheme "%(ARTIST)s".toList
        [("ARTIST".toList, "Foo".toList)])) ∧
    Dir "/m/Foo".toList = Dir "/m/X".toList ∧
    Base "/m/Foo".toList = stripUnwanted (applyMetadataToScheme "%(ARTIST)s".toList
      [("ARTIST".toList, "Foo".toList)]) ∧
    stripUnwanted (applyMetadataToScheme "%(ARTIST)s".toList
      [("ARTIST".toList, "Foo".toList)]) ≠ "X".toList ∧
    "/m/Foo".toList ≠ "/m/X".toList ∧ "/m/Foo".toList ≠ Dir "/m/X".toList ∧
    ¬ ("/m/Foo".toList <+: Dir "/m/X".toList) :=
  ⟨⟨⟨by decide, by decide, by decide, by decide⟩, by decide⟩,
    (renameDir_sibling "%(ARTIST)s".toList "/m".toList "X".toList
      [("ARTIST".toList, "Foo".toList)] "/m/X".toList "/m/Foo".toList
      ⟨by decide, by decide, by decide, by decide⟩ (by decide)).2.2.2.1
      (by decide) (by decide) (by decide)⟩

/-- C28 (counterexample): for the directory `/m/X`, whose parent is `/m`, and the scheme
`%(ARTIST)s`, `renameDir` proposes a rename in each of three cases, and the target is
no sibling of the directory: with the artist `..` the target is `/`, the parent of the
parent; with the artist `.` and with the artist `?!`, which consists of blacklisted
characters only, the target is the parent `/m` itself, and the sanitized rendering
differs from its base name `m`. -/
theorem renameDir_target_outside_parent :
    Dir "/m/X".toList = "/m".toList ∧
    renameDir "%(ARTIST)s".toList "/m/X".toList [("ARTIST".toList, "..".toList)]
      = some ("/m/X".toList, "/".toList) ∧
    Dir "/".toList ≠ Dir "/m/X".toList ∧
    "/".toList <+: Dir "/m/X".toList ∧
    renameDir "%(ARTIST)s".toList "/m/X".toList [("ARTIST".toList, ".".toList)]
      = some ("/m/X".toList, "/m".toList) ∧
    renameDir "%(ARTIST)s".toList "/m/X".toList [("ARTIST".toList, "?!".toList)]
      = some ("/m/X".toList, "/m".toList) ∧
    stripUnwanted (applyMetadataToScheme "%(ARTIST)s".toList [("ARTIST".toList, "?!".toList)])
      = [] ∧
    Base "/m".toList ≠ [] ∧
    Dir "/m".toList ≠ Dir "/m/X".toList := by
  refine ⟨by decide, by decide, by decide, ?_, by decide, by decide, by decide, by decide,
    by decide⟩
  exact ⟨"m".toList, by decide⟩

/-- C16 (as amended): the directory is the entry `name`, a proper name other than
`Foo - Bar`, of `parent`, so that its path is `filepath.Join(parent, name)`; it holds
exactly two audio files, not yet named per the scheme, whose ingested metadata are
those of the scenario (tracks 01 and 02, Song A and Song B, artist Foo, album Bar).
With the file scheme compiled from `%n - %a - %t` and the directory scheme compiled
from `%a - %b` (in whatever order `unwrapKeys` ranges over the alias table) and the
default check list, the plan of `workDir` maps the two files to
`01 - Foo - Song A.flac` and `02 - Foo - Song B.flac` in the directory and nothing
else, renames the directory to `filepath.Join(parent, "Foo - Bar")`, and records no
error. -/
theorem workDir_two_tracks (w : World) (order₁ order₂ : List (Str × Str))
    (parent name : Str) (filenames : List Str) (f₁ f₂ fileScheme dirScheme coverName : Str)
    (hname : IsElement name) (hnamed : name ≠ "Foo - Bar".toList)
    (ho₁ : order₁.Perm MAPPINGS) (ho₂ : order₂.Perm MAPPINGS)
    (hfs : unwrapKeys order₁ "%n - %a - %t".toList false = .ok fileScheme)
    (hds : unwrapKeys order₂ "%a - %b".toList true = .ok dirScheme)
    (haudio : (filenames.filter isFlac).Perm [f₁, f₂])
    (hfetch₁ : w.FetchMetadata (Join (Join parent name) f₁) = .ok trackA)
    (hfetch₂ : w.FetchMetadata (Join (Join parent name) f₂) = .ok trackB)
    (hnew₁ : Join (Join parent name) f₁
      ≠ Join (Join parent name) "01 - Foo - Song A.flac".toList)
    (hnew₂ : Join (Join parent name) f₂
      ≠ Join (Join parent name) "02 - Foo - Song B.flac".toList) :
    (workDir w defaultUniformCmdTags (Join parent name) filenames fileScheme dirScheme
        coverName).FileActions.Perm
      [(Join (Join parent name) f₁, Join (Join parent name) "01 - Foo - Song A.flac".toList),
        (Join (Join parent name) f₂,
          Join (Join parent name) "02 - Foo - Song B.flac".toList)] ∧
    (workDir w defaultUniformCmdTags (Join parent name) filenames fileScheme dirScheme
        coverName).hasDirAction = true ∧
    (workDir w defaultUniformCmdTags (Join parent name) filenames fileScheme dirScheme
        coverName).DirAction = (Join parent name, Join parent "Foo - Bar".toList) ∧
    (workDir w defaultUniformCmdTags (Join parent name) filenames fileScheme dirScheme
        coverName).Errors = [] ∧
    Dir (Join parent name) = Dir (Join parent "Foo - Bar".toList) ∧
    Base (Join parent "Foo - Bar".toList) = "Foo - Bar".toList := by
  have hfoo : IsElement "Foo - Bar".toList := ⟨by decide, by decide, by decide, by decide⟩
  have hnd : Join parent name ≠ Join (Dir (Join parent name)) "Foo - Bar".toList := by
    rw [Join_Dir_Join parent name _ hname hfoo]
    exact Join_ne_of_ne parent name _ hname hfoo hnamed
  obtain ⟨h1, h2, h3, h4⟩ := two_tracks_plan w order₁ order₂ (Join parent name) filenames
    f₁ f₂ fileScheme dirScheme coverName ho₁ ho₂ hfs hds haudio hfetch₁ hfetch₂ hnew₁ hnew₂ hnd
  rw [Join_Dir_Join parent name _ hname hfoo] at h3
  refine ⟨h1, h2, h3, h4, ?_, Base_Join_element _ _ hfoo⟩
  rw [Dir_Join parent name hname, Dir_Join parent _ hfoo]

theorem workDir_two_tracks_witness :
    (IsElement "X".toList ∧ "X".toList ≠ "Foo - Bar".toList ∧
      MAPPINGS.Perm MAPPINGS ∧ MAPPINGS.reverse.Perm MAPPINGS ∧
      unwrapKeys MAPPINGS "%n - %a - %t".toList false
        = .ok "%(TRACKNUMBER)s - %(ARTIST)s - %(TITLE)s".toList ∧
      unwrapKeys MAPPINGS.reverse "%a - %b".toList true
        = .ok "%(ARTIST)s - %(ALBUM)s".toList ∧
      scenarioWorld.FetchMetadata (Join (Join "/m".toList "X".toList) "a.flac".toList)
        = .ok trackA ∧
      scenarioWorld.FetchMetadata (Join (Join "/m".toList "X".toList) "b.flac".toList)
        = .ok trackB) ∧
    (workDir scenarioWorld defaultUniformCmdTags (Join "/m".toList "X".toList)
        ["b.flac".toList, "cover.jpg".toList, "a.flac".toList]
        "%(TRACKNUMBER)s - %(ARTIST)s - %(TITLE)s".toList "%(ARTIST)s - %(ALBUM)s".toList
        "cover".toList).FileActions.Perm
      [(Join (Join "/m".toList "X".toList) "a.flac".toList,
          Join (Join "/m".toList "X".toList) "01 - Foo - Song A.flac".toList),
        (Join (Join "/m".toList "X".toList) "b.flac".toList,
          Join (Join "/m".toList "X".toList) "02 - Foo - Song B.flac".toList)] ∧
    (workDir scenarioWorld defaultUniformCmdTags (Join "/m".toList "X".toList)
        ["b.flac".toList, "cover.jpg".toList, "a.flac".toList]
        "%(TRACKNUMBER)s - %(ARTIST)s - %(TITLE)s".toList "%(ARTIST)s - %(ALBUM)s".toList
        "cover".toList).hasDirAction = true ∧
    (workDir scenarioWorld defaultUniformCmdTags (Join "/m".toList "X".toList)
        ["b.flac".toList, "cover.jpg".toList, "a.flac".toList]
        "%(TRACKNUMBER)s - %(ARTIST)s - %(TITLE)s".toList "%(ARTIST)s - %(ALBUM)s".toList
        "cover".toList).DirAction
      = (Join "/m".toList "X".toList, Join "/m".toList "Foo - Bar".toList) ∧
    (workDir scenarioWorld defaultUniformCmdTags (Join "/m".toList "X".toList)
        ["b.flac".toList, "cover.jpg".toList, "a.flac".toList]
        "%(TRACKNUMBER)s - %(ARTIST)s - %(TITLE)s".toList "%(ARTIST)s - %(ALBUM)s".toList
        "cover".toList).Errors = [] ∧
    Dir (Join "/m".toList "X".toList) = Dir (Join "/m".toList "Foo - Bar".toList) ∧
    Base (Join "/m".toList "Foo - Bar".toList) = "Foo - Bar".toList :=
  ⟨⟨⟨by decide, by decide, by decide, by decide⟩, by decide, List.Perm.refl _,
      List.reverse_perm _, by decide, by decide, by decide, by decide⟩,
    workDir_two_tracks scenarioWorld MAPPINGS MAPPINGS.reverse "/m".toList "X".toList
      ["b.flac".toList, "cover.jpg".toList, "a.flac".toList] "a.flac".toList "b.flac".toList
      "%(TRACKNUMBER)s - %(ARTIST)s - %(TITLE)s".toList "%(ARTIST)s - %(ALBUM)s".toList
      "cover".toList ⟨by decide, by decide, by decide, by decide⟩ (by decide)
      (List.Perm.refl _) (List.reverse_perm _) (by decide) (by decide)
      (List.Perm.swap _ _ _) (by decide) (by decide) (by decide) (by decide)⟩

end FlacMate
